import Mathlib

/-! # MemoryPool

A shallow embedding of `class MemoryPool` from
`References_and_Pointers/task8_advanced_memory_management_with_custom_allocators.cpp`.

* `size_t` is a natural number below `2 ^ 64`; `+=` and `-=` on it wrap.
* A `void*` is the natural number of its address, `0` being `nullptr`.
* `malloc` is not part of the program: each call site receives what that call of
  `malloc` handed back (a `Chunk`: the address, and the indeterminate byte found at each offset).
  `MallocOK` states what the C library promises about such a result.
* `new Block(...)` and `push_back` are taken to succeed (otherwise the program ends with an
  uncaught `std::bad_alloc`).
* The lines written to `cout` are kept as a list of `Msg` values, one constructor per
  output statement of the member functions embedded here.
-/

/-- The number of values of a `size_t` (and of a pointer). -/
abbrev sizeMod : Nat := 2 ^ 64

/-- The operator `a += b` on `size_t`. -/
def addSize (a b : Nat) : Nat := (a + b) % sizeMod

/-- The operator `a -= b` on `size_t`. -/
def subSize (a b : Nat) : Nat := (a + (sizeMod - b % sizeMod)) % sizeMod

/-- The call `memset(buf, v, n)` on a buffer holding `bytes`; `v` is stored as `unsigned char`. -/
def memset (bytes : List Nat) (v n : Nat) : List Nat :=
  List.replicate n (v % 256) ++ bytes.drop n

/-- The result of one call of `malloc`: the address returned (`0` when it fails) and the byte
the fresh buffer happens to hold at each offset. -/
structure Chunk where
  addr : Nat
  junk : Nat → Nat

/-- The nested `struct Block`. `bytes` is the content of the buffer `memory` points to. -/
structure MemoryPool.Block where
  memory : Nat
  size : Nat
  inUse : Bool
  owner : String
  bytes : List Nat
deriving DecidableEq, Repr

/-- The constructor `Block(size_t s)`, `got` being what its `malloc(size)` returned. -/
def MemoryPool.Block.new (s : Nat) (got : Chunk) : MemoryPool.Block :=
  { memory := got.addr, size := s, inUse := false, owner := "",
    bytes := (List.range s).map (fun i => got.junk i % 256) }

/-- The data members of `class MemoryPool`. -/
structure MemoryPool where
  pool : List MemoryPool.Block
  totalMemory : Nat
  usedMemory : Nat
deriving DecidableEq, Repr

namespace MemoryPool

/-- One constructor per `cout` statement of the constructor, `allocate`, `deallocate` and
`detectLeaks`, with the values it prints. -/
inductive Msg where
  | initializing (initialSize : Nat)
  | preallocated (size addr : Nat)
  | preallocateFailed (size : Nat)
  | initialized (blocks totalMemory : Nat)
  | zeroBytes (requester : String)
  | allocated (size : Nat) (requester : String) (addr : Nat)
  | noSuitableBlock (requestedSize : Nat)
  | created (requester : String) (addr : Nat)
  | allocateFailed (requestedSize : Nat) (requester : String)
  | nullDeallocate (requester : String)
  | doubleDeallocation (requester : String) (addr : Nat)
  | ownerWarning (requester owner : String)
  | deallocated (size : Nat) (requester : String)
  | untracked (requester : String) (addr : Nat)
  | leakDetection
  | leak (size : Nat) (owner : String) (addr : Nat)
  | noLeaks
deriving DecidableEq, Repr

/-- What a member function leaves behind: its return value, the object afterwards and the
lines it printed. -/
structure Outcome (α : Type) where
  ret : α
  state : MemoryPool
  out : List Msg
deriving DecidableEq, Repr

/-- What a `for (Block* block : pool)` loop that returned from inside its body leaves behind. -/
structure Scan (α : Type) where
  ret : α
  blocks : List Block
  usedMemory : Nat
  out : List Msg
deriving DecidableEq, Repr

/-- The value `vector<size_t> blockSizes` of the constructor. -/
def blockSizes : List Nat := [64, 256, 1024, 4096, 16384]

/-- The state of the constructor while it runs: the object under construction, the number of
`malloc` calls made so far and the lines printed. -/
structure Ctor where
  state : MemoryPool
  calls : Nat
  out : List Msg
deriving DecidableEq, Repr

/-- The body of the inner constructor loop (lines 39-47); `malloc k` is what the `k`-th call
of `malloc` returns. -/
def ctorBody (malloc : Nat → Chunk) (size : Nat) (c : Ctor) : Ctor :=
  let block := Block.new size (malloc c.calls)
  if block.memory ≠ 0 then
    { state := { c.state with pool := c.state.pool ++ [block],
                              totalMemory := addSize c.state.totalMemory size },
      calls := c.calls + 1,
      out := c.out ++ [Msg.preallocated size block.memory] }
  else
    { state := c.state, calls := c.calls + 1, out := c.out ++ [Msg.preallocateFailed size] }

/-- The two nested constructor loops (lines 37-49). -/
def ctorLoops (malloc : Nat → Chunk) (c : Ctor) : Ctor :=
  blockSizes.foldl
    (fun c size => (List.range 4).foldl (fun c _ => ctorBody malloc size c) c) c

/-- The object and the output when the constructor reaches its loops (line 36). -/
def ctorStart : Ctor :=
  { state := { pool := [], totalMemory := 0, usedMemory := 0 }, calls := 0, out := [] }

/-- The constructor `MemoryPool(size_t initialSize = 1024 * 1024)`. -/
def new (initialSize : Nat) (malloc : Nat → Chunk) : Outcome Unit :=
  let c := ctorLoops malloc ctorStart
  { ret := (), state := c.state,
    out := Msg.initializing initialSize :: c.out
            ++ [Msg.initialized c.state.pool.length c.state.totalMemory] }

/-- The default argument of the constructor. -/
def defaultInitialSize : Nat := 1024 * 1024

/-- The loop of `allocate` (lines 58-69): `none` when it runs to its end without returning. -/
def allocateLoop (requestedSize : Nat) (requester : String) (usedMemory : Nat) :
    List Block → Option (Scan Nat)
  | [] => none
  | block :: rest =>
    if block.inUse = false ∧ block.size ≥ requestedSize then
      some { ret := block.memory,
             blocks := { block with inUse := true, owner := requester,
                                    bytes := memset block.bytes 0 block.size } :: rest,
             usedMemory := addSize usedMemory block.size,
             out := [Msg.allocated block.size requester block.memory] }
    else
      (allocateLoop requestedSize requester usedMemory rest).map
        (fun s => { s with blocks := block :: s.blocks })

/-- The member function `allocate`; `got` is what `malloc` returns if `new Block` is reached. -/
def allocate (p : MemoryPool) (requestedSize : Nat) (requester : String) (got : Chunk) :
    Outcome Nat :=
  if requestedSize = 0 then
    { ret := 0, state := p, out := [Msg.zeroBytes requester] }
  else
    match allocateLoop requestedSize requester p.usedMemory p.pool with
    | some s =>
      { ret := s.ret, state := { p with pool := s.blocks, usedMemory := s.usedMemory },
        out := s.out }
    | none =>
      let newBlock := Block.new requestedSize got
      if newBlock.memory ≠ 0 then
        { ret := newBlock.memory,
          state :=
            { pool := p.pool ++ [{ newBlock with inUse := true, owner := requester,
                                                 bytes := memset newBlock.bytes 0 requestedSize }],
              totalMemory := addSize p.totalMemory requestedSize,
              usedMemory := addSize p.usedMemory requestedSize },
          out := [Msg.noSuitableBlock requestedSize, Msg.created requester newBlock.memory] }
      else
        { ret := 0, state := p,
          out := [Msg.noSuitableBlock requestedSize, Msg.allocateFailed requestedSize requester] }

/-- The loop of `deallocate` (lines 93-112): `none` when it runs to its end without
returning. -/
def deallocateLoop (ptr : Nat) (requester : String) (usedMemory : Nat) :
    List Block → Option (Scan Bool)
  | [] => none
  | block :: rest =>
    if block.memory = ptr then
      if block.inUse = false then
        some { ret := false, blocks := block :: rest, usedMemory := usedMemory,
               out := [Msg.doubleDeallocation requester ptr] }
      else
        some { ret := true,
               blocks := { block with inUse := false, owner := "",
                                      bytes := memset block.bytes 0xFF block.size } :: rest,
               usedMemory := subSize usedMemory block.size,
               out := (if block.owner ≠ requester
                        then [Msg.ownerWarning requester block.owner] else [])
                      ++ [Msg.deallocated block.size requester] }
    else
      (deallocateLoop ptr requester usedMemory rest).map
        (fun s => { s with blocks := block :: s.blocks })

/-- The member function `deallocate`. -/
def deallocate (p : MemoryPool) (ptr : Nat) (requester : String) : Outcome Bool :=
  if ptr = 0 then
    { ret := false, state := p, out := [Msg.nullDeallocate requester] }
  else
    match deallocateLoop ptr requester p.usedMemory p.pool with
    | some s =>
      { ret := s.ret, state := { p with pool := s.blocks, usedMemory := s.usedMemory },
        out := s.out }
    | none => { ret := false, state := p, out := [Msg.untracked requester ptr] }

/-- A store of one byte by the holder of the handle `ptr`, at offset `off` of its buffer (as
`main` does through `tempBuffer`); the class itself has no such member. -/
def store (p : MemoryPool) (ptr off v : Nat) : MemoryPool :=
  { p with pool := p.pool.map (fun block =>
      if block.memory = ptr then { block with bytes := block.bytes.set off (v % 256) }
      else block) }

/-- What the C library promises about the address in `got`, returned by `malloc(size)` while the
buffers of `live` are allocated: it is null, or `size` bytes from it lie inside the address
space and overlap none of those buffers. -/
def MallocOK (live : List Block) (size : Nat) (got : Chunk) : Prop :=
  got.addr = 0 ∨
    (got.addr + size ≤ sizeMod ∧
      ∀ b ∈ live, got.addr + size ≤ b.memory ∨ b.memory + b.size ≤ got.addr)

instance (live : List Block) (size : Nat) (got : Chunk) : Decidable (MallocOK live size got) := by
  unfold MallocOK; infer_instance

/-- The constructor body together with the check that the `malloc` result it consumes keeps
the promise of `MallocOK`. -/
def ctorBodyOK (malloc : Nat → Chunk) (size : Nat) (c : Ctor × Bool) : Ctor × Bool :=
  (ctorBody malloc size c.1,
   c.2 && decide (MallocOK c.1.state.pool size (malloc c.1.calls)))

/-- The constructor loops with that check at every call of `malloc`. -/
def ctorLoopsOK (malloc : Nat → Chunk) (c : Ctor × Bool) : Ctor × Bool :=
  blockSizes.foldl
    (fun c size => (List.range 4).foldl (fun c _ => ctorBodyOK malloc size c) c) c

/-- Whether every `malloc` result the constructor consumes keeps the promise of `MallocOK`. -/
def ctorOK (malloc : Nat → Chunk) : Bool :=
  (ctorLoopsOK malloc (ctorStart, true)).2

/-- The states a `MemoryPool` object can be in: after its constructor, and after any further
call of `allocate` or `deallocate` and any store into a buffer, with `malloc` keeping its
promise. -/
inductive Reachable : MemoryPool → Prop
  | construct (initialSize : Nat) (malloc : Nat → Chunk) :
      ctorOK malloc = true → Reachable (new initialSize malloc).state
  | allocate {p : MemoryPool} (requestedSize : Nat) (requester : String) (got : Chunk) :
      Reachable p → MallocOK p.pool requestedSize got →
      Reachable (p.allocate requestedSize requester got).state
  | deallocate {p : MemoryPool} (ptr : Nat) (requester : String) :
      Reachable p → Reachable (p.deallocate ptr requester).state
  | store {p : MemoryPool} (ptr off v : Nat) :
      Reachable p → Reachable (p.store ptr off v)

/-- The sum of `size` over the blocks whose `inUse` flag is set. -/
def inUseTotal (blocks : List Block) : Nat :=
  ((blocks.filter (fun b => b.inUse)).map (fun b => b.size)).sum

/-- The sum of `size` over all blocks. -/
def sizeTotal (blocks : List Block) : Nat :=
  (blocks.map (fun b => b.size)).sum

/-- Address and size of the buffer of every block. -/
def regions (blocks : List Block) : List (Nat × Nat) :=
  blocks.map (fun b => (b.memory, b.size))

/-- Two buffers, each given by address and size, do not overlap. -/
def Apart (x y : Nat × Nat) : Prop :=
  x.1 + x.2 ≤ y.1 ∨ y.1 + y.2 ≤ x.1

instance (x y : Nat × Nat) : Decidable (Apart x y) := by
  unfold Apart; infer_instance

/-- The invariant of the class: the buffers are non-null, non-empty, inside the address space
and pairwise apart; the two counters are the sums they stand for; a free block has no owner;
the buffer of a block holds `size` bytes. -/
structure WF (p : MemoryPool) : Prop where
  region : ∀ x ∈ regions p.pool, x.1 ≠ 0 ∧ 0 < x.2 ∧ x.1 + x.2 ≤ sizeMod
  apart : (regions p.pool).Pairwise Apart
  total : p.totalMemory = sizeTotal p.pool
  used : p.usedMemory = inUseTotal p.pool
  freeOwner : ∀ b ∈ p.pool, b.inUse = false → b.owner = ""
  length : ∀ b ∈ p.pool, b.bytes.length = b.size

/-- An oracle for `malloc` that places the `k`-th buffer at address `(k + 1) * 65536`. -/
def spacedMalloc (k : Nat) : Chunk :=
  { addr := (k + 1) * 65536, junk := fun _ => 0xAA }

/-- The default pool of `main` (line 157), built on `spacedMalloc`. -/
def freshPool : MemoryPool := (new defaultInitialSize spacedMalloc).state

/-- A `malloc` result for the call after the constructor's twenty, in the manner of
`spacedMalloc`. -/
def nextChunk : Chunk := spacedMalloc 20

/-- The default pool after `allocate(64, "Sensor")`. -/
def leasedPool : MemoryPool := (freshPool.allocate 64 "Sensor" nextChunk).state

/-- The loop of `detectLeaks` (lines 135-141), entered with `leaksFound` as given: the lines
it prints and the final value of `leaksFound`. -/
def detectLeaksLoop (leaksFound : Bool) : List Block → List Msg × Bool
  | [] => ([], leaksFound)
  | block :: rest =>
    if block.inUse = true then
      (Msg.leak block.size block.owner block.memory :: (detectLeaksLoop true rest).1,
       (detectLeaksLoop true rest).2)
    else
      detectLeaksLoop leaksFound rest

/-- The member function `detectLeaks`. -/
def detectLeaks (p : MemoryPool) : Outcome Unit :=
  { ret := (), state := p,
    out := Msg.leakDetection :: (detectLeaksLoop false p.pool).1
            ++ (if (detectLeaksLoop false p.pool).2 = false then [Msg.noLeaks] else []) }

/-- The line `detectLeaks` prints for a block in use. -/
def leakLine (b : Block) : Msg := Msg.leak b.size b.owner b.memory

/-- The blocks whose `inUse` flag is set, in pool order. -/
def inUseBlocks (blocks : List Block) : List Block := blocks.filter (fun b => b.inUse)

/-- The states reached from the constructor by `N` successful calls of `allocate` (a non-null
handle came back) and no call of `deallocate`; calls of `allocate` that failed and stores into
buffers may lie in between. -/
inductive AllocatedOnly : Nat → MemoryPool → Prop
  | construct (initialSize : Nat) (malloc : Nat → Chunk) :
      ctorOK malloc = true → AllocatedOnly 0 (new initialSize malloc).state
  | success {N : Nat} {p : MemoryPool} (requestedSize : Nat) (requester : String)
      (got : Chunk) :
      AllocatedOnly N p → MallocOK p.pool requestedSize got →
      (p.allocate requestedSize requester got).ret ≠ 0 →
      AllocatedOnly (N + 1) (p.allocate requestedSize requester got).state
  | failure {N : Nat} {p : MemoryPool} (requestedSize : Nat) (requester : String)
      (got : Chunk) :
      AllocatedOnly N p → MallocOK p.pool requestedSize got →
      (p.allocate requestedSize requester got).ret = 0 →
      AllocatedOnly N (p.allocate requestedSize requester got).state
  | store {N : Nat} {p : MemoryPool} (ptr off v : Nat) :
      AllocatedOnly N p → AllocatedOnly N (p.store ptr off v)

/-- The number of blocks in use with the given owner and `size ≥ n`. -/
def countOwned (owner : String) (n : Nat) (blocks : List Block) : Nat :=
  (blocks.filter (fun b => b.inUse && (b.owner == owner) && decide (n ≤ b.size))).length

/-- The default pool after `allocate(20000, "X")` and `allocate(17000, "Y")`, which append a
block each, and the `deallocate` of both. -/
def twiceGrownPool : MemoryPool :=
  ((((freshPool.allocate 20000 "X" (spacedMalloc 20)).state.allocate 17000 "Y"
      (spacedMalloc 21)).state.deallocate (spacedMalloc 20).addr "X").state.deallocate
      (spacedMalloc 21).addr "Y").state

/-- The default pool after `allocate(64, "Sensor")`, a store of the byte `7` through the
handle, and the `deallocate` of the handle: the buffer of the first block holds `0xFF`. -/
def scribbledPool : MemoryPool :=
  ((leasedPool.store 65536 0 7).deallocate 65536 "Sensor").state

end MemoryPool

/-! # MemoryManager

A shallow embedding of `class MemoryManager` from
`References_and_Pointers/task9_practice_solution.cpp`, as a class of its own: its member
functions are called directly, and the nodes of its `std::map` come from the default allocator.

* The `std::map<void*, AllocationInfo>` is the list of its entries in ascending key order.
* `malloc` and `time` are not part of the program: `allocateMemory` receives what its calls of
  them returned (`got`, `now`).
* `throw bad_alloc()` is the completion `Completion.threw`.
* What is written to `logFile` and `cout`, and the calls of `free`, are kept as `Event`s.
-/

/-- The nested `struct AllocationInfo`. -/
structure MemoryManager.AllocationInfo where
  size : Nat
  timestamp : Int
  isArray : Bool
  location : String
deriving DecidableEq, Repr

/-- The data members of `class MemoryManager`; `logOpen` is `logFile.is_open()`. -/
structure MemoryManager where
  allocations : List (Nat × MemoryManager.AllocationInfo)
  totalAllocations : Nat
  totalDeallocations : Nat
  currentAllocatedBytes : Nat
  peakAllocatedBytes : Nat
  totalBytesAllocated : Nat
  logOpen : Bool
deriving DecidableEq, Repr

namespace MemoryManager

/-- A line written to `logFile` (without its time prefix), a line written to `cout`, or a call
of `free`. -/
inductive Event where
  | log (message : String)
  | cout (line : String)
  | free (ptr : Nat)
deriving DecidableEq, Repr

/-- How a member function ends: it returns a value or leaves by `throw bad_alloc()`. -/
inductive Completion (α : Type) where
  | returned (value : α)
  | threw
deriving DecidableEq, Repr

/-- What a member function leaves behind: how it ended, the object afterwards and what it
wrote and freed. -/
structure Result (α : Type) where
  ret : Completion α
  state : MemoryManager
  out : List Event
deriving DecidableEq, Repr

/-- The expression `allocations[ptr] = info`: the entry for `ptr` is replaced, or a new entry
is put at its place in key order. -/
def mapAssign (ptr : Nat) (info : AllocationInfo) :
    List (Nat × AllocationInfo) → List (Nat × AllocationInfo)
  | [] => [(ptr, info)]
  | entry :: rest =>
    if ptr < entry.1 then (ptr, info) :: entry :: rest
    else if ptr = entry.1 then (ptr, info) :: rest
    else entry :: mapAssign ptr info rest

/-- The call `allocations.find(ptr)`: the entry for `ptr`, `none` standing for `end()`. -/
def mapFind (ptr : Nat) : List (Nat × AllocationInfo) → Option AllocationInfo
  | [] => none
  | entry :: rest => if entry.1 = ptr then some entry.2 else mapFind ptr rest

/-- The call `allocations.erase(it)` for the iterator `find(ptr)` returned. -/
def mapErase (ptr : Nat) : List (Nat × AllocationInfo) → List (Nat × AllocationInfo)
  | [] => []
  | entry :: rest => if entry.1 = ptr then rest else entry :: mapErase ptr rest

/-- The member function `logToFile`: the events it adds. -/
def logToFile (m : MemoryManager) (message : String) : List Event :=
  if m.logOpen = false then [] else [Event.log message]

/-- The constructor `MemoryManager()`; `opened` tells whether `logFile.open` succeeded. -/
def new (opened : Bool) : Result Unit :=
  let m : MemoryManager :=
    { allocations := [], totalAllocations := 0, totalDeallocations := 0,
      currentAllocatedBytes := 0, peakAllocatedBytes := 0, totalBytesAllocated := 0,
      logOpen := opened }
  { ret := Completion.returned (), state := m,
    out := logToFile m "Memory Manager initialized"
            ++ [Event.cout "Memory Manager started - logging to memory_log.txt"] }

/-- The suffix `(isArray ? " [ARRAY]" : " [SINGLE]")` of the log lines. -/
def kindTag (isArray : Bool) : String := if isArray then " [ARRAY]" else " [SINGLE]"

/-- The member function `allocateMemory`; `got` is what `malloc(size)` returns and `now` what
`time(nullptr)` returns, if they are reached. -/
def allocateMemory (m : MemoryManager) (size : Nat) (isArray : Bool) (got : Nat) (now : Int) :
    Result Nat :=
  if size = 0 then
    { ret := Completion.returned 0, state := m,
      out := logToFile m "Warning: Attempted to allocate 0 bytes" }
  else if got = 0 then
    { ret := Completion.threw, state := m,
      out := logToFile m
        ("CRITICAL: Memory allocation failed for " ++ toString size ++ " bytes") }
  else
    let currentAllocatedBytes := addSize m.currentAllocatedBytes size
    { ret := Completion.returned got,
      state :=
        { m with
          allocations :=
            mapAssign got { size := size, timestamp := now, isArray := isArray,
                            location := "Unknown" } m.allocations,
          totalAllocations := addSize m.totalAllocations 1,
          currentAllocatedBytes := currentAllocatedBytes,
          totalBytesAllocated := addSize m.totalBytesAllocated size,
          peakAllocatedBytes :=
            if currentAllocatedBytes > m.peakAllocatedBytes then currentAllocatedBytes
            else m.peakAllocatedBytes },
      out := logToFile m
        ("ALLOC: " ++ toString size ++ " bytes at " ++ toString got ++ kindTag isArray) }

/-- The text of the type-mismatch error (lines 101-103). -/
def mismatchError (allocatedAsArray deletedAsArray : Bool) : String :=
  "ERROR: Memory type mismatch - allocated as "
    ++ (if allocatedAsArray then "array" else "single")
    ++ " but deleted as " ++ (if deletedAsArray then "array" else "single")

/-- The member function `deallocateMemory`. -/
def deallocateMemory (m : MemoryManager) (ptr : Nat) (isArray : Bool) : Result Unit :=
  if ptr = 0 then
    { ret := Completion.returned (), state := m,
      out := logToFile m "Warning: Attempted to delete null pointer" }
  else
    match mapFind ptr m.allocations with
    | none =>
      { ret := Completion.returned (), state := m,
        out := logToFile m ("ERROR: Attempted to delete untracked memory at " ++ toString ptr)
                ++ [Event.cout "WARNING: Deleting untracked memory!"] }
    | some info =>
      { ret := Completion.returned (),
        state :=
          { m with
            currentAllocatedBytes := subSize m.currentAllocatedBytes info.size,
            totalDeallocations := addSize m.totalDeallocations 1,
            allocations := mapErase ptr m.allocations },
        out := (if info.isArray ≠ isArray
                  then logToFile m (mismatchError info.isArray isArray)
                        ++ [Event.cout ("WARNING: " ++ mismatchError info.isArray isArray)]
                  else [])
                ++ logToFile m
                    ("DEALLOC: " ++ toString info.size ++ " bytes at " ++ toString ptr
                      ++ kindTag isArray)
                ++ [Event.free ptr] }

/-- The member function `allocateArray`. -/
def allocateArray (m : MemoryManager) (size : Nat) (got : Nat) (now : Int) : Result Nat :=
  m.allocateMemory size true got now

/-- The member function `deallocateArray`. -/
def deallocateArray (m : MemoryManager) (ptr : Nat) : Result Unit :=
  m.deallocateMemory ptr true

/-- The value of `calculatedBytes` after the loop of `validateMemory` (lines 208-211). -/
def calculatedBytes (m : MemoryManager) : Nat :=
  m.allocations.foldl (fun acc pair => addSize acc pair.2.size) 0

/-- The member function `validateMemory`. -/
def validateMemory (m : MemoryManager) : Result Bool :=
  if m.totalDeallocations > m.totalAllocations then
    { ret := Completion.returned false, state := m,
      out := [Event.cout "\n=== Memory Validation ===",
              Event.cout "❌ ERROR: More deallocations than allocations!"] }
  else if m.calculatedBytes ≠ m.currentAllocatedBytes then
    { ret := Completion.returned false, state := m,
      out := [Event.cout "\n=== Memory Validation ===",
              Event.cout "❌ ERROR: Byte count mismatch!"] }
  else
    { ret := Completion.returned true, state := m,
      out := [Event.cout "\n=== Memory Validation ===",
              Event.cout "✓ Memory validation passed"] }

/-- One call of a member function that allocates or deallocates, with what `malloc` and `time`
return during it. -/
inductive Call where
  | allocateMemory (size : Nat) (isArray : Bool) (got : Nat) (now : Int)
  | allocateArray (size : Nat) (got : Nat) (now : Int)
  | deallocateMemory (ptr : Nat) (isArray : Bool)
  | deallocateArray (ptr : Nat)
deriving DecidableEq, Repr

/-- The object after one call. -/
def step (m : MemoryManager) : Call → MemoryManager
  | Call.allocateMemory size isArray got now => (m.allocateMemory size isArray got now).state
  | Call.allocateArray size got now => (m.allocateArray size got now).state
  | Call.deallocateMemory ptr isArray => (m.deallocateMemory ptr isArray).state
  | Call.deallocateArray ptr => (m.deallocateArray ptr).state

/-- The object after a sequence of calls. -/
def run (m : MemoryManager) (calls : List Call) : MemoryManager :=
  calls.foldl step m

/-- Every state the object is in during a sequence of calls, from the state before the first
call to the state after the last. -/
def history (m : MemoryManager) : List Call → List MemoryManager
  | [] => [m]
  | call :: rest => m :: history (m.step call) rest

/-- Address and size of every tracked allocation. -/
def tracked (m : MemoryManager) : List (Nat × Nat) :=
  m.allocations.map (fun entry => (entry.1, entry.2.size))

/-- What the C library promises about the result `got` of `malloc(size)` while the tracked
allocations are live: it is null, or `size` bytes from it lie inside the address space and
overlap none of them. -/
def MallocOK (m : MemoryManager) (size got : Nat) : Prop :=
  got = 0 ∨ (got + size ≤ sizeMod ∧ ∀ x ∈ m.tracked, MemoryPool.Apart (got, size) x)

instance (m : MemoryManager) (size got : Nat) : Decidable (MallocOK m size got) := by
  unfold MallocOK; infer_instance

/-- The promise of `MallocOK` for the `malloc` result a call consumes. -/
def CallOK (m : MemoryManager) : Call → Prop
  | Call.allocateMemory size _ got _ => MallocOK m size got
  | Call.allocateArray size got _ => MallocOK m size got
  | Call.deallocateMemory _ _ => True
  | Call.deallocateArray _ => True

instance (m : MemoryManager) (call : Call) : Decidable (CallOK m call) := by
  cases call <;> unfold CallOK <;> infer_instance

/-- The promise of `MallocOK` at every call of a sequence started in `m`. -/
def CallsOK (m : MemoryManager) : List Call → Prop
  | [] => True
  | call :: rest => CallOK m call ∧ CallsOK (m.step call) rest

/-- Whether `CallsOK` holds can be computed. -/
def decideCallsOK : (m : MemoryManager) → (calls : List Call) → Decidable (CallsOK m calls)
  | _, [] => isTrue trivial
  | m, call :: rest =>
    match decideCallsOK (m.step call) rest with
    | isTrue hrest =>
      if hcall : CallOK m call then isTrue ⟨hcall, hrest⟩
      else isFalse (fun h => hcall h.1)
    | isFalse hrest => isFalse (fun h => hrest h.2)

instance (m : MemoryManager) (calls : List Call) : Decidable (CallsOK m calls) :=
  decideCallsOK m calls

/-- The invariant of the class: the tracked allocations are non-null, non-empty, inside the
address space and pairwise apart; `currentAllocatedBytes` is the sum of their sizes and is at
most `peakAllocatedBytes`. -/
structure WF (m : MemoryManager) : Prop where
  region : ∀ x ∈ m.tracked, x.1 ≠ 0 ∧ 0 < x.2 ∧ x.1 + x.2 ≤ sizeMod
  apart : m.tracked.Pairwise MemoryPool.Apart
  current : m.currentAllocatedBytes = (m.tracked.map Prod.snd).sum
  peak : m.currentAllocatedBytes ≤ m.peakAllocatedBytes

/-- The replaced global `operator new` (lines 235-241) once `globalMemoryManager` is set, with
the calls of `operator new` that the standard library makes inside `allocateMemory`: for the
buffer of the `std::string` handed to `logToFile` (`messageSize` bytes, on the zero-size and
on the failed-`malloc` path), and for the node that `allocations[ptr]` inserts (`nodeSize`
bytes). Each of them comes before anything else `allocateMemory` does on its path, so the rest
of `allocateMemory` is the parameter `resume`, applied to what the nested call returned.
`malloc d` is what `malloc` returns in the call nested `d` deep; the result is `none` when the
calls nest deeper than `fuel`. -/
def operatorNew (nodeSize messageSize : Nat) (malloc : Nat → Nat)
    (resume : Nat → MemoryManager → Nat → Result Nat → Option (Result Nat)) :
    Nat → Nat → MemoryManager → Nat → Option (Result Nat)
  | 0, _, _, _ => none
  | fuel + 1, depth, m, size =>
    if size = 0 then
      (operatorNew nodeSize messageSize malloc resume fuel (depth + 1) m messageSize).bind
        (resume depth m size)
    else if malloc depth = 0 then
      (operatorNew nodeSize messageSize malloc resume fuel (depth + 1) m messageSize).bind
        (resume depth m size)
    else
      (operatorNew nodeSize messageSize malloc resume fuel (depth + 1) m nodeSize).bind
        (resume depth m size)

/-- Up to the `k`-th call no counter of calls has wrapped: `totalAllocations` is the number of
tracked allocations plus `totalDeallocations`, and at most `k`. -/
def Counted (k : Nat) (m : MemoryManager) : Prop :=
  m.totalAllocations = m.totalDeallocations + m.allocations.length ∧ m.totalAllocations ≤ k

/-- The calls of `testBasicOperations` (lines 276-286), with `malloc` returning `4096` and then
`8192`. -/
def basicCalls : List Call :=
  [Call.allocateMemory 4 false 4096 0, Call.deallocateMemory 4096 false,
   Call.allocateArray 100 8192 0, Call.deallocateArray 8192]

/-- Three allocations and two releases (the second of the wrong kind), with a null, a
zero-size and an untracked call in between: usage rises to 154 and falls to 100. -/
def peakCalls : List Call :=
  [Call.allocateMemory 4 false 4096 0, Call.allocateArray 50 8192 1,
   Call.allocateArray 100 12288 2, Call.deallocateArray 8192,
   Call.deallocateMemory 0 false, Call.allocateMemory 0 false 0 3,
   Call.deallocateMemory 999 false, Call.deallocateArray 4096]

end MemoryManager

/-! # SecureAccount

A shallow embedding of `class SecureAccount` from
`OOPS_1_ClassDefinition_ObjectInteractionPractice/task6_financial_security_system.cpp`.

The class computes with `double`. The embedding does not fix what a `double` is: it takes the
operations the class uses on `double` as a parameter (`DoubleOps`), so that what is proved
holds for IEEE 754 arithmetic as for any other reading of them. `NanLaws` states the facts
about the value NaN that IEEE 754 fixes and the proofs use.
-/

/-- The operations on `double` that `SecureAccount` uses: `a <= b`, `a > b`, `a < b`,
`a + b`, `a - b`, the literals (`0`, `0.0`, `50000`, `10000`), `std::to_string`, the output
with `std::fixed << std::setprecision(2)`, and the value NaN. -/
structure DoubleOps (D : Type) where
  le : D → D → Bool
  gt : D → D → Bool
  lt : D → D → Bool
  add : D → D → D
  sub : D → D → D
  lit : Nat → D
  to_string : D → String
  fixed2 : D → String
  nan : D

/-- What IEEE 754 fixes about NaN: every ordered comparison with NaN is false, and a sum with
NaN is NaN. -/
structure NanLaws {D : Type} (ops : DoubleOps D) : Prop where
  le_nan : ∀ x, ops.le ops.nan x = false
  gt_nan : ∀ x, ops.gt ops.nan x = false
  gt_right_nan : ∀ x, ops.gt x ops.nan = false
  lt_nan : ∀ x, ops.lt x ops.nan = false
  add_nan : ∀ x, ops.add x ops.nan = ops.nan

/-- The data members of `class SecureAccount`. -/
structure SecureAccount (D : Type) where
  accountNumber : String
  ownerName : String
  balance : D
  accountType : String
  isActive : Bool
  transactionHistory : List String

namespace SecureAccount

/-- What a member function leaves behind: its return value, the object afterwards and the
lines it printed. -/
structure Outcome (D : Type) where
  ret : Bool
  state : SecureAccount D
  out : List String

/-- The private member function `logTransaction`. -/
def logTransaction {D : Type} (a : SecureAccount D) (transaction : String) : SecureAccount D :=
  let pushed := a.transactionHistory ++ [transaction]
  { a with transactionHistory := if pushed.length > 50 then pushed.drop 1 else pushed }

/-- The member function `deposit`. -/
def deposit {D : Type} (ops : DoubleOps D) (a : SecureAccount D) (amount : D) : Outcome D :=
  if a.isActive = false then
    { ret := false, state := a, out := ["Error: Cannot deposit to inactive account"] }
  else if ops.le amount (ops.lit 0) = true then
    { ret := false, state := a, out := ["Error: Deposit amount must be positive"] }
  else if ops.gt amount (ops.lit 50000) = true then
    { ret := false, state := a, out := ["Error: Deposit exceeds daily limit of $50,000"] }
  else
    let balance := ops.add a.balance amount
    { ret := true,
      state := logTransaction { a with balance := balance }
        ("Deposit: +$" ++ ops.to_string amount),
      out := ["Successfully deposited $" ++ ops.fixed2 amount ++ ". New balance: $"
                ++ ops.fixed2 balance] }

/-- The member function `withdraw`. -/
def withdraw {D : Type} (ops : DoubleOps D) (a : SecureAccount D) (amount : D) : Outcome D :=
  if a.isActive = false then
    { ret := false, state := a, out := ["Error: Cannot withdraw from inactive account"] }
  else if ops.le amount (ops.lit 0) = true then
    { ret := false, state := a, out := ["Error: Withdrawal amount must be positive"] }
  else if ops.gt amount a.balance = true then
    { ret := false, state := a,
      out := ["Error: Insufficient funds. Current balance: $" ++ ops.fixed2 a.balance] }
  else if ops.gt amount (ops.lit 10000) = true then
    { ret := false, state := a, out := ["Error: Withdrawal exceeds daily limit of $10,000"] }
  else
    let balance := ops.sub a.balance amount
    { ret := true,
      state := logTransaction { a with balance := balance }
        ("Withdrawal: -$" ++ ops.to_string amount),
      out := ["Successfully withdrew $" ++ ops.fixed2 amount ++ ". New balance: $"
                ++ ops.fixed2 balance] }

/-- A reading of `DoubleOps` that meets `NanLaws`: the numbers are the integers, `none` is
NaN. It serves to run the class on NaN; it is not a model of `double` arithmetic. -/
def sampleOps : DoubleOps (Option Int) where
  le := fun a b => match a, b with
    | some x, some y => decide (x ≤ y)
    | _, _ => false
  gt := fun a b => match a, b with
    | some x, some y => decide (x > y)
    | _, _ => false
  lt := fun a b => match a, b with
    | some x, some y => decide (x < y)
    | _, _ => false
  add := fun a b => match a, b with
    | some x, some y => some (x + y)
    | _, _ => none
  sub := fun a b => match a, b with
    | some x, some y => some (x - y)
    | _, _ => none
  lit := fun n => some (n : Int)
  to_string := fun a => match a with
    | some x => toString x
    | none => "nan"
  fixed2 := fun a => match a with
    | some x => toString x ++ ".00"
    | none => "nan"
  nan := none

/-- The account of `main` (line 176) in the reading `sampleOps`. -/
def sampleAccount : SecureAccount (Option Int) :=
  { accountNumber := "ACC002", ownerName := "Jane Smith", balance := some 1500,
    accountType := "Checking", isActive := true,
    transactionHistory := ["Account created with initial balance: $1500.000000"] }

end SecureAccount

/-! # The inventory list

A shallow embedding of `removeItem` from `References_and_Pointers/task5_solution.cpp`. A
null-terminated chain of `Node`s is the list of its `itemName`s; `head` is passed by reference,
so the function returns the list `head` points to afterwards together with its result.
-/

namespace Inventory

/-- The loop of `removeItem` (lines 104-113), at the node `current` holding `item0` and
followed by `rest`: whether it returned `true`, and the chain from `current` on afterwards. -/
def removeLoop (item : String) : String → List String → Bool × List String
  | item0, [] => (false, [item0])
  | item0, next :: more =>
    if next = item then (true, item0 :: more)
    else ((removeLoop item next more).1, item0 :: (removeLoop item next more).2)

/-- The function `removeItem`. -/
def removeItem (head : List String) (item : String) : Bool × List String :=
  match head with
  | [] => (false, [])
  | first :: rest =>
    if first = item then (true, rest)
    else removeLoop item first rest

end Inventory

/-! # Customer ID validation

A shallow embedding of `main` from `2_1_Console Input Validation and Formatting/validation.cpp`
and from `solution_1.cpp` in the same directory. The console input is the sequence of what the
evaluations of `std::cin >> id` yield (after each failed round the rest of the line is
discarded by `cin.ignore`), followed by the end of input. A loop that goes round more than
`fuel` times gives `none`.
-/

namespace CustomerId

/-- One evaluation of `std::cin >> id`: a number was read into `id`; or none could be read,
the stream failed and `id` holds `stored` (zero, or a limit of `int` on overflow); or the input
had ended, the stream failed and `id` is untouched. -/
inductive Extraction where
  | ok (value : Int)
  | failed (stored : Int)
  | eof
deriving DecidableEq, Repr

/-- The next evaluation of `std::cin >> id` on the rest of the input. -/
def next : List Extraction → Extraction × List Extraction
  | [] => (Extraction.eof, [])
  | e :: rest => (e, rest)

/-- What `main` ends with: the value it reports and the lines it printed. -/
structure Report where
  id : Int
  out : List String
deriving DecidableEq, Repr

/-- The body of the loop of `validation.cpp` (lines 24-28): the new `count` and the output. -/
def validationBody (count : Int) (out : List String) : Int × List String :=
  (count + 1,
   out ++ [toString (count + 1), "Invalid Input. Valid range is between 0 to 120: "])

/-- The loop of `validation.cpp` (line 23) and the report after it (line 30). -/
def validationLoop : Nat → Int → Int → List Extraction → List String → Option Report
  | 0, _, _, _, _ => none
  | fuel + 1, count, id, input, out =>
    if count < 3 then
      match next input with
      | (Extraction.ok value, rest) =>
        if value < 1000 ∨ value > 10000 then
          validationLoop fuel (validationBody count out).1 value rest
            (validationBody count out).2
        else
          some { id := value, out := out ++ ["Age entered: " ++ toString value] }
      | (Extraction.failed stored, rest) =>
        validationLoop fuel (validationBody count out).1 stored rest
          (validationBody count out).2
      | (Extraction.eof, rest) =>
        validationLoop fuel (validationBody count out).1 id rest (validationBody count out).2
    else
      some { id := id, out := out ++ ["Age entered: " ++ toString id] }

/-- The function `main` of `validation.cpp`; `garbage` is the indeterminate value the
uninitialised `id` starts with. -/
def validationMain (fuel : Nat) (garbage : Int) (input : List Extraction) : Option Report :=
  validationLoop fuel 0 garbage input ["Enter customer age: "]

/-- The loop of `solution_1.cpp` (line 6) and the report after it (line 11). -/
def solutionLoop : Nat → Int → List Extraction → List String → Option Report
  | 0, _, _, _ => none
  | fuel + 1, customerID, input, out =>
    match next input with
    | (Extraction.ok value, rest) =>
      if value < 1000 ∨ value > 9999 then
        solutionLoop fuel value rest
          (out ++ ["Invalid input. Please enter a customer ID between 1000 and 9999: "])
      else
        some { id := value, out := out ++ ["Customer ID entered: " ++ toString value] }
    | (Extraction.failed stored, rest) =>
      solutionLoop fuel stored rest
        (out ++ ["Invalid input. Please enter a customer ID between 1000 and 9999: "])
    | (Extraction.eof, rest) =>
      solutionLoop fuel customerID rest
        (out ++ ["Invalid input. Please enter a customer ID between 1000 and 9999: "])

/-- The function `main` of `solution_1.cpp`. -/
def solutionMain (fuel : Nat) (garbage : Int) (input : List Extraction) : Option Report :=
  solutionLoop fuel garbage input ["Enter customer ID (1000-9999): "]

end CustomerId

/-! # Phone number validation

A shallow embedding of `validatePhone` from `2_3_Advanced_stream_mgmt/validation_w_regex.cpp`.
The regular expression of the source is the raw string of lines 25-27, line breaks included:
`(\d3⏎\d{3}⏎\s?|\d{3}[-.]?)\d{3}[-.]?\d{4}`. It is kept as a syntax tree (`Rx`);
`std::regex_match` holds when some way of matching uses up the whole string.
-/

namespace PhoneRegex

/-- The regular expressions the pattern is built from: a given character, `\d`, `\s`, a
bracket of characters, a sequence, an alternative, `?`, and `{n}`. -/
inductive Rx where
  | chr (c : Char)
  | digit
  | space
  | oneOf (cs : List Char)
  | cat (a b : Rx)
  | alt (a b : Rx)
  | opt (a : Rx)
  | times (n : Nat) (a : Rx)

/-- What `\s` matches: space, tab, line feed, vertical tab, form feed, carriage return. -/
def isSpace (c : Char) : Bool := c.toNat = 32 || (9 ≤ c.toNat && c.toNat ≤ 13)

/-- What `\d` matches: `0` to `9`. -/
def isDigit (c : Char) : Bool := 48 ≤ c.toNat && c.toNat ≤ 57

/-- Going `n` times through a matching step. -/
def iterate (step : List Char → List (List Char)) : Nat → List Char → List (List Char)
  | 0, s => [s]
  | n + 1, s => (step s).flatMap (iterate step n)

/-- Every rest of `s` that is left after the expression has matched a beginning of `s`. -/
def Rx.rests : Rx → List Char → List (List Char)
  | Rx.chr c, s =>
    match s with
    | [] => []
    | x :: xs => if x = c then [xs] else []
  | Rx.digit, s =>
    match s with
    | [] => []
    | x :: xs => if isDigit x then [xs] else []
  | Rx.space, s =>
    match s with
    | [] => []
    | x :: xs => if isSpace x then [xs] else []
  | Rx.oneOf cs, s =>
    match s with
    | [] => []
    | x :: xs => if x ∈ cs then [xs] else []
  | Rx.cat a b, s => (a.rests s).flatMap (fun r => b.rests r)
  | Rx.alt a b, s => a.rests s ++ b.rests s
  | Rx.opt a, s => a.rests s ++ [s]
  | Rx.times n a, s => iterate (fun r => a.rests r) n s

/-- The call `std::regex_match(s, pattern)`. -/
def regex_match (s : List Char) (pattern : Rx) : Bool :=
  (pattern.rests s).any (fun r => r.isEmpty)

/-- The first alternative of the group: `\d3⏎\d{3}⏎\s?`. -/
def firstAlternative : Rx :=
  Rx.cat Rx.digit (Rx.cat (Rx.chr '3') (Rx.cat (Rx.chr (Char.ofNat 10))
    (Rx.cat (Rx.times 3 Rx.digit) (Rx.cat (Rx.chr (Char.ofNat 10)) (Rx.opt Rx.space)))))

/-- The second alternative of the group: `\d{3}[-.]?`. -/
def secondAlternative : Rx :=
  Rx.cat (Rx.times 3 Rx.digit) (Rx.opt (Rx.oneOf ['-', '.']))

/-- The value of `phone_pattern`. -/
def phone_pattern : Rx :=
  Rx.cat (Rx.alt firstAlternative secondAlternative)
    (Rx.cat (Rx.times 3 Rx.digit) (Rx.cat (Rx.opt (Rx.oneOf ['-', '.'])) (Rx.times 4 Rx.digit)))

/-- The function `validatePhone`. -/
def validatePhone (phone : List Char) : Bool :=
  regex_match phone phone_pattern

end PhoneRegex

/-! # Word counter

A shallow embedding of `count_words` from `word_char_counter/words.cpp`. A `std::string` is the
list of its characters; `std::isalnum` and the whitespace that `operator>>` skips are those of
the "C" locale. The result is `none` where the source has no defined result (`++count` on the
largest `int`) or when the loop goes round more often than the fuel it is given, which
`count_words` sets to more than the length of the string.
-/

namespace WordCounter

/-- The function `std::isalnum` in the "C" locale. -/
def isalnum (c : Char) : Bool :=
  (48 ≤ c.toNat && c.toNat ≤ 57) || (65 ≤ c.toNat && c.toNat ≤ 90)
    || (97 ≤ c.toNat && c.toNat ≤ 122)

/-- The function `std::isspace` in the "C" locale. -/
def isspace (c : Char) : Bool := c.toNat = 32 || (9 ≤ c.toNat && c.toNat ≤ 13)

/-- The value of `cleaned` after the first loop (lines 24-30). -/
def cleaned (text : List Char) : List Char :=
  text.map (fun c => if isalnum c then c else ' ')

/-- The expression `iss >> word` on what is left of the stream: `none` when it fails,
otherwise the word read and what is left after it. -/
def extractWord (s : List Char) : Option (List Char × List Char) :=
  if s.dropWhile isspace = [] then none
  else some ((s.dropWhile isspace).takeWhile (fun c => !isspace c),
             (s.dropWhile isspace).dropWhile (fun c => !isspace c))

/-- The largest value of an `int`. -/
def INT_MAX : Nat := 2147483647

/-- The loop `while (iss >> word) ++count;` (lines 36-38). -/
def countLoop : Nat → List Char → Nat → Option Nat
  | 0, _, _ => none
  | fuel + 1, s, count =>
    match extractWord s with
    | none => some count
    | some (_, rest) => if count = INT_MAX then none else countLoop fuel rest (count + 1)

/-- The function `count_words`. -/
def count_words (text : List Char) : Option Nat :=
  countLoop ((cleaned text).length + 1) (cleaned text) 0

/-- The number of maximal runs of consecutive characters for which `q` holds, counted at the
first character of each run; `inRun` tells whether the character before belongs to a run. -/
def runsFrom (q : Char → Bool) (inRun : Bool) : List Char → Nat
  | [] => 0
  | c :: rest =>
    if q c then (if inRun then 0 else 1) + runsFrom q true rest
    else runsFrom q false rest

/-- Modelled from the spec: the number of maximal runs of consecutive alphanumeric characters
in `text`. -/
def alnumRuns (text : List Char) : Nat := runsFrom isalnum false text

/-- The string of `main.cpp` (line 6). -/
def sampleText : List Char := "Hellow, World! C++ is amazing and very powerful.".toList

end WordCounter

namespace MemoryPool

/-! ## The two loops -/

theorem allocateLoop_eq_none (n : Nat) (r : String) (u : Nat) (bs : List Block) :
    allocateLoop n r u bs = none ↔ ∀ c ∈ bs, ¬ (c.inUse = false ∧ n ≤ c.size) := by
  induction bs with
  | nil => simp [allocateLoop]
  | cons b rest ih =>
    by_cases hb : b.inUse = false ∧ n ≤ b.size
    · simp [allocateLoop, hb]
    · simp only [allocateLoop, ge_iff_le, hb, if_false, Option.map_eq_none', ih,
        List.mem_cons, forall_eq_or_imp, not_false_eq_true, true_and]

theorem allocateLoop_split (n : Nat) (r : String) (u : Nat) (pre post : List Block) (b : Block)
    (hpre : ∀ c ∈ pre, ¬ (c.inUse = false ∧ n ≤ c.size))
    (hb : b.inUse = false ∧ n ≤ b.size) :
    allocateLoop n r u (pre ++ b :: post) =
      some { ret := b.memory,
             blocks := pre ++ { b with inUse := true, owner := r,
                                       bytes := memset b.bytes 0 b.size } :: post,
             usedMemory := addSize u b.size,
             out := [Msg.allocated b.size r b.memory] } := by
  induction pre with
  | nil => simp [allocateLoop, hb]
  | cons c pre ih =>
    have hc : ¬ (c.inUse = false ∧ n ≤ c.size) := hpre c (List.mem_cons_self _ _)
    have ih1 := ih (fun d hd => hpre d (List.mem_cons_of_mem _ hd))
    rw [List.cons_append, allocateLoop, if_neg hc, ih1]; rfl

theorem exists_first_split {α : Type} (q : α → Prop) (l : List α) (h : ∃ a ∈ l, q a) :
    ∃ pre b post, l = pre ++ b :: post ∧ (∀ c ∈ pre, ¬ q c) ∧ q b := by
  induction l with
  | nil => simp at h
  | cons a rest ih =>
    by_cases ha : q a
    · exact ⟨[], a, rest, rfl, by simp, ha⟩
    · have h1 : ∃ x ∈ rest, q x := by
        obtain ⟨x, hx, hq⟩ := h
        rcases List.mem_cons.1 hx with rfl | hx
        · exact absurd hq ha
        · exact ⟨x, hx, hq⟩
      obtain ⟨pre, b, post, he, hp, hq⟩ := ih h1
      refine ⟨a :: pre, b, post, by simp [he], ?_, hq⟩
      intro c hc
      rcases List.mem_cons.1 hc with rfl | hc
      · exact ha
      · exact hp c hc

theorem deallocateLoop_eq_none (ptr : Nat) (r : String) (u : Nat) (bs : List Block) :
    deallocateLoop ptr r u bs = none ↔ ∀ c ∈ bs, c.memory ≠ ptr := by
  induction bs with
  | nil => simp [deallocateLoop]
  | cons b rest ih =>
    by_cases hb : b.memory = ptr
    · by_cases hu : b.inUse = false <;> simp [deallocateLoop, hb, hu]
    · simp only [deallocateLoop, hb, if_false, Option.map_eq_none', ih, List.mem_cons,
        forall_eq_or_imp, ne_eq, not_false_eq_true, true_and]

theorem deallocateLoop_split_free (ptr : Nat) (r : String) (u : Nat) (pre post : List Block)
    (b : Block) (hpre : ∀ c ∈ pre, c.memory ≠ ptr) (hb : b.memory = ptr)
    (hfree : b.inUse = false) :
    deallocateLoop ptr r u (pre ++ b :: post) =
      some { ret := false, blocks := pre ++ b :: post, usedMemory := u,
             out := [Msg.doubleDeallocation r ptr] } := by
  induction pre with
  | nil => simp [deallocateLoop, hb, hfree]
  | cons c pre ih =>
    have hc : ¬ c.memory = ptr := hpre c (List.mem_cons_self _ _)
    have ih1 := ih (fun d hd => hpre d (List.mem_cons_of_mem _ hd))
    rw [List.cons_append, deallocateLoop, if_neg hc, ih1]; rfl

theorem deallocateLoop_split_used (ptr : Nat) (r : String) (u : Nat) (pre post : List Block)
    (b : Block) (hpre : ∀ c ∈ pre, c.memory ≠ ptr) (hb : b.memory = ptr)
    (hused : b.inUse = true) :
    deallocateLoop ptr r u (pre ++ b :: post) =
      some { ret := true,
             blocks := pre ++ { b with inUse := false, owner := "",
                                       bytes := memset b.bytes 0xFF b.size } :: post,
             usedMemory := subSize u b.size,
             out := (if b.owner ≠ r then [Msg.ownerWarning r b.owner] else [])
                    ++ [Msg.deallocated b.size r] } := by
  induction pre with
  | nil => simp [deallocateLoop, hb, hused]
  | cons c pre ih =>
    have hc : ¬ c.memory = ptr := hpre c (List.mem_cons_self _ _)
    have ih1 := ih (fun d hd => hpre d (List.mem_cons_of_mem _ hd))
    rw [List.cons_append, deallocateLoop, if_neg hc, ih1]; rfl

theorem allocateLoop_eq_some (n : Nat) (r : String) (u : Nat) (bs : List Block) (s : Scan Nat)
    (h : allocateLoop n r u bs = some s) :
    ∃ pre b post, bs = pre ++ b :: post ∧ (∀ c ∈ pre, ¬ (c.inUse = false ∧ n ≤ c.size)) ∧
      (b.inUse = false ∧ n ≤ b.size) ∧
      s = { ret := b.memory,
            blocks := pre ++ { b with inUse := true, owner := r,
                                      bytes := memset b.bytes 0 b.size } :: post,
            usedMemory := addSize u b.size,
            out := [Msg.allocated b.size r b.memory] } := by
  have hex : ∃ c ∈ bs, c.inUse = false ∧ n ≤ c.size := by
    by_contra hno
    have hnone := (allocateLoop_eq_none n r u bs).2 (by
      intro c hc hfit
      exact hno ⟨c, hc, hfit⟩)
    rw [hnone] at h
    exact Option.noConfusion h
  obtain ⟨pre, b, post, hsplit, hpre, hb⟩ :=
    exists_first_split (fun c : Block => c.inUse = false ∧ n ≤ c.size) bs hex
  refine ⟨pre, b, post, hsplit, hpre, hb, ?_⟩
  rw [hsplit, allocateLoop_split n r u pre post b hpre hb] at h
  exact (Option.some.inj h).symm

theorem deallocateLoop_eq_some (ptr : Nat) (r : String) (u : Nat) (bs : List Block)
    (s : Scan Bool) (h : deallocateLoop ptr r u bs = some s) :
    ∃ pre b post, bs = pre ++ b :: post ∧ (∀ c ∈ pre, c.memory ≠ ptr) ∧ b.memory = ptr ∧
      ((b.inUse = false ∧
          s = { ret := false, blocks := pre ++ b :: post, usedMemory := u,
                out := [Msg.doubleDeallocation r ptr] }) ∨
       (b.inUse = true ∧
          s = { ret := true,
                blocks := pre ++ { b with inUse := false, owner := "",
                                          bytes := memset b.bytes 0xFF b.size } :: post,
                usedMemory := subSize u b.size,
                out := (if b.owner ≠ r then [Msg.ownerWarning r b.owner] else [])
                        ++ [Msg.deallocated b.size r] })) := by
  have hex : ∃ c ∈ bs, c.memory = ptr := by
    by_contra hno
    have hnone := (deallocateLoop_eq_none ptr r u bs).2 (by
      intro c hc hfit
      exact hno ⟨c, hc, hfit⟩)
    rw [hnone] at h
    exact Option.noConfusion h
  obtain ⟨pre, b, post, hsplit, hpre, hb⟩ :=
    exists_first_split (fun c : Block => c.memory = ptr) bs hex
  refine ⟨pre, b, post, hsplit, hpre, hb, ?_⟩
  cases hu : b.inUse with
  | false =>
    left
    rw [hsplit, deallocateLoop_split_free ptr r u pre post b hpre hb hu] at h
    exact ⟨rfl, (Option.some.inj h).symm⟩
  | true =>
    right
    rw [hsplit, deallocateLoop_split_used ptr r u pre post b hpre hb hu] at h
    exact ⟨rfl, (Option.some.inj h).symm⟩

/-! ## Arithmetic on `size_t` -/

theorem addSize_eq (a b : Nat) (h : a + b < sizeMod) : addSize a b = a + b :=
  Nat.mod_eq_of_lt h

theorem subSize_eq (a b : Nat) (hb : b ≤ a) (ha : a < sizeMod) : subSize a b = a - b := by
  unfold subSize
  have hb1 : b % sizeMod = b := Nat.mod_eq_of_lt (lt_of_le_of_lt hb ha)
  have hsum : a + (sizeMod - b) = (a - b) + sizeMod := by
    have : b ≤ sizeMod := le_of_lt (lt_of_le_of_lt hb ha)
    omega
  rw [hb1, hsum, Nat.add_mod_right]
  exact Nat.mod_eq_of_lt (lt_of_le_of_lt (Nat.sub_le a b) ha)

/-! ## Buffers that do not overlap fit into the address space -/

theorem cover_exists (N : Nat) (rs : List (Nat × Nat))
    (hreg : ∀ x ∈ rs, x.1 ≠ 0 ∧ 0 < x.2 ∧ x.1 + x.2 ≤ N) (hap : rs.Pairwise Apart) :
    ∃ S : Finset Nat, S.card = (rs.map Prod.snd).sum ∧ S ⊆ Finset.Ico 1 N ∧
      ∀ z ∈ S, ∃ y ∈ rs, y.1 ≤ z ∧ z < y.1 + y.2 := by
  induction rs with
  | nil => exact ⟨∅, by simp, by simp, by simp⟩
  | cons x rs ih =>
    rw [List.pairwise_cons] at hap
    obtain ⟨S, hcard, hsub, hcov⟩ :=
      ih (fun y hy => hreg y (List.mem_cons_of_mem _ hy)) hap.2
    have hx := hreg x (List.mem_cons_self _ _)
    have hdis : Disjoint (Finset.Ico x.1 (x.1 + x.2)) S := by
      rw [Finset.disjoint_left]
      intro z hz hzS
      obtain ⟨y, hy, h1, h2⟩ := hcov z hzS
      have hxy := hap.1 y hy
      rw [Finset.mem_Ico] at hz
      unfold Apart at hxy
      omega
    refine ⟨Finset.Ico x.1 (x.1 + x.2) ∪ S, ?_, ?_, ?_⟩
    · rw [Finset.card_union_of_disjoint hdis, Nat.card_Ico, hcard]
      simp
    · apply Finset.union_subset _ hsub
      intro z hz
      rw [Finset.mem_Ico] at hz ⊢
      omega
    · intro z hz
      rcases Finset.mem_union.1 hz with h | h
      · exact ⟨x, List.mem_cons_self _ _, (Finset.mem_Ico.1 h).1, (Finset.mem_Ico.1 h).2⟩
      · obtain ⟨y, hy, h1, h2⟩ := hcov z h
        exact ⟨y, List.mem_cons_of_mem _ hy, h1, h2⟩

theorem regions_sum_lt (N : Nat) (hN : 0 < N) (rs : List (Nat × Nat))
    (hreg : ∀ x ∈ rs, x.1 ≠ 0 ∧ 0 < x.2 ∧ x.1 + x.2 ≤ N) (hap : rs.Pairwise Apart) :
    (rs.map Prod.snd).sum < N := by
  obtain ⟨S, hcard, hsub, _⟩ := cover_exists N rs hreg hap
  have hle := Finset.card_le_card hsub
  rw [Nat.card_Ico] at hle
  omega

/-! ## Sums over the blocks -/

theorem sizeTotal_eq_regions (bs : List Block) :
    sizeTotal bs = ((regions bs).map Prod.snd).sum := by
  simp [sizeTotal, regions, List.map_map, Function.comp_def]

theorem sizeTotal_append (l1 l2 : List Block) :
    sizeTotal (l1 ++ l2) = sizeTotal l1 + sizeTotal l2 := by
  simp [sizeTotal]

theorem inUseTotal_append (l1 l2 : List Block) :
    inUseTotal (l1 ++ l2) = inUseTotal l1 + inUseTotal l2 := by
  simp [inUseTotal]

theorem inUseTotal_cons (b : Block) (l : List Block) :
    inUseTotal (b :: l) = (if b.inUse = true then b.size else 0) + inUseTotal l := by
  by_cases h : b.inUse = true <;> simp [inUseTotal, List.filter_cons, h]

theorem inUseTotal_le_sizeTotal (bs : List Block) : inUseTotal bs ≤ sizeTotal bs := by
  induction bs with
  | nil => simp [inUseTotal, sizeTotal]
  | cons b bs ih =>
    rw [inUseTotal_cons]
    have hs : sizeTotal (b :: bs) = b.size + sizeTotal bs := by simp [sizeTotal]
    rw [hs]
    split <;> omega

theorem regions_update (pre post : List Block) (b c : Block) (hm : c.memory = b.memory)
    (hs : c.size = b.size) : regions (pre ++ c :: post) = regions (pre ++ b :: post) := by
  simp [regions, hm, hs]

theorem WF.sizeTotal_lt {p : MemoryPool} (h : WF p) : sizeTotal p.pool < sizeMod := by
  rw [sizeTotal_eq_regions]
  exact regions_sum_lt sizeMod (by decide) _ h.region h.apart

/-! ## The invariant is kept -/

theorem memset_length (bytes : List Nat) (v n : Nat) (h : bytes.length = n) :
    (memset bytes v n).length = n := by
  simp [memset, h]

theorem WF_of_regions_eq {p : MemoryPool} (q : MemoryPool) (h : WF p)
    (hr : regions q.pool = regions p.pool) (ht : q.totalMemory = p.totalMemory)
    (hu : q.usedMemory = inUseTotal q.pool)
    (hf : ∀ b ∈ q.pool, b.inUse = false → b.owner = "")
    (hl : ∀ b ∈ q.pool, b.bytes.length = b.size) : WF q where
  region := by rw [hr]; exact h.region
  apart := by rw [hr]; exact h.apart
  total := by rw [ht, h.total, sizeTotal_eq_regions, sizeTotal_eq_regions, hr]
  used := hu
  freeOwner := hf
  length := hl

theorem WF_update {p : MemoryPool} (h : WF p) (pre post : List Block) (b c : Block)
    (hsplit : p.pool = pre ++ b :: post) (hm : c.memory = b.memory) (hs : c.size = b.size)
    (hf : c.inUse = false → c.owner = "") (hl : c.bytes.length = c.size) (u : Nat)
    (hu : u = inUseTotal (pre ++ c :: post)) :
    WF { pool := pre ++ c :: post, totalMemory := p.totalMemory, usedMemory := u } := by
  apply WF_of_regions_eq _ h
  · rw [hsplit]; exact regions_update pre post b c hm hs
  · rfl
  · exact hu
  · intro d hd
    have hd1 : d ∈ pre ∨ d = c ∨ d ∈ post := by simpa using hd
    rcases hd1 with hd1 | rfl | hd1
    · exact h.freeOwner d (by rw [hsplit]; simp [hd1])
    · exact hf
    · exact h.freeOwner d (by rw [hsplit]; simp [hd1])
  · intro d hd
    have hd1 : d ∈ pre ∨ d = c ∨ d ∈ post := by simpa using hd
    rcases hd1 with hd1 | rfl | hd1
    · exact h.length d (by rw [hsplit]; simp [hd1])
    · exact hl
    · exact h.length d (by rw [hsplit]; simp [hd1])

theorem push_regions {p : MemoryPool} (h : WF p) (n : Nat) (got : Chunk)
    (hm : MallocOK p.pool n got) (ha : got.addr ≠ 0) (hn : 0 < n) :
    (∀ x ∈ regions p.pool ++ [(got.addr, n)], x.1 ≠ 0 ∧ 0 < x.2 ∧ x.1 + x.2 ≤ sizeMod) ∧
      (regions p.pool ++ [(got.addr, n)]).Pairwise Apart := by
  rcases hm with hm | ⟨hbound, hfar⟩
  · exact absurd hm ha
  constructor
  · intro x hx
    rcases List.mem_append.1 hx with hx | hx
    · exact h.region x hx
    · rw [List.mem_singleton] at hx
      subst hx
      exact ⟨ha, hn, hbound⟩
  · rw [List.pairwise_append]
    refine ⟨h.apart, List.pairwise_singleton _ _, ?_⟩
    intro x hx y hy
    rw [List.mem_singleton] at hy
    subst hy
    obtain ⟨b, hb, rfl⟩ := List.mem_map.1 hx
    exact (hfar b hb).symm

theorem push_sizeTotal_lt {p : MemoryPool} (h : WF p) (n : Nat) (got : Chunk)
    (hm : MallocOK p.pool n got) (ha : got.addr ≠ 0) (hn : 0 < n) :
    sizeTotal p.pool + n < sizeMod := by
  obtain ⟨hreg, hap⟩ := push_regions h n got hm ha hn
  have hlt := regions_sum_lt sizeMod (by decide) _ hreg hap
  rw [sizeTotal_eq_regions]
  simpa using hlt

theorem WF_push {p : MemoryPool} (h : WF p) (n : Nat) (got : Chunk)
    (hm : MallocOK p.pool n got) (ha : got.addr ≠ 0) (hn : 0 < n) (nb : Block)
    (hmem : nb.memory = got.addr) (hsize : nb.size = n)
    (hf : nb.inUse = false → nb.owner = "") (hl : nb.bytes.length = n) (t u : Nat)
    (ht : t = p.totalMemory + n)
    (hu : u = p.usedMemory + (if nb.inUse = true then n else 0)) :
    WF { pool := p.pool ++ [nb], totalMemory := t, usedMemory := u } := by
  obtain ⟨hreg, hap⟩ := push_regions h n got hm ha hn
  have hregions : regions (p.pool ++ [nb]) = regions p.pool ++ [(got.addr, n)] := by
    simp [regions, hmem, hsize]
  refine ⟨?_, ?_, ?_, ?_, ?_, ?_⟩
  · show ∀ x ∈ regions (p.pool ++ [nb]), _
    rw [hregions]; exact hreg
  · show (regions (p.pool ++ [nb])).Pairwise Apart
    rw [hregions]; exact hap
  · show t = sizeTotal (p.pool ++ [nb])
    rw [ht, h.total, sizeTotal_append]
    simp [sizeTotal, hsize]
  · show u = inUseTotal (p.pool ++ [nb])
    rw [hu, h.used, inUseTotal_append, inUseTotal_cons, hsize]
    simp [inUseTotal]
  · intro d hd
    have hd0 : d ∈ p.pool ++ [nb] := hd
    rcases List.mem_append.1 hd0 with hd1 | hd1
    · exact h.freeOwner d hd1
    · rw [List.mem_singleton] at hd1
      subst hd1; exact hf
  · intro d hd
    have hd0 : d ∈ p.pool ++ [nb] := hd
    rcases List.mem_append.1 hd0 with hd1 | hd1
    · exact h.length d hd1
    · rw [List.mem_singleton] at hd1
      subst hd1; rw [hsize]; exact hl

theorem Block.new_bytes_length (n : Nat) (got : Chunk) : (Block.new n got).bytes.length = n := by
  simp [Block.new]

theorem WF.used_le {p : MemoryPool} (h : WF p) : p.usedMemory ≤ sizeTotal p.pool := by
  rw [h.used]; exact inUseTotal_le_sizeTotal _

/-! ## The four ways through `allocate` and through `deallocate` -/

theorem allocate_zero (p : MemoryPool) (r : String) (got : Chunk) :
    p.allocate 0 r got = { ret := 0, state := p, out := [Msg.zeroBytes r] } := by
  simp [allocate]

theorem allocate_fit (p : MemoryPool) (n : Nat) (r : String) (got : Chunk)
    (pre post : List Block) (b : Block) (hn : n ≠ 0) (hsplit : p.pool = pre ++ b :: post)
    (hpre : ∀ c ∈ pre, ¬ (c.inUse = false ∧ n ≤ c.size)) (hb : b.inUse = false ∧ n ≤ b.size) :
    p.allocate n r got =
      { ret := b.memory,
        state :=
          { pool := pre ++
              { b with inUse := true, owner := r, bytes := memset b.bytes 0 b.size } :: post,
            totalMemory := p.totalMemory,
            usedMemory := addSize p.usedMemory b.size },
        out := [Msg.allocated b.size r b.memory] } := by
  unfold allocate
  rw [if_neg hn, hsplit, allocateLoop_split n r p.usedMemory pre post b hpre hb]

theorem allocate_grow (p : MemoryPool) (n : Nat) (r : String) (got : Chunk) (hn : n ≠ 0)
    (hnone : ∀ c ∈ p.pool, ¬ (c.inUse = false ∧ n ≤ c.size)) (ha : got.addr ≠ 0) :
    p.allocate n r got =
      { ret := got.addr,
        state :=
          { pool := p.pool ++
              [{ memory := got.addr, size := n, inUse := true, owner := r,
                 bytes := memset ((List.range n).map (fun i => got.junk i % 256)) 0 n }],
            totalMemory := addSize p.totalMemory n,
            usedMemory := addSize p.usedMemory n },
        out := [Msg.noSuitableBlock n, Msg.created r got.addr] } := by
  unfold allocate
  rw [if_neg hn, (allocateLoop_eq_none n r p.usedMemory p.pool).2 hnone]
  simp [Block.new, ha]

theorem allocate_fail (p : MemoryPool) (n : Nat) (r : String) (got : Chunk) (hn : n ≠ 0)
    (hnone : ∀ c ∈ p.pool, ¬ (c.inUse = false ∧ n ≤ c.size)) (ha : got.addr = 0) :
    p.allocate n r got =
      { ret := 0, state := p, out := [Msg.noSuitableBlock n, Msg.allocateFailed n r] } := by
  unfold allocate
  rw [if_neg hn, (allocateLoop_eq_none n r p.usedMemory p.pool).2 hnone]
  simp [Block.new, ha]

theorem deallocate_null (p : MemoryPool) (r : String) :
    p.deallocate 0 r = { ret := false, state := p, out := [Msg.nullDeallocate r] } := by
  simp [deallocate]

theorem deallocate_untracked (p : MemoryPool) (ptr : Nat) (r : String) (hptr : ptr ≠ 0)
    (hnone : ∀ c ∈ p.pool, c.memory ≠ ptr) :
    p.deallocate ptr r = { ret := false, state := p, out := [Msg.untracked r ptr] } := by
  unfold deallocate
  rw [if_neg hptr, (deallocateLoop_eq_none ptr r p.usedMemory p.pool).2 hnone]

theorem deallocate_double (p : MemoryPool) (ptr : Nat) (r : String) (pre post : List Block)
    (b : Block) (hptr : ptr ≠ 0) (hsplit : p.pool = pre ++ b :: post)
    (hpre : ∀ c ∈ pre, c.memory ≠ ptr) (hb : b.memory = ptr) (hfree : b.inUse = false) :
    p.deallocate ptr r =
      { ret := false, state := p, out := [Msg.doubleDeallocation r ptr] } := by
  unfold deallocate
  rw [if_neg hptr, hsplit, deallocateLoop_split_free ptr r p.usedMemory pre post b hpre hb hfree]
  simp only [← hsplit]

theorem deallocate_used (p : MemoryPool) (ptr : Nat) (r : String) (pre post : List Block)
    (b : Block) (hptr : ptr ≠ 0) (hsplit : p.pool = pre ++ b :: post)
    (hpre : ∀ c ∈ pre, c.memory ≠ ptr) (hb : b.memory = ptr) (hused : b.inUse = true) :
    p.deallocate ptr r =
      { ret := true,
        state :=
          { pool := pre ++
              { b with inUse := false, owner := "", bytes := memset b.bytes 0xFF b.size } :: post,
            totalMemory := p.totalMemory,
            usedMemory := subSize p.usedMemory b.size },
        out := (if b.owner ≠ r then [Msg.ownerWarning r b.owner] else [])
                ++ [Msg.deallocated b.size r] } := by
  unfold deallocate
  rw [if_neg hptr, hsplit, deallocateLoop_split_used ptr r p.usedMemory pre post b hpre hb hused]

/-! ## The invariant is kept by the member functions -/

theorem WF_allocate {p : MemoryPool} (h : WF p) (n : Nat) (r : String) (got : Chunk)
    (hm : MallocOK p.pool n got) : WF (p.allocate n r got).state := by
  by_cases hn : n = 0
  · rw [hn, allocate_zero]; exact h
  by_cases hex : ∃ c ∈ p.pool, c.inUse = false ∧ n ≤ c.size
  · obtain ⟨pre, b, post, hsplit, hpre, hb⟩ :=
      exists_first_split (fun c : Block => c.inUse = false ∧ n ≤ c.size) p.pool hex
    rw [allocate_fit p n r got pre post b hn hsplit hpre hb]
    refine WF_update h pre post b _ hsplit ?_ ?_ ?_ ?_ _ ?_
    · rfl
    · rfl
    · intro hfalse; exact absurd hfalse (by simp)
    · exact memset_length _ _ _ (h.length b (by rw [hsplit]; simp))
    · have hold : p.usedMemory = inUseTotal pre + inUseTotal post := by
        rw [h.used, hsplit, inUseTotal_append, inUseTotal_cons]
        simp [hb.1]
      generalize hc : ({ b with inUse := true, owner := r, bytes := memset b.bytes 0 b.size }
        : Block) = c
      have hcu : c.inUse = true := by rw [← hc]
      have hcs : c.size = b.size := by rw [← hc]
      have hnew : inUseTotal (pre ++ c :: post) = inUseTotal pre + b.size + inUseTotal post := by
        rw [inUseTotal_append, inUseTotal_cons, if_pos hcu, hcs]
        omega
      have hle := inUseTotal_le_sizeTotal (pre ++ c :: post)
      have hsame : sizeTotal (pre ++ c :: post) = sizeTotal p.pool := by
        rw [hsplit]; simp [sizeTotal, hcs]
      have hlt := h.sizeTotal_lt
      rw [addSize_eq _ _ (by omega), hnew, hold]
      omega
  · have hnone : ∀ c ∈ p.pool, ¬ (c.inUse = false ∧ n ≤ c.size) :=
      fun c hc hfit => hex ⟨c, hc, hfit⟩
    by_cases ha : got.addr = 0
    · rw [allocate_fail p n r got hn hnone ha]; exact h
    · have hpos : 0 < n := Nat.pos_of_ne_zero hn
      have hlt := push_sizeTotal_lt h n got hm ha hpos
      have hused := h.used_le
      have ht := h.total
      rw [allocate_grow p n r got hn hnone ha]
      refine WF_push h n got hm ha hpos _ ?_ ?_ ?_ ?_ _ _ ?_ ?_
      · rfl
      · rfl
      · intro hfalse; exact absurd hfalse (by simp)
      · exact memset_length _ _ _ (by simp)
      · exact addSize_eq _ _ (by omega)
      · rw [addSize_eq _ _ (by omega)]; simp

theorem WF_deallocate {p : MemoryPool} (h : WF p) (ptr : Nat) (r : String) :
    WF (p.deallocate ptr r).state := by
  by_cases hptr : ptr = 0
  · rw [hptr, deallocate_null]; exact h
  by_cases hex : ∃ c ∈ p.pool, c.memory = ptr
  · obtain ⟨pre, b, post, hsplit, hpre, hb⟩ :=
      exists_first_split (fun c : Block => c.memory = ptr) p.pool hex
    cases hu : b.inUse with
    | false => rw [deallocate_double p ptr r pre post b hptr hsplit hpre hb hu]; exact h
    | true =>
      rw [deallocate_used p ptr r pre post b hptr hsplit hpre hb hu]
      refine WF_update h pre post b _ hsplit ?_ ?_ ?_ ?_ _ ?_
      · rfl
      · rfl
      · intro _; rfl
      · exact memset_length _ _ _ (h.length b (by rw [hsplit]; simp))
      · have hold : p.usedMemory = inUseTotal pre + b.size + inUseTotal post := by
          rw [h.used, hsplit, inUseTotal_append, inUseTotal_cons, if_pos hu]
          omega
        generalize hc : ({ b with inUse := false, owner := "", bytes := memset b.bytes 0xFF b.size }
          : Block) = c
        have hcu : ¬ c.inUse = true := by rw [← hc]; simp
        have hnew : inUseTotal (pre ++ c :: post) = inUseTotal pre + inUseTotal post := by
          rw [inUseTotal_append, inUseTotal_cons, if_neg hcu]
          omega
        have hle := h.used_le
        have hlt := h.sizeTotal_lt
        rw [subSize_eq _ _ (by omega) (by omega), hnew, hold]
        omega
  · have hnone : ∀ c ∈ p.pool, c.memory ≠ ptr := fun c hc hfit => hex ⟨c, hc, hfit⟩
    rw [deallocate_untracked p ptr r hptr hnone]; exact h

theorem inUseTotal_map (f : Block → Block)
    (hf : ∀ b, (f b).inUse = b.inUse ∧ (f b).size = b.size) (bs : List Block) :
    inUseTotal (bs.map f) = inUseTotal bs := by
  induction bs with
  | nil => rfl
  | cons b bs ih => rw [List.map_cons, inUseTotal_cons, inUseTotal_cons, ih, (hf b).1, (hf b).2]

theorem WF_store {p : MemoryPool} (h : WF p) (ptr off v : Nat) : WF (p.store ptr off v) := by
  apply WF_of_regions_eq _ h
  · simp only [store, regions, List.map_map]
    apply List.map_congr_left
    intro b _
    by_cases hb : b.memory = ptr <;> simp [hb]
  · rfl
  · show p.usedMemory = inUseTotal (p.pool.map _)
    rw [inUseTotal_map _ _ p.pool, h.used]
    intro b
    by_cases hb : b.memory = ptr <;> simp [hb]
  · intro d hd
    obtain ⟨b, hb, rfl⟩ := List.mem_map.1 hd
    have hfo := h.freeOwner b hb
    by_cases hbp : b.memory = ptr <;> simpa [hbp] using hfo
  · intro d hd
    obtain ⟨b, hb, rfl⟩ := List.mem_map.1 hd
    have hlen := h.length b hb
    by_cases hbp : b.memory = ptr <;> simpa [hbp] using hlen

/-! ## The invariant holds after the constructor -/

theorem foldl_inv {α β : Type} (Q : α → Prop) (f : α → β → α) (l : List β)
    (hstep : ∀ a, ∀ x ∈ l, Q a → Q (f a x)) : ∀ a, Q a → Q (l.foldl f a) := by
  induction l with
  | nil => intro a ha; exact ha
  | cons x l ih =>
    intro a ha
    rw [List.foldl_cons]
    exact ih (fun a y hy => hstep a y (List.mem_cons_of_mem _ hy)) _
      (hstep a x (List.mem_cons_self _ _) ha)

theorem foldl_fst {α β γ : Type} (f : α → β → α) (g : α × γ → β → α × γ)
    (hfg : ∀ c x, (g c x).1 = f c.1 x) (l : List β) :
    ∀ c, (l.foldl g c).1 = l.foldl f c.1 := by
  induction l with
  | nil => intro c; rfl
  | cons x l ih =>
    intro c
    rw [List.foldl_cons, List.foldl_cons, ih, hfg]

theorem ctorLoopsOK_fst (malloc : Nat → Chunk) (c : Ctor × Bool) :
    (ctorLoopsOK malloc c).1 = ctorLoops malloc c.1 := by
  unfold ctorLoopsOK ctorLoops
  apply foldl_fst
  intro c size
  apply foldl_fst
  intro c _
  rfl

theorem WF_ctorStart : WF ctorStart.state where
  region := by intro x hx; simp [ctorStart, regions] at hx
  apart := by simp [ctorStart, regions]
  total := rfl
  used := rfl
  freeOwner := by intro b hb; simp [ctorStart] at hb
  length := by intro b hb; simp [ctorStart] at hb

theorem WF_ctorBody (malloc : Nat → Chunk) (size : Nat) (c : Ctor) (h : WF c.state)
    (hm : MallocOK c.state.pool size (malloc c.calls)) (hsize : 0 < size) :
    WF (ctorBody malloc size c).state := by
  unfold ctorBody
  by_cases ha : (malloc c.calls).addr = 0
  · simp only [Block.new, ha, ne_eq, not_true_eq_false, if_false]
    exact h
  · have hlt := push_sizeTotal_lt h size _ hm ha hsize
    have ht := h.total
    simp only [Block.new, ne_eq, ha, not_false_eq_true, if_true]
    refine WF_push h size _ hm ha hsize _ ?_ ?_ ?_ ?_ _ _ ?_ ?_
    · rfl
    · rfl
    · intro _; rfl
    · simp
    · exact addSize_eq _ _ (by omega)
    · simp

theorem blockSizes_pos : ∀ size ∈ blockSizes, 0 < size := by decide

theorem WF_ctorLoopsOK (malloc : Nat → Chunk) (c : Ctor × Bool)
    (h : c.2 = true → WF c.1.state) (hok : (ctorLoopsOK malloc c).2 = true) :
    WF (ctorLoopsOK malloc c).1.state := by
  have hall : (fun cb : Ctor × Bool => cb.2 = true → WF cb.1.state) (ctorLoopsOK malloc c) := by
    unfold ctorLoopsOK
    apply foldl_inv (fun cb : Ctor × Bool => cb.2 = true → WF cb.1.state)
    · intro a size hsize ha
      apply foldl_inv (fun cb : Ctor × Bool => cb.2 = true → WF cb.1.state)
      · intro a1 _ _ ha1 hok1
        simp only [ctorBodyOK, Bool.and_eq_true, decide_eq_true_eq] at hok1
        exact WF_ctorBody malloc size a1.1 (ha1 hok1.1) hok1.2 (blockSizes_pos size hsize)
      · exact ha
    · exact h
  exact hall hok

theorem WF_new (initialSize : Nat) (malloc : Nat → Chunk) (hok : ctorOK malloc = true) :
    WF (new initialSize malloc).state := by
  have h := WF_ctorLoopsOK malloc (ctorStart, true) (fun _ => WF_ctorStart) hok
  rw [ctorLoopsOK_fst] at h
  exact h

theorem Reachable.wf {p : MemoryPool} (h : Reachable p) : WF p := by
  induction h with
  | construct initialSize malloc hok => exact WF_new initialSize malloc hok
  | allocate n r got _ hm ih => exact WF_allocate ih n r got hm
  | deallocate ptr r _ ih => exact WF_deallocate ih ptr r
  | store ptr off v _ ih => exact WF_store ih ptr off v

/-! ## A handle names one block -/

theorem WF.pre_ne {p : MemoryPool} (h : WF p) (pre post : List Block) (b : Block)
    (hsplit : p.pool = pre ++ b :: post) : ∀ c ∈ pre, c.memory ≠ b.memory := by
  intro c hc heq
  have hap := h.apart
  rw [hsplit] at hap
  simp only [regions, List.map_append, List.map_cons] at hap
  rw [List.pairwise_append] at hap
  have hcb := hap.2.2 (c.memory, c.size) (List.mem_map.2 ⟨c, hc, rfl⟩) (b.memory, b.size)
    (List.mem_cons_self _ _)
  have hcpos := (h.region (c.memory, c.size)
    (List.mem_map.2 ⟨c, by rw [hsplit]; simp [hc], rfl⟩)).2.1
  have hbpos := (h.region (b.memory, b.size)
    (List.mem_map.2 ⟨b, by rw [hsplit]; simp, rfl⟩)).2.1
  simp only [Apart] at hcb hcpos hbpos
  omega

theorem WF.post_ne {p : MemoryPool} (h : WF p) (pre post : List Block) (b : Block)
    (hsplit : p.pool = pre ++ b :: post) : ∀ c ∈ post, c.memory ≠ b.memory := by
  intro c hc heq
  have hap := h.apart
  rw [hsplit] at hap
  simp only [regions, List.map_append, List.map_cons] at hap
  rw [List.pairwise_append, List.pairwise_cons] at hap
  have hcb := hap.2.1.1 (c.memory, c.size) (List.mem_map.2 ⟨c, hc, rfl⟩)
  have hcpos := (h.region (c.memory, c.size)
    (List.mem_map.2 ⟨c, by rw [hsplit]; simp [hc], rfl⟩)).2.1
  have hbpos := (h.region (b.memory, b.size)
    (List.mem_map.2 ⟨b, by rw [hsplit]; simp, rfl⟩)).2.1
  simp only [Apart] at hcb hcpos hbpos
  omega

theorem WF.eq_of_memory_eq {p : MemoryPool} (h : WF p) (pre post : List Block) (b : Block)
    (hsplit : p.pool = pre ++ b :: post) (c : Block) (hc : c ∈ p.pool)
    (hmem : c.memory = b.memory) : c = b := by
  rw [hsplit] at hc
  have hc1 : c ∈ pre ∨ c = b ∨ c ∈ post := by simpa using hc
  rcases hc1 with hc1 | hc1 | hc1
  · exact absurd hmem (h.pre_ne pre post b hsplit c hc1)
  · exact hc1
  · exact absurd hmem (h.post_ne pre post b hsplit c hc1)

theorem WF.memory_ne_zero {p : MemoryPool} (h : WF p) (b : Block) (hb : b ∈ p.pool) :
    b.memory ≠ 0 :=
  (h.region (b.memory, b.size) (List.mem_map.2 ⟨b, hb, rfl⟩)).1

theorem MallocOK.ne_of_mem {p : MemoryPool} (h : WF p) (n : Nat) (got : Chunk)
    (hm : MallocOK p.pool n got) (ha : got.addr ≠ 0) (hn : 0 < n) :
    ∀ c ∈ p.pool, c.memory ≠ got.addr := by
  intro c hc heq
  rcases hm with hm | ⟨_, hfar⟩
  · exact ha hm
  · have hcpos := (h.region (c.memory, c.size) (List.mem_map.2 ⟨c, hc, rfl⟩)).2.1
    have hap := hfar c hc
    simp only at hcpos
    omega

theorem WF.fit_no_wrap {p : MemoryPool} (h : WF p) (pre post : List Block) (b : Block)
    (hsplit : p.pool = pre ++ b :: post) (hfree : b.inUse = false) :
    p.usedMemory + b.size < sizeMod := by
  have hold : p.usedMemory = inUseTotal pre + inUseTotal post := by
    rw [h.used, hsplit, inUseTotal_append, inUseTotal_cons]
    simp [hfree]
  have hsize : sizeTotal p.pool = sizeTotal pre + (b.size + sizeTotal post) := by
    rw [hsplit, sizeTotal_append]; simp [sizeTotal]
  have h1 := inUseTotal_le_sizeTotal pre
  have h2 := inUseTotal_le_sizeTotal post
  have hlt := h.sizeTotal_lt
  omega

theorem WF.used_no_wrap {p : MemoryPool} (h : WF p) (pre post : List Block) (b : Block)
    (hsplit : p.pool = pre ++ b :: post) (hused : b.inUse = true) :
    b.size ≤ p.usedMemory ∧ p.usedMemory < sizeMod := by
  have hold : p.usedMemory = inUseTotal pre + (b.size + inUseTotal post) := by
    rw [h.used, hsplit, inUseTotal_append, inUseTotal_cons, if_pos hused]
  have hle := h.used_le
  have hlt := h.sizeTotal_lt
  omega

theorem freshPool_reachable : Reachable freshPool :=
  Reachable.construct defaultInitialSize spacedMalloc (by decide)

theorem leasedPool_reachable : Reachable leasedPool :=
  Reachable.allocate 64 "Sensor" nextChunk freshPool_reachable (by decide)

theorem deallocateLoop_requester (ptr : Nat) (r1 r2 : String) (u : Nat) (bs : List Block) :
    (deallocateLoop ptr r1 u bs).map (fun s => (s.ret, s.blocks, s.usedMemory)) =
      (deallocateLoop ptr r2 u bs).map (fun s => (s.ret, s.blocks, s.usedMemory)) := by
  induction bs with
  | nil => rfl
  | cons b rest ih =>
    by_cases hb : b.memory = ptr
    · by_cases hu : b.inUse = false <;> simp [deallocateLoop, hb, hu]
    · rw [deallocateLoop, deallocateLoop, if_neg hb, if_neg hb]
      cases h1 : deallocateLoop ptr r1 u rest <;> cases h2 : deallocateLoop ptr r2 u rest <;>
        simp [h1, h2] at ih ⊢
      exact ih

theorem memset_fresh (n v : Nat) (f : Nat → Nat) :
    memset ((List.range n).map f) v n = List.replicate n (v % 256) := by
  simp [memset]

theorem new_state_of_success (initialSize : Nat) (malloc : Nat → Chunk)
    (hall : ∀ k < 20, (malloc k).addr ≠ 0) :
    (new initialSize malloc).state =
      { pool := (List.range 20).map (fun k => Block.new (blockSizes.getD (k / 4) 0) (malloc k)),
        totalMemory := 87296, usedMemory := 0 } := by
  have hr : List.range 4 = [0, 1, 2, 3] := rfl
  simp only [new, ctorLoops, ctorStart, blockSizes, hr, ctorBody, Block.new, addSize,
    List.foldl_cons, List.foldl_nil, ne_eq, not_false_eq_true, if_true, List.nil_append,
    List.cons_append, zero_add, Nat.reduceAdd, Nat.reduceMod,
    hall 0 (by decide), hall 1 (by decide), hall 2 (by decide), hall 3 (by decide),
    hall 4 (by decide), hall 5 (by decide), hall 6 (by decide), hall 7 (by decide),
    hall 8 (by decide), hall 9 (by decide), hall 10 (by decide), hall 11 (by decide),
    hall 12 (by decide), hall 13 (by decide), hall 14 (by decide), hall 15 (by decide),
    hall 16 (by decide), hall 17 (by decide), hall 18 (by decide), hall 19 (by decide)]
  rfl

theorem deallocate_after_fit {p : MemoryPool} (hwf : WF p) (n : Nat) (a b : String)
    (got : Chunk) (pre post : List Block) (blk : Block) (hn : n ≠ 0)
    (hsplit : p.pool = pre ++ blk :: post)
    (hpre : ∀ c ∈ pre, ¬ (c.inUse = false ∧ n ≤ c.size))
    (hb : blk.inUse = false ∧ n ≤ blk.size) :
    (p.allocate n a got).state.deallocate (p.allocate n a got).ret b =
      { ret := true,
        state :=
          { pool := pre ++
              { blk with inUse := false, owner := "",
                         bytes := memset (memset blk.bytes 0 blk.size) 0xFF blk.size } :: post,
            totalMemory := p.totalMemory,
            usedMemory := p.usedMemory },
        out := (if a ≠ b then [Msg.ownerWarning b a] else []) ++ [Msg.deallocated blk.size b] } := by
  have hmem : blk ∈ p.pool := by rw [hsplit]; simp
  have hnowrap := hwf.fit_no_wrap pre post blk hsplit hb.1
  have hd := deallocate_used
    { pool := pre ++
        { blk with inUse := true, owner := a, bytes := memset blk.bytes 0 blk.size } :: post,
      totalMemory := p.totalMemory, usedMemory := addSize p.usedMemory blk.size }
    blk.memory b pre post
    { blk with inUse := true, owner := a, bytes := memset blk.bytes 0 blk.size }
    (hwf.memory_ne_zero blk hmem) rfl (hwf.pre_ne pre post blk hsplit) rfl rfl
  rw [allocate_fit p n a got pre post blk hn hsplit hpre hb]
  simp only []
  rw [hd]
  have hback : subSize (addSize p.usedMemory blk.size) blk.size = p.usedMemory := by
    rw [addSize_eq _ _ hnowrap, subSize_eq _ _ (by omega) hnowrap]
    omega
  simp only [hback]

/-! ## The claims -/

/-- C1: `allocate(0, requester)` returns the null handle, prints the zero-size error, and
leaves the whole object as it was: every block, `totalMemory` and `usedMemory`. -/
theorem allocate_zero_rejected (p : MemoryPool) (requester : String) (got : Chunk) :
    (p.allocate 0 requester got).ret = 0 ∧
      (p.allocate 0 requester got).state = p ∧
      (p.allocate 0 requester got).out = [Msg.zeroBytes requester] := by
  rw [allocate_zero]
  exact ⟨rfl, rfl, rfl⟩

/-- C2: in every state the object can reach (after the constructor and after any calls of
`allocate` and `deallocate`, successful or not), `usedMemory` is the sum of `size` over the
blocks whose `inUse` flag is set. -/
theorem usedMemory_eq_inUseTotal (p : MemoryPool) (h : Reachable p) :
    p.usedMemory = inUseTotal p.pool :=
  h.wf.used

/-- C2 at the default pool after one `allocate(64, "Sensor")`: 64 bytes are in use. -/
theorem usedMemory_eq_inUseTotal_witness :
    Reachable leasedPool ∧ leasedPool.usedMemory = 64 ∧
      leasedPool.usedMemory = inUseTotal leasedPool.pool :=
  ⟨leasedPool_reachable, by decide, usedMemory_eq_inUseTotal leasedPool leasedPool_reachable⟩

/-- C3: when `allocate(n, owner)` with `n > 0` succeeds (returns a non-null handle) in a
reachable state, the pool holds a block with that handle, and every block with that handle has
`size ≥ n` and `usedMemory` has grown by exactly that block's `size`. -/
theorem allocate_success_charges_block (p : MemoryPool) (h : Reachable p) (n : Nat)
    (owner : String) (got : Chunk) (hm : MallocOK p.pool n got) (hn : 0 < n)
    (hok : (p.allocate n owner got).ret ≠ 0) :
    (∃ b ∈ (p.allocate n owner got).state.pool, b.memory = (p.allocate n owner got).ret) ∧
      ∀ b ∈ (p.allocate n owner got).state.pool, b.memory = (p.allocate n owner got).ret →
        n ≤ b.size ∧ (p.allocate n owner got).state.usedMemory = p.usedMemory + b.size := by
  have hwf := h.wf
  have hwf1 := WF_allocate hwf n owner got hm
  have hn0 : n ≠ 0 := Nat.pos_iff_ne_zero.1 hn
  by_cases hex : ∃ c ∈ p.pool, c.inUse = false ∧ n ≤ c.size
  · obtain ⟨pre, b, post, hsplit, hpre, hb⟩ :=
      exists_first_split (fun c : Block => c.inUse = false ∧ n ≤ c.size) p.pool hex
    have heq := allocate_fit p n owner got pre post b hn0 hsplit hpre hb
    rw [heq] at hwf1 ⊢
    refine ⟨⟨_, List.mem_append_right _ (List.mem_cons_self _ _), rfl⟩, ?_⟩
    intro c hc hmem
    have hcb := hwf1.eq_of_memory_eq pre post _ rfl c hc hmem
    subst hcb
    exact ⟨hb.2, addSize_eq _ _ (hwf.fit_no_wrap pre post b hsplit hb.1)⟩
  · have hnone : ∀ c ∈ p.pool, ¬ (c.inUse = false ∧ n ≤ c.size) :=
      fun c hc hfit => hex ⟨c, hc, hfit⟩
    by_cases ha : got.addr = 0
    · rw [allocate_fail p n owner got hn0 hnone ha] at hok
      exact absurd rfl hok
    · have heq := allocate_grow p n owner got hn0 hnone ha
      rw [heq] at hwf1 ⊢
      refine ⟨⟨_, List.mem_append_right _ (List.mem_cons_self _ _), rfl⟩, ?_⟩
      intro c hc hmem
      have hcb := hwf1.eq_of_memory_eq p.pool [] _ rfl c hc hmem
      subst hcb
      have hlt := push_sizeTotal_lt hwf n got hm ha hn
      have hused := hwf.used_le
      exact ⟨le_refl _, addSize_eq _ _ (by omega)⟩

/-- C3 at the default pool: `allocate(100, "Sensor")` takes a 256-byte block and charges 256
bytes. -/
theorem allocate_success_charges_block_witness :
    (freshPool.allocate 100 "Sensor" nextChunk).state.usedMemory = freshPool.usedMemory + 256 ∧
    ((∃ b ∈ (freshPool.allocate 100 "Sensor" nextChunk).state.pool,
        b.memory = (freshPool.allocate 100 "Sensor" nextChunk).ret) ∧
      ∀ b ∈ (freshPool.allocate 100 "Sensor" nextChunk).state.pool,
        b.memory = (freshPool.allocate 100 "Sensor" nextChunk).ret →
        100 ≤ b.size ∧
          (freshPool.allocate 100 "Sensor" nextChunk).state.usedMemory
            = freshPool.usedMemory + b.size) :=
  ⟨by decide,
   allocate_success_charges_block freshPool freshPool_reachable 100 "Sensor" nextChunk
    (by decide) (by decide) (by decide)⟩

/-- C4: for `n > 0`, when `b` is the first block in pool order that is free with `size ≥ n`
(the blocks `pre` before it are in use or too small), `allocate(n, requester)` returns the
handle of `b`, puts `b` in use with `owner = requester` (zero-filling its buffer), appends no
block, and leaves every other block, and `totalMemory`, as they were. -/
theorem allocate_first_fit (p : MemoryPool) (n : Nat) (requester : String) (got : Chunk)
    (pre post : List Block) (b : Block) (hn : 0 < n) (hsplit : p.pool = pre ++ b :: post)
    (hpre : ∀ c ∈ pre, ¬ (c.inUse = false ∧ n ≤ c.size)) (hb : b.inUse = false ∧ n ≤ b.size) :
    (p.allocate n requester got).ret = b.memory ∧
      (p.allocate n requester got).state.pool =
        pre ++ { b with inUse := true, owner := requester,
                        bytes := memset b.bytes 0 b.size } :: post ∧
      (p.allocate n requester got).state.pool.length = p.pool.length ∧
      (p.allocate n requester got).state.totalMemory = p.totalMemory := by
  rw [allocate_fit p n requester got pre post b (Nat.pos_iff_ne_zero.1 hn) hsplit hpre hb, hsplit]
  refine ⟨rfl, rfl, ?_, rfl⟩
  simp

/-- C4 at the default pool with `n = 100`: the four 64-byte blocks are passed over and the
first 256-byte block is taken. -/
theorem allocate_first_fit_witness :
    (freshPool.allocate 100 "Sensor" nextChunk).ret = (spacedMalloc 4).addr ∧
      (freshPool.allocate 100 "Sensor" nextChunk).state.pool =
        freshPool.pool.take 4 ++
          { Block.new 256 (spacedMalloc 4) with
              inUse := true, owner := "Sensor",
              bytes := memset (Block.new 256 (spacedMalloc 4)).bytes 0 256 }
            :: freshPool.pool.drop 5 ∧
      (freshPool.allocate 100 "Sensor" nextChunk).state.pool.length = freshPool.pool.length ∧
      (freshPool.allocate 100 "Sensor" nextChunk).state.totalMemory = freshPool.totalMemory :=
  allocate_first_fit freshPool 100 "Sensor" nextChunk (freshPool.pool.take 4)
    (freshPool.pool.drop 5) (Block.new 256 (spacedMalloc 4)) (by decide) rfl (by decide)
    (by decide)

/-- C5: in a reachable state, for a handle `ptr` whose block `b` is in use, the first
`deallocate(ptr, _)` returns `true`; a second `deallocate(ptr, _)` right after it returns
`false`, prints the double-deallocation error and leaves the object (every block,
`usedMemory`, `totalMemory`) exactly as the first call left it. -/
theorem deallocate_twice (p : MemoryPool) (h : Reachable p) (ptr : Nat) (r1 r2 : String)
    (b : Block) (hb : b ∈ p.pool) (hmem : b.memory = ptr) (huse : b.inUse = true) :
    (p.deallocate ptr r1).ret = true ∧
      (p.deallocate ptr r1).state.deallocate ptr r2 =
        { ret := false, state := (p.deallocate ptr r1).state,
          out := [Msg.doubleDeallocation r2 ptr] } := by
  have hwf := h.wf
  have hptr : ptr ≠ 0 := hmem ▸ hwf.memory_ne_zero b hb
  obtain ⟨pre, b0, post, hsplit, hpre, hb0⟩ :=
    exists_first_split (fun c : Block => c.memory = ptr) p.pool ⟨b, hb, hmem⟩
  have hbb : b = b0 := hwf.eq_of_memory_eq pre post b0 hsplit b hb (hmem.trans hb0.symm)
  subst hbb
  rw [deallocate_used p ptr r1 pre post b hptr hsplit hpre hmem huse]
  exact ⟨rfl, deallocate_double _ ptr r2 pre post _ hptr rfl hpre hmem rfl⟩

/-- C5 at the default pool after `allocate(64, "Sensor")`, for the handle `65536` of its
first block. -/
theorem deallocate_twice_witness :
    (leasedPool.deallocate 65536 "Sensor").ret = true ∧
      (leasedPool.deallocate 65536 "Sensor").state.deallocate 65536 "Sensor" =
        { ret := false, state := (leasedPool.deallocate 65536 "Sensor").state,
          out := [Msg.doubleDeallocation "Sensor" 65536] } :=
  deallocate_twice leasedPool leasedPool_reachable 65536 "Sensor" "Sensor"
    { Block.new 64 (spacedMalloc 0) with
        inUse := true, owner := "Sensor",
        bytes := memset (Block.new 64 (spacedMalloc 0)).bytes 0 64 }
    (List.mem_of_mem_head? (by rfl)) rfl rfl

/-- C6: in a reachable state, when `allocate(n, a)` with `n > 0` succeeds and its handle is
handed to `deallocate(_, b)` right away, that call returns `true`, `usedMemory` is back at its
value before the `allocate`, and every block that existed before the `allocate` has its
address, `size`, `inUse` flag and `owner` back. -/
theorem allocate_deallocate_roundtrip (p : MemoryPool) (h : Reachable p) (n : Nat)
    (a b : String) (got : Chunk) (hm : MallocOK p.pool n got) (hn : 0 < n)
    (hok : (p.allocate n a got).ret ≠ 0) :
    ((p.allocate n a got).state.deallocate (p.allocate n a got).ret b).ret = true ∧
      ((p.allocate n a got).state.deallocate (p.allocate n a got).ret b).state.usedMemory
        = p.usedMemory ∧
      (((p.allocate n a got).state.deallocate (p.allocate n a got).ret b).state.pool.take
          p.pool.length).map (fun c => (c.memory, c.size, c.inUse, c.owner))
        = p.pool.map (fun c => (c.memory, c.size, c.inUse, c.owner)) := by
  have hwf := h.wf
  have hn0 : n ≠ 0 := Nat.pos_iff_ne_zero.1 hn
  by_cases hex : ∃ c ∈ p.pool, c.inUse = false ∧ n ≤ c.size
  · obtain ⟨pre, blk, post, hsplit, hpre, hb⟩ :=
      exists_first_split (fun c : Block => c.inUse = false ∧ n ≤ c.size) p.pool hex
    have hmem : blk ∈ p.pool := by rw [hsplit]; simp
    rw [deallocate_after_fit hwf n a b got pre post blk hn0 hsplit hpre hb]
    refine ⟨rfl, rfl, ?_⟩
    simp only []
    rw [hsplit]
    simp [hb.1, hwf.freeOwner blk hmem hb.1]
  · have hnone : ∀ c ∈ p.pool, ¬ (c.inUse = false ∧ n ≤ c.size) :=
      fun c hc hfit => hex ⟨c, hc, hfit⟩
    by_cases ha : got.addr = 0
    · rw [allocate_fail p n a got hn0 hnone ha] at hok
      exact absurd rfl hok
    · have hlt := push_sizeTotal_lt hwf n got hm ha hn
      have hused := hwf.used_le
      have heq := allocate_grow p n a got hn0 hnone ha
      have hd := deallocate_used
        { pool := p.pool ++
            [{ memory := got.addr, size := n, inUse := true, owner := a,
               bytes := memset ((List.range n).map (fun i => got.junk i % 256)) 0 n }],
          totalMemory := addSize p.totalMemory n, usedMemory := addSize p.usedMemory n }
        got.addr b p.pool []
        { memory := got.addr, size := n, inUse := true, owner := a,
          bytes := memset ((List.range n).map (fun i => got.junk i % 256)) 0 n }
        ha rfl (MallocOK.ne_of_mem hwf n got hm ha hn) rfl rfl
      rw [heq]
      simp only []
      rw [hd]
      refine ⟨rfl, ?_, ?_⟩
      · show subSize (addSize p.usedMemory n) n = p.usedMemory
        rw [addSize_eq _ _ (by omega), subSize_eq _ _ (by omega) (by omega)]
        omega
      · simp only []
        rw [List.take_left]

/-- C6 at the default pool: `allocate(100, "A")` then `deallocate` of its handle by `"B"`. -/
theorem allocate_deallocate_roundtrip_witness :
    ((freshPool.allocate 100 "A" nextChunk).state.deallocate
        (freshPool.allocate 100 "A" nextChunk).ret "B").ret = true ∧
      ((freshPool.allocate 100 "A" nextChunk).state.deallocate
        (freshPool.allocate 100 "A" nextChunk).ret "B").state.usedMemory
        = freshPool.usedMemory ∧
      (((freshPool.allocate 100 "A" nextChunk).state.deallocate
        (freshPool.allocate 100 "A" nextChunk).ret "B").state.pool.take
          freshPool.pool.length).map (fun c => (c.memory, c.size, c.inUse, c.owner))
        = freshPool.pool.map (fun c => (c.memory, c.size, c.inUse, c.owner)) :=
  allocate_deallocate_roundtrip freshPool freshPool_reachable 100 "A" "B" nextChunk
    (by decide) (by decide) (by decide)

/-- C7: `deallocate` called with the null handle, or with a non-null handle that is the
address of no block of the pool, returns `false` and leaves the whole object as it was (every
block, `usedMemory`, `totalMemory`); it prints the null-pointer warning in the first case and
the untracked-memory error in the second. -/
theorem deallocate_invalid_handle (p : MemoryPool) (ptr : Nat) (requester : String)
    (hptr : ptr = 0 ∨ ∀ b ∈ p.pool, b.memory ≠ ptr) :
    (p.deallocate ptr requester).ret = false ∧
      (p.deallocate ptr requester).state = p ∧
      (p.deallocate ptr requester).out =
        [if ptr = 0 then Msg.nullDeallocate requester else Msg.untracked requester ptr] := by
  by_cases h0 : ptr = 0
  · subst h0
    rw [deallocate_null]
    exact ⟨rfl, rfl, rfl⟩
  · have hnone : ∀ b ∈ p.pool, b.memory ≠ ptr := hptr.resolve_left h0
    rw [deallocate_untracked p ptr requester h0 hnone, if_neg h0]
    exact ⟨rfl, rfl, rfl⟩

/-- C7 at the default pool, for the address `12345` that `malloc` never returned. -/
theorem deallocate_invalid_handle_witness :
    (freshPool.deallocate 12345 "Stranger").ret = false ∧
      (freshPool.deallocate 12345 "Stranger").state = freshPool ∧
      (freshPool.deallocate 12345 "Stranger").out =
        [if 12345 = 0 then Msg.nullDeallocate "Stranger" else Msg.untracked "Stranger" 12345] :=
  deallocate_invalid_handle freshPool 12345 "Stranger" (Or.inr (by decide))

/-- C8: in a reachable state, for `n > 0`, when no free block has `size ≥ n` and `malloc`
succeeds, `allocate(n, owner)` appends exactly one block, of size exactly `n`, in use, owned
by `owner` and zero-filled; `totalMemory` and `usedMemory` each grow by exactly `n`; the
handle returned is the new block's address and is not null. -/
theorem allocate_grows (p : MemoryPool) (h : Reachable p) (n : Nat) (owner : String)
    (got : Chunk) (hn : 0 < n)
    (hnone : ∀ c ∈ p.pool, ¬ (c.inUse = false ∧ n ≤ c.size))
    (hm : MallocOK p.pool n got) (ha : got.addr ≠ 0) :
    (p.allocate n owner got).ret = got.addr ∧
      (p.allocate n owner got).ret ≠ 0 ∧
      (p.allocate n owner got).state.pool =
        p.pool ++ [{ memory := got.addr, size := n, inUse := true, owner := owner,
                     bytes := List.replicate n 0 }] ∧
      (p.allocate n owner got).state.totalMemory = p.totalMemory + n ∧
      (p.allocate n owner got).state.usedMemory = p.usedMemory + n := by
  have hwf := h.wf
  have hlt := push_sizeTotal_lt hwf n got hm ha hn
  have hused := hwf.used_le
  have ht := hwf.total
  rw [allocate_grow p n owner got (Nat.pos_iff_ne_zero.1 hn) hnone ha]
  refine ⟨rfl, ha, ?_, addSize_eq _ _ (by omega), addSize_eq _ _ (by omega)⟩
  simp only [memset_fresh]

/-- C8 at the default pool: `allocate(32768, "BigDataProcessor")` (line 192 of `main`). -/
theorem allocate_grows_witness :
    (freshPool.allocate 32768 "BigDataProcessor" nextChunk).ret = nextChunk.addr ∧
      (freshPool.allocate 32768 "BigDataProcessor" nextChunk).ret ≠ 0 ∧
      (freshPool.allocate 32768 "BigDataProcessor" nextChunk).state.pool =
        freshPool.pool ++
          [{ memory := nextChunk.addr, size := 32768, inUse := true,
             owner := "BigDataProcessor", bytes := List.replicate 32768 0 }] ∧
      (freshPool.allocate 32768 "BigDataProcessor" nextChunk).state.totalMemory
        = freshPool.totalMemory + 32768 ∧
      (freshPool.allocate 32768 "BigDataProcessor" nextChunk).state.usedMemory
        = freshPool.usedMemory + 32768 :=
  allocate_grows freshPool freshPool_reachable 32768 "BigDataProcessor" nextChunk
    (by decide) (by decide) (by decide) (by decide)

/-- C9: the requester label has no part in what `deallocate` does: for every state, every
handle and any two labels, the two calls return the same boolean and leave the same object
(blocks, `usedMemory`, `totalMemory`); only the printed lines can differ. In particular, when
the block the handle names (the first block of the pool with that address) is in use and its
owner is not the requester, the call still frees it: it returns `true`, that block gets
`inUse = false`, the empty owner and the `0xFF` fill while all other blocks stay,
`usedMemory` drops by the block's size, `totalMemory` stays, and the ownership warning is
printed before the success line. -/
theorem deallocate_requester_advisory (p : MemoryPool) (ptr : Nat) (r1 r2 : String) :
    (p.deallocate ptr r1).ret = (p.deallocate ptr r2).ret ∧
      (p.deallocate ptr r1).state = (p.deallocate ptr r2).state ∧
      ∀ (pre post : List Block) (b : Block), ptr ≠ 0 → p.pool = pre ++ b :: post →
        (∀ c ∈ pre, c.memory ≠ ptr) → b.memory = ptr → b.inUse = true → b.owner ≠ r1 →
        (p.deallocate ptr r1).ret = true ∧
          (p.deallocate ptr r1).state.pool =
            pre ++ { b with inUse := false, owner := "",
                            bytes := memset b.bytes 0xFF b.size } :: post ∧
          (p.deallocate ptr r1).state.usedMemory = subSize p.usedMemory b.size ∧
          (p.deallocate ptr r1).state.totalMemory = p.totalMemory ∧
          (p.deallocate ptr r1).out =
            [Msg.ownerWarning r1 b.owner, Msg.deallocated b.size r1] := by
  refine ⟨?_, ?_, ?_⟩
  · unfold deallocate
    by_cases h0 : ptr = 0
    · rw [if_pos h0, if_pos h0]
    · rw [if_neg h0, if_neg h0]
      have hloop := deallocateLoop_requester ptr r1 r2 p.usedMemory p.pool
      cases h1 : deallocateLoop ptr r1 p.usedMemory p.pool <;>
        cases h2 : deallocateLoop ptr r2 p.usedMemory p.pool <;>
        simp [h1, h2] at hloop ⊢
      exact hloop.1
  · unfold deallocate
    by_cases h0 : ptr = 0
    · rw [if_pos h0, if_pos h0]
    · rw [if_neg h0, if_neg h0]
      have hloop := deallocateLoop_requester ptr r1 r2 p.usedMemory p.pool
      cases h1 : deallocateLoop ptr r1 p.usedMemory p.pool <;>
        cases h2 : deallocateLoop ptr r2 p.usedMemory p.pool <;>
        simp [h1, h2] at hloop ⊢
      exact ⟨hloop.2.1, hloop.2.2⟩
  · intro pre post b hptr hsplit hpre hb hused howner
    rw [deallocate_used p ptr r1 pre post b hptr hsplit hpre hb hused, if_pos howner]
    exact ⟨rfl, rfl, rfl, rfl, rfl⟩

set_option maxRecDepth 8000 in
/-- C9 at the default pool after `allocate(64, "Sensor")`: `deallocate` of the handle `65536`
by `"WrongProcessor"` returns `true`, leaves the state that `deallocate` by `"Sensor"` leaves,
with the block free and without owner, `usedMemory` back at `0`, and prints the warning. -/
theorem deallocate_requester_advisory_witness :
    (leasedPool.deallocate 65536 "WrongProcessor").ret = true ∧
      (leasedPool.deallocate 65536 "WrongProcessor").state
        = (leasedPool.deallocate 65536 "Sensor").state ∧
      (leasedPool.pool.getD 0 (Block.new 0 (spacedMalloc 0))).inUse = true ∧
      (leasedPool.pool.getD 0 (Block.new 0 (spacedMalloc 0))).owner = "Sensor" ∧
      ((leasedPool.deallocate 65536 "WrongProcessor").state.pool.getD 0
          (Block.new 0 (spacedMalloc 0))).inUse = false ∧
      ((leasedPool.deallocate 65536 "WrongProcessor").state.pool.getD 0
          (Block.new 0 (spacedMalloc 0))).owner = "" ∧
      leasedPool.usedMemory = 64 ∧
      (leasedPool.deallocate 65536 "WrongProcessor").state.usedMemory = 0 ∧
      (leasedPool.deallocate 65536 "WrongProcessor").out
        = [Msg.ownerWarning "WrongProcessor" "Sensor", Msg.deallocated 64 "WrongProcessor"] :=
  have h := deallocate_requester_advisory leasedPool 65536 "WrongProcessor" "Sensor"
  have hfree := h.2.2 [] leasedPool.pool.tail
    (leasedPool.pool.getD 0 (Block.new 0 (spacedMalloc 0))) (by decide) (by rfl)
    (fun _ hc => absurd hc (List.not_mem_nil _)) (by rfl) (by rfl) (by decide)
  ⟨hfree.1, h.2.1, by rfl, by rfl, by rw [hfree.2.1]; rfl, by rw [hfree.2.1]; rfl, by rfl,
    by rw [hfree.2.2.1]; rfl, hfree.2.2.2.2⟩

/-- C10: on the pool the constructor builds when all twenty pre-allocations succeed (four
free blocks each of 64, 256, 1024, 4096 and 16384 bytes, in that order, `usedMemory = 0`),
`allocate(1024, "A")` returns the handle of a block of size exactly 1024, now in use and owned
by `"A"`, and `usedMemory` becomes 1024; `deallocate` of that handle by `"B"` then returns
`true`, prints the ownership warning, and `usedMemory` is 0 again. -/
theorem default_pool_scenario (initialSize : Nat) (malloc : Nat → Chunk) (got : Chunk)
    (hok : ctorOK malloc = true) (hall : ∀ k < 20, (malloc k).addr ≠ 0) :
    (new initialSize malloc).state.pool.map (fun blk => (blk.size, blk.inUse)) =
        [(64, false), (64, false), (64, false), (64, false),
         (256, false), (256, false), (256, false), (256, false),
         (1024, false), (1024, false), (1024, false), (1024, false),
         (4096, false), (4096, false), (4096, false), (4096, false),
         (16384, false), (16384, false), (16384, false), (16384, false)] ∧
      (new initialSize malloc).state.usedMemory = 0 ∧
      ((new initialSize malloc).state.allocate 1024 "A" got).ret ≠ 0 ∧
      (∃ blk ∈ ((new initialSize malloc).state.allocate 1024 "A" got).state.pool,
        blk.memory = ((new initialSize malloc).state.allocate 1024 "A" got).ret ∧
          blk.inUse = true ∧ blk.owner = "A") ∧
      (∀ blk ∈ ((new initialSize malloc).state.allocate 1024 "A" got).state.pool,
        blk.memory = ((new initialSize malloc).state.allocate 1024 "A" got).ret →
          blk.size = 1024) ∧
      ((new initialSize malloc).state.allocate 1024 "A" got).state.usedMemory = 1024 ∧
      (((new initialSize malloc).state.allocate 1024 "A" got).state.deallocate
        ((new initialSize malloc).state.allocate 1024 "A" got).ret "B").ret = true ∧
      (((new initialSize malloc).state.allocate 1024 "A" got).state.deallocate
        ((new initialSize malloc).state.allocate 1024 "A" got).ret "B").state.usedMemory = 0 ∧
      (((new initialSize malloc).state.allocate 1024 "A" got).state.deallocate
        ((new initialSize malloc).state.allocate 1024 "A" got).ret "B").out =
        [Msg.ownerWarning "B" "A", Msg.deallocated 1024 "B"] := by
  have hwf := WF_new initialSize malloc hok
  have hstate := new_state_of_success initialSize malloc hall
  generalize (new initialSize malloc).state = p0 at hwf hstate ⊢
  have hsplit : p0.pool =
      (List.range 8).map (fun k => Block.new (blockSizes.getD (k / 4) 0) (malloc k))
        ++ Block.new 1024 (malloc 8)
        :: (List.range' 9 11).map (fun k => Block.new (blockSizes.getD (k / 4) 0) (malloc k)) := by
    rw [hstate]; rfl
  have hpre : ∀ c ∈ (List.range 8).map
      (fun k => Block.new (blockSizes.getD (k / 4) 0) (malloc k)),
      ¬ (c.inUse = false ∧ 1024 ≤ c.size) := by
    intro c hc
    obtain ⟨k, hk, rfl⟩ := List.mem_map.1 hc
    rw [List.mem_range] at hk
    interval_cases k <;> simp [Block.new, blockSizes]
  have hb : (Block.new 1024 (malloc 8)).inUse = false ∧ 1024 ≤ (Block.new 1024 (malloc 8)).size :=
    ⟨rfl, le_refl _⟩
  have hmem8 : Block.new 1024 (malloc 8) ∈ p0.pool := by rw [hsplit]; simp
  have hne : (Block.new 1024 (malloc 8)).memory ≠ 0 := hwf.memory_ne_zero _ hmem8
  have hused0 : p0.usedMemory = 0 := by rw [hstate]
  have halloc := allocate_fit p0 1024 "A" got _ _ _ (by decide) hsplit hpre hb
  have halloc0 := allocate_fit p0 1024 "A" { addr := 0, junk := got.junk } _ _ _ (by decide)
    hsplit hpre hb
  have hwf1 := WF_allocate hwf 1024 "A" { addr := 0, junk := got.junk } (Or.inl rfl)
  rw [halloc0] at hwf1
  rw [deallocate_after_fit hwf 1024 "A" "B" got _ _ _ (by decide) hsplit hpre hb, halloc]
  refine ⟨?_, hused0, hne, ?_, ?_, ?_, rfl, hused0, rfl⟩
  · rw [hstate]; rfl
  · exact ⟨_, List.mem_append_right _ (List.mem_cons_self _ _), rfl, rfl, rfl⟩
  · intro blk hblk hmem
    rw [hwf1.eq_of_memory_eq _ _ _ rfl blk hblk hmem]
    rfl
  · simp only []
    rw [hused0]; rfl

/-- C10 with `malloc` placing the `k`-th buffer at `(k + 1) * 65536`: the handle returned is
`9 * 65536`. -/
theorem default_pool_scenario_witness :
    (freshPool.allocate 1024 "A" nextChunk).ret = 589824 ∧
      (freshPool.allocate 1024 "A" nextChunk).ret ≠ 0 ∧
      (freshPool.allocate 1024 "A" nextChunk).state.usedMemory = 1024 ∧
      ((freshPool.allocate 1024 "A" nextChunk).state.deallocate
        (freshPool.allocate 1024 "A" nextChunk).ret "B").ret = true ∧
      ((freshPool.allocate 1024 "A" nextChunk).state.deallocate
        (freshPool.allocate 1024 "A" nextChunk).ret "B").state.usedMemory = 0 :=
  have h := default_pool_scenario defaultInitialSize spacedMalloc nextChunk (by decide)
    (by decide)
  ⟨by decide, h.2.2.1, h.2.2.2.2.2.1, h.2.2.2.2.2.2.1, h.2.2.2.2.2.2.2.1⟩

/-! ## Leak detection and counting -/

theorem detectLeaksLoop_fst (f : Bool) (bs : List Block) :
    (detectLeaksLoop f bs).1 = (inUseBlocks bs).map leakLine := by
  induction bs generalizing f with
  | nil => rfl
  | cons b rest ih =>
    by_cases hb : b.inUse = true
    · simp [detectLeaksLoop, inUseBlocks, hb, leakLine, ih true] at *
    · simp [detectLeaksLoop, inUseBlocks, hb, ih f] at *

theorem detectLeaksLoop_snd (f : Bool) (bs : List Block) :
    (detectLeaksLoop f bs).2 = (f || decide (inUseBlocks bs ≠ [])) := by
  induction bs generalizing f with
  | nil => simp [detectLeaksLoop, inUseBlocks]
  | cons b rest ih =>
    by_cases hb : b.inUse = true
    · simp [detectLeaksLoop, inUseBlocks, hb, ih true]
    · simp [detectLeaksLoop, inUseBlocks, hb, ih f] at *

theorem detectLeaks_out (p : MemoryPool) :
    (detectLeaks p).out =
      Msg.leakDetection :: (inUseBlocks p.pool).map leakLine
        ++ (if inUseBlocks p.pool = [] then [Msg.noLeaks] else []) := by
  unfold detectLeaks
  simp only [detectLeaksLoop_fst, detectLeaksLoop_snd]
  by_cases h : inUseBlocks p.pool = [] <;> simp [h]

theorem inUseBlocks_append (l1 l2 : List Block) :
    inUseBlocks (l1 ++ l2) = inUseBlocks l1 ++ inUseBlocks l2 := by
  simp [inUseBlocks]

theorem inUseBlocks_cons (b : Block) (l : List Block) :
    inUseBlocks (b :: l) = if b.inUse = true then b :: inUseBlocks l else inUseBlocks l := by
  by_cases h : b.inUse = true <;> simp [inUseBlocks, List.filter_cons, h]

theorem inUseBlocks_length_map (f : Block → Block) (hf : ∀ b, (f b).inUse = b.inUse)
    (bs : List Block) : (inUseBlocks (bs.map f)).length = (inUseBlocks bs).length := by
  induction bs with
  | nil => rfl
  | cons b bs ih =>
    rw [List.map_cons, inUseBlocks_cons, inUseBlocks_cons, hf b]
    by_cases h : b.inUse = true <;> simp [h, ih]

theorem allocate_ret_zero {p : MemoryPool} (h : WF p) (n : Nat) (r : String) (got : Chunk)
    (hret : (p.allocate n r got).ret = 0) : (p.allocate n r got).state = p := by
  by_cases hn : n = 0
  · rw [hn, allocate_zero]
  by_cases hex : ∃ c ∈ p.pool, c.inUse = false ∧ n ≤ c.size
  · obtain ⟨pre, b, post, hsplit, hpre, hb⟩ :=
      exists_first_split (fun c : Block => c.inUse = false ∧ n ≤ c.size) p.pool hex
    rw [allocate_fit p n r got pre post b hn hsplit hpre hb] at hret
    exact absurd hret (h.memory_ne_zero b (by rw [hsplit]; simp))
  · have hnone : ∀ c ∈ p.pool, ¬ (c.inUse = false ∧ n ≤ c.size) :=
      fun c hc hfit => hex ⟨c, hc, hfit⟩
    by_cases ha : got.addr = 0
    · rw [allocate_fail p n r got hn hnone ha]
    · rw [allocate_grow p n r got hn hnone ha] at hret
      exact absurd hret ha

theorem allocate_success_inUse (p : MemoryPool) (n : Nat) (r : String) (got : Chunk)
    (hret : (p.allocate n r got).ret ≠ 0) :
    (inUseBlocks (p.allocate n r got).state.pool).length = (inUseBlocks p.pool).length + 1 := by
  by_cases hn : n = 0
  · rw [hn, allocate_zero] at hret
    exact absurd rfl hret
  by_cases hex : ∃ c ∈ p.pool, c.inUse = false ∧ n ≤ c.size
  · obtain ⟨pre, b, post, hsplit, hpre, hb⟩ :=
      exists_first_split (fun c : Block => c.inUse = false ∧ n ≤ c.size) p.pool hex
    rw [allocate_fit p n r got pre post b hn hsplit hpre hb, hsplit]
    simp only [inUseBlocks_append, inUseBlocks_cons, List.length_append]
    simp [hb.1]
    omega
  · have hnone : ∀ c ∈ p.pool, ¬ (c.inUse = false ∧ n ≤ c.size) :=
      fun c hc hfit => hex ⟨c, hc, hfit⟩
    by_cases ha : got.addr = 0
    · rw [allocate_fail p n r got hn hnone ha] at hret
      exact absurd rfl hret
    · rw [allocate_grow p n r got hn hnone ha]
      simp [inUseBlocks_append, inUseBlocks_cons, inUseBlocks]

theorem AllocatedOnly.reachable {N : Nat} {p : MemoryPool} (h : AllocatedOnly N p) :
    Reachable p := by
  induction h with
  | construct initialSize malloc hok => exact Reachable.construct initialSize malloc hok
  | success n r got _ hm _ ih => exact Reachable.allocate n r got ih hm
  | failure n r got _ hm _ ih => exact Reachable.allocate n r got ih hm
  | store ptr off v _ ih => exact Reachable.store ptr off v ih

theorem new_inUseBlocks (initialSize : Nat) (malloc : Nat → Chunk) :
    inUseBlocks (new initialSize malloc).state.pool = [] := by
  have hall : (fun c : Ctor => inUseBlocks c.state.pool = []) (ctorLoops malloc ctorStart) := by
    unfold ctorLoops
    apply foldl_inv (fun c : Ctor => inUseBlocks c.state.pool = [])
    · intro a size _ ha
      apply foldl_inv (fun c : Ctor => inUseBlocks c.state.pool = [])
      · intro a1 _ _ ha1
        unfold ctorBody
        by_cases hm : (malloc a1.calls).addr = 0
        · simpa [Block.new, hm] using ha1
        · simp only [Block.new, ne_eq, hm, not_false_eq_true, if_true, inUseBlocks_append, ha1]
          simp [inUseBlocks]
      · exact ha
    · rfl
  exact hall

theorem AllocatedOnly.inUse_length {N : Nat} {p : MemoryPool} (h : AllocatedOnly N p) :
    (inUseBlocks p.pool).length = N := by
  induction h with
  | construct initialSize malloc hok => rw [new_inUseBlocks]; rfl
  | success n r got _ _ hret ih => rw [allocate_success_inUse _ n r got hret, ih]
  | failure n r got hp _ hret ih => rw [allocate_ret_zero hp.reachable.wf n r got hret, ih]
  | store ptr off v _ ih =>
    rw [← ih]
    apply inUseBlocks_length_map
    intro b
    by_cases hb : b.memory = ptr <;> simp [hb]

theorem leasedPool_allocatedOnly : AllocatedOnly 1 leasedPool :=
  AllocatedOnly.success 64 "Sensor" nextChunk
    (AllocatedOnly.construct defaultInitialSize spacedMalloc (by decide)) (by decide) (by decide)

theorem countOwned_append (owner : String) (n : Nat) (l1 l2 : List Block) :
    countOwned owner n (l1 ++ l2) = countOwned owner n l1 + countOwned owner n l2 := by
  simp [countOwned]

theorem countOwned_cons (owner : String) (n : Nat) (b : Block) (l : List Block) :
    countOwned owner n (b :: l) =
      (if b.inUse = true ∧ b.owner = owner ∧ n ≤ b.size then 1 else 0) + countOwned owner n l := by
  by_cases h : b.inUse = true ∧ b.owner = owner ∧ n ≤ b.size
  · rw [if_pos h]
    simp [countOwned, List.filter_cons, h.1, h.2.1, h.2.2]
    omega
  · rw [if_neg h]
    have hf : (b.inUse && (b.owner == owner) && decide (n ≤ b.size)) = false := by
      rw [Bool.eq_false_iff]
      intro ht
      simp only [Bool.and_eq_true, beq_iff_eq, decide_eq_true_eq] at ht
      exact h ⟨ht.1.1, ht.1.2, ht.2⟩
    simp [countOwned, List.filter_cons, hf]

theorem memset_full (bytes : List Nat) (v n : Nat) (h : bytes.length = n) :
    memset bytes v n = List.replicate n (v % 256) := by
  simp [memset, h]

theorem deallocate_cases (p : MemoryPool) (ptr : Nat) (r : String) :
    (p.deallocate ptr r).state = p ∨
      ∃ pre b post, p.pool = pre ++ b :: post ∧ b.memory = ptr ∧ b.inUse = true ∧
        (p.deallocate ptr r).state =
          { pool := pre ++
              { b with inUse := false, owner := "", bytes := memset b.bytes 0xFF b.size } :: post,
            totalMemory := p.totalMemory,
            usedMemory := subSize p.usedMemory b.size } := by
  by_cases hptr : ptr = 0
  · left; rw [hptr, deallocate_null]
  by_cases hex : ∃ c ∈ p.pool, c.memory = ptr
  · obtain ⟨pre, b, post, hsplit, hpre, hb⟩ :=
      exists_first_split (fun c : Block => c.memory = ptr) p.pool hex
    cases hu : b.inUse with
    | false => left; rw [deallocate_double p ptr r pre post b hptr hsplit hpre hb hu]
    | true =>
      right
      exact ⟨pre, b, post, hsplit, hb, hu,
        by rw [deallocate_used p ptr r pre post b hptr hsplit hpre hb hu]⟩
  · left
    rw [deallocate_untracked p ptr r hptr (fun c hc hfit => hex ⟨c, hc, hfit⟩)]

theorem allocate_cases (p : MemoryPool) (n : Nat) (r : String) (got : Chunk) :
    (p.allocate n r got).state = p ∨
      (∃ pre b post, p.pool = pre ++ b :: post ∧ b.inUse = false ∧ n ≤ b.size ∧
        (p.allocate n r got).state =
          { pool := pre ++
              { b with inUse := true, owner := r, bytes := memset b.bytes 0 b.size } :: post,
            totalMemory := p.totalMemory,
            usedMemory := addSize p.usedMemory b.size }) ∨
      (got.addr ≠ 0 ∧ n ≠ 0 ∧
        (p.allocate n r got).state =
          { pool := p.pool ++
              [{ memory := got.addr, size := n, inUse := true, owner := r,
                 bytes := memset ((List.range n).map (fun i => got.junk i % 256)) 0 n }],
            totalMemory := addSize p.totalMemory n,
            usedMemory := addSize p.usedMemory n }) := by
  by_cases hn : n = 0
  · left; rw [hn, allocate_zero]
  by_cases hex : ∃ c ∈ p.pool, c.inUse = false ∧ n ≤ c.size
  · obtain ⟨pre, b, post, hsplit, hpre, hb⟩ :=
      exists_first_split (fun c : Block => c.inUse = false ∧ n ≤ c.size) p.pool hex
    right; left
    exact ⟨pre, b, post, hsplit, hb.1, hb.2,
      by rw [allocate_fit p n r got pre post b hn hsplit hpre hb]⟩
  · have hnone : ∀ c ∈ p.pool, ¬ (c.inUse = false ∧ n ≤ c.size) :=
      fun c hc hfit => hex ⟨c, hc, hfit⟩
    by_cases ha : got.addr = 0
    · left; rw [allocate_fail p n r got hn hnone ha]
    · right; right
      exact ⟨ha, hn, by rw [allocate_grow p n r got hn hnone ha]⟩

/-! ## The claims, continued -/

/-- C11: after the constructor and `N` successful calls of `allocate` with no `deallocate`,
`detectLeaks` prints one leak line for each block with `inUse` set and for no other block,
these are exactly `N` blocks, and the sum of their sizes is `usedMemory`; it prints the
no-leaks line exactly when `N = 0`, and changes nothing. On any pool with no block in use it
prints the no-leaks line and no leak line. -/
theorem detectLeaks_after_allocations (N : Nat) (p : MemoryPool) (h : AllocatedOnly N p) :
    (detectLeaks p).out =
        Msg.leakDetection :: (inUseBlocks p.pool).map leakLine
          ++ (if N = 0 then [Msg.noLeaks] else []) ∧
      (inUseBlocks p.pool).length = N ∧
      ((inUseBlocks p.pool).map (fun b => b.size)).sum = p.usedMemory ∧
      (detectLeaks p).state = p ∧
      ∀ q : MemoryPool, (∀ b ∈ q.pool, b.inUse = false) →
        (detectLeaks q).out = [Msg.leakDetection, Msg.noLeaks] := by
  have hlen := h.inUse_length
  refine ⟨?_, hlen, h.reachable.wf.used.symm, rfl, ?_⟩
  · rw [detectLeaks_out]
    by_cases hN : N = 0
    · have hnil : inUseBlocks p.pool = [] := List.length_eq_zero.1 (hlen.trans hN)
      simp [hnil, hN]
    · have hne : inUseBlocks p.pool ≠ [] := by
        intro hnil
        rw [hnil] at hlen
        exact hN hlen.symm
      simp [hne, hN]
  · intro q hq
    have hnil : inUseBlocks q.pool = [] := by
      unfold inUseBlocks
      rw [List.filter_eq_nil_iff]
      intro b hb
      simp [hq b hb]
    rw [detectLeaks_out, hnil]
    rfl

/-- C11 at the default pool after one `allocate(64, "Sensor")`: one leak line. -/
theorem detectLeaks_after_allocations_witness :
    (detectLeaks leasedPool).out = [Msg.leakDetection, Msg.leak 64 "Sensor" 65536] ∧
      (inUseBlocks leasedPool.pool).length = 1 ∧
      ((inUseBlocks leasedPool.pool).map (fun b => b.size)).sum = leasedPool.usedMemory :=
  have h := detectLeaks_after_allocations 1 leasedPool leasedPool_allocatedOnly
  ⟨by decide, h.2.1, h.2.2.1⟩

/-- C12, as stated, fails: on the default pool after `allocate(64, "Sensor")`, a second
successful `allocate(64, "Sensor")` leaves two blocks in use with owner `"Sensor"` and
`size ≥ 64`, not exactly one. -/
theorem allocate_exactly_one_owned_counterexample :
    Reachable leasedPool ∧
      (leasedPool.allocate 64 "Sensor" nextChunk).ret ≠ 0 ∧
      countOwned "Sensor" 64 (leasedPool.allocate 64 "Sensor" nextChunk).state.pool = 2 :=
  ⟨leasedPool_reachable, by decide, by decide⟩

/-- C12, amended: a successful `allocate(n, owner)` raises the number of blocks in use with the
given owner and `size ≥ n` by exactly one, and the block whose handle is returned is in use
with that owner and `size ≥ n`. -/
theorem allocate_adds_one_owned (p : MemoryPool) (n : Nat) (owner : String) (got : Chunk)
    (hok : (p.allocate n owner got).ret ≠ 0) :
    countOwned owner n (p.allocate n owner got).state.pool = countOwned owner n p.pool + 1 ∧
      ∃ b ∈ (p.allocate n owner got).state.pool,
        b.memory = (p.allocate n owner got).ret ∧ b.inUse = true ∧ b.owner = owner ∧
          n ≤ b.size := by
  by_cases hn : n = 0
  · rw [hn, allocate_zero] at hok
    exact absurd rfl hok
  by_cases hex : ∃ c ∈ p.pool, c.inUse = false ∧ n ≤ c.size
  · obtain ⟨pre, b, post, hsplit, hpre, hb⟩ :=
      exists_first_split (fun c : Block => c.inUse = false ∧ n ≤ c.size) p.pool hex
    rw [allocate_fit p n owner got pre post b hn hsplit hpre hb]
    refine ⟨?_, _, List.mem_append_right _ (List.mem_cons_self _ _), rfl, rfl, rfl, hb.2⟩
    rw [hsplit]
    simp only [countOwned_append, countOwned_cons]
    simp [hb.1, hb.2]
    omega
  · have hnone : ∀ c ∈ p.pool, ¬ (c.inUse = false ∧ n ≤ c.size) :=
      fun c hc hfit => hex ⟨c, hc, hfit⟩
    by_cases ha : got.addr = 0
    · rw [allocate_fail p n owner got hn hnone ha] at hok
      exact absurd rfl hok
    · rw [allocate_grow p n owner got hn hnone ha]
      refine ⟨?_, _, List.mem_append_right _ (List.mem_cons_self _ _), rfl, rfl, rfl, le_refl _⟩
      simp only [countOwned_append, countOwned_cons]
      simp [countOwned]

/-- C12, amended, at the default pool after `allocate(64, "Sensor")`: the second
`allocate(64, "Sensor")` takes the count from one to two. -/
theorem allocate_adds_one_owned_witness :
    countOwned "Sensor" 64 leasedPool.pool = 1 ∧
      countOwned "Sensor" 64 (leasedPool.allocate 64 "Sensor" nextChunk).state.pool
        = countOwned "Sensor" 64 leasedPool.pool + 1 :=
  ⟨by decide,
   (allocate_adds_one_owned leasedPool 64 "Sensor" nextChunk (by decide)).1⟩

/-- C13, as stated, fails: in the reachable pool `twiceGrownPool` the free blocks of size at
least 16500 are one of 20000 bytes followed by one of 17000 bytes; `allocate(16500, "Z")`
returns the handle of the 20000-byte block, which is not the smallest. -/
theorem allocate_best_fit_counterexample :
    Reachable twiceGrownPool ∧
      ∃ b ∈ twiceGrownPool.pool, ∃ c ∈ twiceGrownPool.pool,
        b.memory = (twiceGrownPool.allocate 16500 "Z" (spacedMalloc 22)).ret ∧
          b.inUse = false ∧ b.size = 20000 ∧
          c.inUse = false ∧ 16500 ≤ c.size ∧ c.size = 17000 ∧ c.size < b.size :=
  ⟨Reachable.deallocate _ "Y" (Reachable.deallocate _ "X"
      (Reachable.allocate 17000 "Y" (spacedMalloc 21)
        (Reachable.allocate 20000 "X" (spacedMalloc 20) freshPool_reachable (by decide))
        (by decide))),
   by decide⟩

/-- C13, amended: `allocate` serves a request by first fit. For `n > 0`, when `b` is what a
search of the pool, in pool order, for a free block with `size ≥ n` finds first, the handle
returned is that of `b`, every block before `b` is in use or smaller than `n`, and only `b`
changes; nothing is said about `b` being the smallest such block. -/
theorem allocate_chooses_first_fit (p : MemoryPool) (n : Nat) (owner : String) (got : Chunk)
    (b : Block) (hn : 0 < n)
    (hfind : p.pool.find? (fun c => !c.inUse && decide (n ≤ c.size)) = some b) :
    (p.allocate n owner got).ret = b.memory ∧ b.inUse = false ∧ n ≤ b.size ∧
      ∃ pre post, p.pool = pre ++ b :: post ∧
        (∀ c ∈ pre, c.inUse = true ∨ c.size < n) ∧
        (p.allocate n owner got).state.pool =
          pre ++ { b with inUse := true, owner := owner,
                          bytes := memset b.bytes 0 b.size } :: post := by
  rw [List.find?_eq_some] at hfind
  obtain ⟨hb, pre, post, hsplit, hpre⟩ := hfind
  simp only [Bool.and_eq_true, Bool.not_eq_true', decide_eq_true_eq] at hb
  have hpre1 : ∀ c ∈ pre, ¬ (c.inUse = false ∧ n ≤ c.size) := by
    intro c hc hfit
    have := hpre c hc
    simp [hfit.1, hfit.2] at this
  rw [allocate_fit p n owner got pre post b (Nat.pos_iff_ne_zero.1 hn) hsplit hpre1 hb]
  refine ⟨rfl, hb.1, hb.2, pre, post, hsplit, ?_, rfl⟩
  intro c hc
  have hnot := hpre1 c hc
  by_cases hu : c.inUse = true
  · exact Or.inl hu
  · right
    have hfalse : c.inUse = false := by simpa using hu
    exact Nat.lt_of_not_le (fun hle => hnot ⟨hfalse, hle⟩)

set_option maxRecDepth 8000 in
/-- C13, amended, at `twiceGrownPool` with `n = 16500`: the search finds the 20000-byte
block at address `21 * 65536`. -/
theorem allocate_chooses_first_fit_witness :
    (twiceGrownPool.allocate 16500 "Z" (spacedMalloc 22)).ret = 1376256 ∧
      (twiceGrownPool.allocate 16500 "Z" (spacedMalloc 22)).ret
        = (twiceGrownPool.pool.getD 20 (Block.new 0 (spacedMalloc 0))).memory ∧
      (twiceGrownPool.pool.getD 20 (Block.new 0 (spacedMalloc 0))).size = 20000 :=
  ⟨by decide,
   (allocate_chooses_first_fit twiceGrownPool 16500 "Z" (spacedMalloc 22)
      (twiceGrownPool.pool.getD 20 (Block.new 0 (spacedMalloc 0))) (by decide) (by rfl)).1,
   by decide⟩

/-- C14: in every reachable state, a block whose `inUse` flag is clear has the empty string as
`owner`. -/
theorem free_block_owner_empty (p : MemoryPool) (h : Reachable p) :
    ∀ b ∈ p.pool, b.inUse = false → b.owner = "" :=
  h.wf.freeOwner

/-- C14 at the default pool after `allocate(64, "Sensor")` and the `deallocate` of its
handle by another requester: the first block is free again and has no owner. -/
theorem free_block_owner_empty_witness :
    ((leasedPool.deallocate 65536 "Other").state.pool.getD 0
        (Block.new 0 (spacedMalloc 0))).inUse = false ∧
      ((leasedPool.deallocate 65536 "Other").state.pool.getD 0
        (Block.new 0 (spacedMalloc 0))).owner = "" :=
  ⟨by decide,
   free_block_owner_empty _ (Reachable.deallocate 65536 "Other" leasedPool_reachable)
    ((leasedPool.deallocate 65536 "Other").state.pool.getD 0 (Block.new 0 (spacedMalloc 0)))
    (List.mem_of_mem_head? (by rfl)) (by decide)⟩

/-- C15: in a reachable state, `deallocate` of the address of a block `b` that is in use
returns `true`; in the pool only `b` changes: its `inUse` is cleared, its `owner` is the empty
string and all `size` bytes of its buffer are `0xFF` (not the zero fill of `allocate`), while
its address and `size` stay; `usedMemory` drops by exactly `b.size`; `totalMemory` and the
number of blocks stay. -/
theorem deallocate_in_use_frame (p : MemoryPool) (h : Reachable p) (ptr : Nat)
    (requester : String) (b : Block) (hb : b ∈ p.pool) (hmem : b.memory = ptr)
    (huse : b.inUse = true) :
    (p.deallocate ptr requester).ret = true ∧
      (∃ pre post, p.pool = pre ++ b :: post ∧
        (p.deallocate ptr requester).state.pool =
          pre ++ { b with inUse := false, owner := "",
                          bytes := List.replicate b.size 0xFF } :: post) ∧
      List.replicate b.size 0xFF ≠ memset b.bytes 0 b.size ∧
      (p.deallocate ptr requester).state.usedMemory + b.size = p.usedMemory ∧
      (p.deallocate ptr requester).state.totalMemory = p.totalMemory ∧
      (p.deallocate ptr requester).state.pool.length = p.pool.length := by
  have hwf := h.wf
  have hptr : ptr ≠ 0 := hmem ▸ hwf.memory_ne_zero b hb
  obtain ⟨pre, b0, post, hsplit, hpre, hb0⟩ :=
    exists_first_split (fun c : Block => c.memory = ptr) p.pool ⟨b, hb, hmem⟩
  have hbb : b = b0 := hwf.eq_of_memory_eq pre post b0 hsplit b hb (hmem.trans hb0.symm)
  subst hbb
  have hlen := hwf.length b hb
  have hpos : 0 < b.size := (hwf.region (b.memory, b.size) (List.mem_map.2 ⟨b, hb, rfl⟩)).2.1
  obtain ⟨hle, hlt⟩ := hwf.used_no_wrap pre post b hsplit huse
  rw [deallocate_used p ptr requester pre post b hptr hsplit hpre hmem huse]
  refine ⟨rfl, ⟨pre, post, hsplit, ?_⟩, ?_, ?_, rfl, ?_⟩
  · simp only [memset_full b.bytes 0xFF b.size hlen]
  · rw [memset_full b.bytes 0 b.size hlen]
    intro heq
    have h0 := congrArg (fun l => l.head?) heq
    cases hs : b.size with
    | zero => omega
    | succ k => rw [hs] at h0; simp [List.replicate_succ] at h0
  · show subSize p.usedMemory b.size + b.size = p.usedMemory
    rw [subSize_eq _ _ hle hlt]
    omega
  · rw [hsplit]; simp

/-- C15 at the default pool after `allocate(64, "Sensor")`, for the handle `65536`. -/
theorem deallocate_in_use_frame_witness :
    (leasedPool.deallocate 65536 "Sensor").ret = true ∧
      (leasedPool.deallocate 65536 "Sensor").state.usedMemory + 64 = leasedPool.usedMemory ∧
      (leasedPool.deallocate 65536 "Sensor").state.totalMemory = leasedPool.totalMemory :=
  have h := deallocate_in_use_frame leasedPool leasedPool_reachable 65536 "Sensor"
    { Block.new 64 (spacedMalloc 0) with
        inUse := true, owner := "Sensor",
        bytes := memset (Block.new 64 (spacedMalloc 0)).bytes 0 64 }
    (List.mem_of_mem_head? (by rfl)) rfl rfl
  ⟨h.1, h.2.2.2.1, h.2.2.2.2.1⟩

/-- C16: for `n > 0`, when no free block has `size ≥ n` and `malloc` returns null,
`allocate` returns the null handle, prints the failure, and leaves the whole object as it was:
no block is appended and `totalMemory`, `usedMemory` and every block keep their values. -/
theorem allocate_malloc_failure (p : MemoryPool) (n : Nat) (requester : String) (got : Chunk)
    (hn : 0 < n) (hnone : ∀ c ∈ p.pool, ¬ (c.inUse = false ∧ n ≤ c.size))
    (ha : got.addr = 0) :
    (p.allocate n requester got).ret = 0 ∧
      (p.allocate n requester got).state = p ∧
      (p.allocate n requester got).out =
        [Msg.noSuitableBlock n, Msg.allocateFailed n requester] := by
  rw [allocate_fail p n requester got (Nat.pos_iff_ne_zero.1 hn) hnone ha]
  exact ⟨rfl, rfl, rfl⟩

/-- C16 at the default pool, for a request of 32768 bytes that `malloc` refuses. -/
theorem allocate_malloc_failure_witness :
    (freshPool.allocate 32768 "Big" { addr := 0, junk := fun _ => 0 }).ret = 0 ∧
      (freshPool.allocate 32768 "Big" { addr := 0, junk := fun _ => 0 }).state = freshPool ∧
      (freshPool.allocate 32768 "Big" { addr := 0, junk := fun _ => 0 }).out =
        [Msg.noSuitableBlock 32768, Msg.allocateFailed 32768 "Big"] :=
  allocate_malloc_failure freshPool 32768 "Big" { addr := 0, junk := fun _ => 0 }
    (by decide) (by decide) rfl

/-- C17: across a call of `allocate` the addresses and sizes of the blocks before the call are
a prefix of those after it, and either they are all of them or exactly one block was appended;
across a call of `deallocate` the addresses and sizes of the blocks are the same sequence. So
no block is removed or reordered and no `size` changes. -/
theorem blocks_only_appended (p : MemoryPool) (n : Nat) (owner : String) (got : Chunk)
    (ptr : Nat) (requester : String) :
    regions p.pool <+: regions (p.allocate n owner got).state.pool ∧
      (regions (p.allocate n owner got).state.pool = regions p.pool ∨
        ∃ nb, (p.allocate n owner got).state.pool = p.pool ++ [nb]) ∧
      regions (p.deallocate ptr requester).state.pool = regions p.pool := by
  have hdealloc : regions (p.deallocate ptr requester).state.pool = regions p.pool := by
    rcases deallocate_cases p ptr requester with h | ⟨pre, b, post, hsplit, _, _, h⟩
    · rw [h]
    · rw [h, hsplit]
      exact regions_update pre post b _ rfl rfl
  rcases allocate_cases p n owner got with h | ⟨pre, b, post, hsplit, _, _, h⟩ | ⟨_, _, h⟩
  · rw [h]
    exact ⟨List.prefix_refl _, Or.inl rfl, hdealloc⟩
  · have hreg : regions (p.allocate n owner got).state.pool = regions p.pool := by
      rw [h, hsplit]
      exact regions_update pre post b _ rfl rfl
    rw [hreg]
    exact ⟨List.prefix_refl _, Or.inl rfl, hdealloc⟩
  · rw [h]
    refine ⟨?_, Or.inr ⟨_, rfl⟩, hdealloc⟩
    simp only [regions, List.map_append]
    exact List.prefix_append _ _

/-- C18: in every reachable state `totalMemory` is the sum of `size` over all blocks;
`deallocate` leaves `totalMemory` as it was; and the constructor, when all twenty
pre-allocations succeed, leaves `totalMemory = 87296`. -/
theorem totalMemory_eq_sizeTotal (p : MemoryPool) (h : Reachable p) (ptr : Nat)
    (requester : String) :
    p.totalMemory = sizeTotal p.pool ∧
      (p.deallocate ptr requester).state.totalMemory = p.totalMemory ∧
      ∀ (initialSize : Nat) (malloc : Nat → Chunk), (∀ k < 20, (malloc k).addr ≠ 0) →
        (new initialSize malloc).state.totalMemory = 87296 := by
  refine ⟨h.wf.total, ?_, ?_⟩
  · rcases deallocate_cases p ptr requester with h1 | ⟨pre, b, post, _, _, _, h1⟩
    · rw [h1]
    · rw [h1]
  · intro initialSize malloc hall
    rw [new_state_of_success initialSize malloc hall]

/-- C18 at the default pool after `allocate(64, "Sensor")`. -/
theorem totalMemory_eq_sizeTotal_witness :
    leasedPool.totalMemory = 87296 ∧
      leasedPool.totalMemory = sizeTotal leasedPool.pool ∧
      (leasedPool.deallocate 65536 "Sensor").state.totalMemory = leasedPool.totalMemory :=
  have h := totalMemory_eq_sizeTotal leasedPool leasedPool_reachable 65536 "Sensor"
  ⟨by decide, h.1, h.2.1⟩

end MemoryPool

namespace MemoryManager

/-! ## The map -/

theorem mapFind_eq_none (ptr : Nat) (l : List (Nat × AllocationInfo)) :
    mapFind ptr l = none ↔ ∀ e ∈ l, e.1 ≠ ptr := by
  induction l with
  | nil => simp [mapFind]
  | cons e rest ih =>
    by_cases he : e.1 = ptr
    · simp [mapFind, he]
    · simp [mapFind, he, ih]

theorem mapAssign_perm (ptr : Nat) (info : AllocationInfo) (l : List (Nat × AllocationInfo))
    (h : ∀ e ∈ l, e.1 ≠ ptr) : (mapAssign ptr info l).Perm ((ptr, info) :: l) := by
  induction l with
  | nil => exact List.Perm.refl _
  | cons e rest ih =>
    have he : ¬ ptr = e.1 := fun heq => h e (List.mem_cons_self _ _) heq.symm
    by_cases hlt : ptr < e.1
    · rw [mapAssign, if_pos hlt]
    · rw [mapAssign, if_neg hlt, if_neg he]
      exact ((ih (fun x hx => h x (List.mem_cons_of_mem _ hx))).cons e).trans
        (List.Perm.swap _ _ _)

theorem mapErase_perm (ptr : Nat) (info : AllocationInfo) (l : List (Nat × AllocationInfo))
    (h : mapFind ptr l = some info) : l.Perm ((ptr, info) :: mapErase ptr l) := by
  induction l with
  | nil => simp [mapFind] at h
  | cons e rest ih =>
    by_cases he : e.1 = ptr
    · rw [mapFind, if_pos he] at h
      have h2 : e.2 = info := Option.some.inj h
      rw [mapErase, if_pos he, ← he, ← h2]
    · rw [mapFind, if_neg he] at h
      rw [mapErase, if_neg he]
      exact ((ih h).cons e).trans (List.Perm.swap _ _ _)

/-! ## The ways through `allocateMemory` and `deallocateMemory` -/

theorem allocateMemory_zero (m : MemoryManager) (isArray : Bool) (got : Nat) (now : Int) :
    (m.allocateMemory 0 isArray got now).state = m := by
  simp [allocateMemory]

theorem allocateMemory_threw (m : MemoryManager) (size : Nat) (isArray : Bool) (now : Int)
    (hsize : size ≠ 0) : (m.allocateMemory size isArray 0 now).state = m := by
  simp [allocateMemory, hsize]

theorem allocateMemory_ok (m : MemoryManager) (size : Nat) (isArray : Bool) (got : Nat)
    (now : Int) (hsize : size ≠ 0) (hgot : got ≠ 0) :
    (m.allocateMemory size isArray got now).state =
      { m with
        allocations :=
          mapAssign got { size := size, timestamp := now, isArray := isArray,
                          location := "Unknown" } m.allocations,
        totalAllocations := addSize m.totalAllocations 1,
        currentAllocatedBytes := addSize m.currentAllocatedBytes size,
        totalBytesAllocated := addSize m.totalBytesAllocated size,
        peakAllocatedBytes :=
          if addSize m.currentAllocatedBytes size > m.peakAllocatedBytes
          then addSize m.currentAllocatedBytes size else m.peakAllocatedBytes } := by
  simp [allocateMemory, hsize, hgot]

theorem deallocateMemory_null (m : MemoryManager) (isArray : Bool) :
    (m.deallocateMemory 0 isArray).state = m := by
  simp [deallocateMemory]

theorem deallocateMemory_untracked (m : MemoryManager) (ptr : Nat) (isArray : Bool)
    (h : mapFind ptr m.allocations = none) : (m.deallocateMemory ptr isArray).state = m := by
  unfold deallocateMemory
  by_cases hptr : ptr = 0
  · rw [if_pos hptr]
  · rw [if_neg hptr, h]

theorem deallocateMemory_tracked (m : MemoryManager) (ptr : Nat) (isArray : Bool)
    (info : AllocationInfo) (hptr : ptr ≠ 0) (h : mapFind ptr m.allocations = some info) :
    (m.deallocateMemory ptr isArray).state =
      { m with
        currentAllocatedBytes := subSize m.currentAllocatedBytes info.size,
        totalDeallocations := addSize m.totalDeallocations 1,
        allocations := mapErase ptr m.allocations } := by
  unfold deallocateMemory
  rw [if_neg hptr, h]

/-! ## The invariant -/

theorem apart_symm {x y : Nat × Nat} (h : MemoryPool.Apart x y) : MemoryPool.Apart y x :=
  Or.symm h

theorem WF.sum_lt {m : MemoryManager} (h : WF m) : (m.tracked.map Prod.snd).sum < sizeMod :=
  MemoryPool.regions_sum_lt sizeMod (by decide) _ h.region h.apart

theorem MallocOK.fresh {m : MemoryManager} (h : WF m) (size got : Nat)
    (hm : MallocOK m size got) (hsize : size ≠ 0) (hgot : got ≠ 0) :
    ∀ e ∈ m.allocations, e.1 ≠ got := by
  intro e he heq
  rcases hm with hm | ⟨_, hfar⟩
  · exact hgot hm
  · have hmem : (e.1, e.2.size) ∈ m.tracked := List.mem_map.2 ⟨e, he, rfl⟩
    have hpos := (h.region _ hmem).2.1
    have hap := hfar _ hmem
    simp only [MemoryPool.Apart] at hap hpos
    have hs : 0 < size := Nat.pos_of_ne_zero hsize
    omega

theorem WF_allocateMemory {m : MemoryManager} (h : WF m) (size : Nat) (isArray : Bool)
    (got : Nat) (now : Int) (hm : MallocOK m size got) :
    WF (m.allocateMemory size isArray got now).state := by
  by_cases hsize : size = 0
  · rw [hsize, allocateMemory_zero]; exact h
  by_cases hgot : got = 0
  · rw [hgot, allocateMemory_threw m size isArray now hsize]; exact h
  rw [allocateMemory_ok m size isArray got now hsize hgot]
  have hfresh := MallocOK.fresh h size got hm hsize hgot
  have hperm : (mapAssign got
      { size := size, timestamp := now, isArray := isArray, location := "Unknown" }
      m.allocations).map (fun entry => (entry.1, entry.2.size))
        |>.Perm ((got, size) :: m.tracked) :=
    (mapAssign_perm got _ m.allocations hfresh).map _
  rcases hm with hm | ⟨hbound, hfar⟩
  · exact absurd hm hgot
  have hreg : ∀ x ∈ (got, size) :: m.tracked, x.1 ≠ 0 ∧ 0 < x.2 ∧ x.1 + x.2 ≤ sizeMod := by
    intro x hx
    rcases List.mem_cons.1 hx with rfl | hx
    · exact ⟨hgot, Nat.pos_of_ne_zero hsize, hbound⟩
    · exact h.region x hx
  have hap : ((got, size) :: m.tracked).Pairwise MemoryPool.Apart :=
    List.pairwise_cons.2 ⟨hfar, h.apart⟩
  have hsum := MemoryPool.regions_sum_lt sizeMod (by decide) _ hreg hap
  simp only [List.map_cons, List.sum_cons] at hsum
  have hcur := h.current
  have hadd : addSize m.currentAllocatedBytes size = m.currentAllocatedBytes + size :=
    MemoryPool.addSize_eq _ _ (by omega)
  refine ⟨?_, ?_, ?_, ?_⟩
  · intro x hx
    exact hreg x ((hperm.mem_iff).1 hx)
  · exact (hperm.pairwise_iff (fun hxy => apart_symm hxy)).2 hap
  · show addSize m.currentAllocatedBytes size = _
    have hs : (List.map Prod.snd (List.map (fun entry : Nat × AllocationInfo =>
        (entry.1, entry.2.size)) (mapAssign got
          { size := size, timestamp := now, isArray := isArray, location := "Unknown" }
          m.allocations))).sum = (List.map Prod.snd ((got, size) :: m.tracked)).sum :=
      (hperm.map Prod.snd).sum_eq
    show _ = (List.map Prod.snd (List.map _ (mapAssign got _ m.allocations))).sum
    rw [hs, hadd, hcur]
    simp only [List.map_cons, List.sum_cons]
    omega
  · show addSize m.currentAllocatedBytes size ≤
      (if addSize m.currentAllocatedBytes size > m.peakAllocatedBytes
        then addSize m.currentAllocatedBytes size else m.peakAllocatedBytes)
    split <;> omega

theorem tracked_of_find (m : MemoryManager) (ptr : Nat) (info : AllocationInfo)
    (hfind : mapFind ptr m.allocations = some info) :
    m.tracked.Perm ((ptr, info.size) :: (mapErase ptr m.allocations).map
      (fun entry => (entry.1, entry.2.size))) :=
  (mapErase_perm ptr info m.allocations hfind).map _

theorem WF.size_le_current {m : MemoryManager} (h : WF m) (ptr : Nat) (info : AllocationInfo)
    (hfind : mapFind ptr m.allocations = some info) :
    m.currentAllocatedBytes =
        info.size + (((mapErase ptr m.allocations).map
          (fun entry => (entry.1, entry.2.size))).map Prod.snd).sum ∧
      m.currentAllocatedBytes < sizeMod := by
  have hperm := tracked_of_find m ptr info hfind
  have hs := (hperm.map Prod.snd).sum_eq
  simp only [List.map_cons, List.sum_cons] at hs
  have hlt := h.sum_lt
  rw [← h.current] at hs hlt
  exact ⟨hs, hlt⟩

theorem WF_deallocateMemory {m : MemoryManager} (h : WF m) (ptr : Nat) (isArray : Bool) :
    WF (m.deallocateMemory ptr isArray).state := by
  by_cases hptr : ptr = 0
  · rw [hptr, deallocateMemory_null]; exact h
  cases hfind : mapFind ptr m.allocations with
  | none => rw [deallocateMemory_untracked m ptr isArray hfind]; exact h
  | some info =>
    rw [deallocateMemory_tracked m ptr isArray info hptr hfind]
    have hperm := tracked_of_find m ptr info hfind
    obtain ⟨hcur, hlt⟩ := h.size_le_current ptr info hfind
    have hreg := h.region
    have hap := (hperm.pairwise_iff (fun hxy => apart_symm hxy)).1 h.apart
    have hpk := h.peak
    have hsub : subSize m.currentAllocatedBytes info.size
        = m.currentAllocatedBytes - info.size :=
      MemoryPool.subSize_eq _ _ (by omega) hlt
    refine ⟨?_, ?_, ?_, ?_⟩
    · intro x hx
      exact hreg x ((hperm.mem_iff).2 (List.mem_cons_of_mem _ hx))
    · exact (List.pairwise_cons.1 hap).2
    · show subSize m.currentAllocatedBytes info.size = _
      rw [hsub]
      show _ = (List.map Prod.snd (List.map _ (mapErase ptr m.allocations))).sum
      omega
    · show subSize m.currentAllocatedBytes info.size ≤ m.peakAllocatedBytes
      rw [hsub]
      omega

theorem WF_step {m : MemoryManager} (h : WF m) (call : Call) (hc : CallOK m call) :
    WF (m.step call) := by
  cases call with
  | allocateMemory size isArray got now => exact WF_allocateMemory h size isArray got now hc
  | allocateArray size got now => exact WF_allocateMemory h size true got now hc
  | deallocateMemory ptr isArray => exact WF_deallocateMemory h ptr isArray
  | deallocateArray ptr => exact WF_deallocateMemory h ptr true

theorem WF_constructed (opened : Bool) : WF (new opened).state where
  region := by intro x hx; simp [new, tracked] at hx
  apart := by simp [new, tracked]
  current := rfl
  peak := le_refl _

theorem WF_run {m : MemoryManager} (calls : List Call) :
    WF m → CallsOK m calls → WF (m.run calls) := by
  induction calls generalizing m with
  | nil => intro h _; exact h
  | cons call rest ih =>
    intro h hc
    exact ih (WF_step h call hc.1) hc.2

/-! ## The peak -/

theorem allocateMemory_peak {m : MemoryManager} (h : WF m) (size : Nat) (isArray : Bool)
    (got : Nat) (now : Int) :
    (m.allocateMemory size isArray got now).state.peakAllocatedBytes =
      max m.peakAllocatedBytes
        (m.allocateMemory size isArray got now).state.currentAllocatedBytes := by
  have hpk := h.peak
  by_cases hsize : size = 0
  · rw [hsize, allocateMemory_zero]; omega
  by_cases hgot : got = 0
  · rw [hgot, allocateMemory_threw m size isArray now hsize]; omega
  rw [allocateMemory_ok m size isArray got now hsize hgot]
  show (if addSize m.currentAllocatedBytes size > m.peakAllocatedBytes
        then addSize m.currentAllocatedBytes size else m.peakAllocatedBytes)
      = max m.peakAllocatedBytes (addSize m.currentAllocatedBytes size)
  split <;> omega

theorem deallocateMemory_peak {m : MemoryManager} (h : WF m) (ptr : Nat) (isArray : Bool) :
    (m.deallocateMemory ptr isArray).state.peakAllocatedBytes = m.peakAllocatedBytes ∧
      (m.deallocateMemory ptr isArray).state.currentAllocatedBytes
        ≤ m.currentAllocatedBytes := by
  by_cases hptr : ptr = 0
  · rw [hptr, deallocateMemory_null]; exact ⟨rfl, le_refl _⟩
  cases hfind : mapFind ptr m.allocations with
  | none => rw [deallocateMemory_untracked m ptr isArray hfind]; exact ⟨rfl, le_refl _⟩
  | some info =>
    rw [deallocateMemory_tracked m ptr isArray info hptr hfind]
    obtain ⟨hcur, hlt⟩ := h.size_le_current ptr info hfind
    refine ⟨rfl, ?_⟩
    show subSize m.currentAllocatedBytes info.size ≤ m.currentAllocatedBytes
    rw [MemoryPool.subSize_eq _ _ (by omega) hlt]
    omega

theorem step_peak {m : MemoryManager} (h : WF m) (call : Call) :
    (m.step call).peakAllocatedBytes =
      max m.peakAllocatedBytes (m.step call).currentAllocatedBytes := by
  have hpk := h.peak
  cases call with
  | allocateMemory size isArray got now => exact allocateMemory_peak h size isArray got now
  | allocateArray size got now => exact allocateMemory_peak h size true got now
  | deallocateMemory ptr isArray =>
    obtain ⟨h1, h2⟩ := deallocateMemory_peak h ptr isArray
    show (m.deallocateMemory ptr isArray).state.peakAllocatedBytes = _
    rw [h1]
    have : (m.step (Call.deallocateMemory ptr isArray)).currentAllocatedBytes
        = (m.deallocateMemory ptr isArray).state.currentAllocatedBytes := rfl
    omega
  | deallocateArray ptr =>
    obtain ⟨h1, h2⟩ := deallocateMemory_peak h ptr true
    show (m.deallocateMemory ptr true).state.peakAllocatedBytes = _
    rw [h1]
    have : (m.step (Call.deallocateArray ptr)).currentAllocatedBytes
        = (m.deallocateMemory ptr true).state.currentAllocatedBytes := rfl
    omega

theorem run_peak {m : MemoryManager} (calls : List Call) :
    WF m → CallsOK m calls →
      (m.run calls).peakAllocatedBytes =
        max m.peakAllocatedBytes
          (((m.history calls).map (fun s => s.currentAllocatedBytes)).foldr max 0) := by
  induction calls generalizing m with
  | nil =>
    intro h _
    have hpk := h.peak
    simp only [run, history, List.foldl_nil, List.map_cons, List.map_nil, List.foldr_cons,
      List.foldr_nil]
    omega
  | cons call rest ih =>
    intro h hc
    have hpk := h.peak
    have hstep := step_peak h call
    have hrest := ih (WF_step h call hc.1) hc.2
    have hhead : ∀ l : List Call,
        ((m.step call).history l).map (fun s => s.currentAllocatedBytes) =
          (m.step call).currentAllocatedBytes ::
            (((m.step call).history l).map (fun s => s.currentAllocatedBytes)).tail := by
      intro l
      cases l <;> rfl
    have hmax : (m.step call).currentAllocatedBytes ≤
        (((m.step call).history rest).map (fun s => s.currentAllocatedBytes)).foldr max 0 := by
      rw [hhead rest, List.foldr_cons]
      exact le_max_left _ _
    show ((m.step call).run rest).peakAllocatedBytes = _
    rw [hrest, hstep]
    simp only [history, List.map_cons, List.foldr_cons]
    omega

/-! ## The counters of calls -/

theorem foldl_addSize (l : List (Nat × AllocationInfo)) (a : Nat) :
    l.foldl (fun acc pair => addSize acc pair.2.size) (a % sizeMod) =
      (a + (l.map (fun entry => entry.2.size)).sum) % sizeMod := by
  induction l generalizing a with
  | nil => simp
  | cons e rest ih =>
    have hstep : addSize (a % sizeMod) e.2.size = (a + e.2.size) % sizeMod := by
      unfold addSize
      rw [Nat.mod_add_mod]
    rw [List.foldl_cons, hstep, ih]
    simp only [List.map_cons, List.sum_cons]
    rw [Nat.add_assoc]

theorem WF.calculatedBytes_eq {m : MemoryManager} (h : WF m) :
    m.calculatedBytes = m.currentAllocatedBytes := by
  have hfold := foldl_addSize m.allocations 0
  have hsum : (m.allocations.map (fun entry => entry.2.size)).sum
      = (m.tracked.map Prod.snd).sum := by
    simp [tracked, List.map_map, Function.comp_def]
  have hlt := h.sum_lt
  unfold calculatedBytes
  rw [Nat.zero_mod] at hfold
  rw [hfold, Nat.zero_add, hsum, Nat.mod_eq_of_lt hlt, h.current]

theorem Counted_allocateMemory {m : MemoryManager} (h : WF m) (k size : Nat) (isArray : Bool)
    (got : Nat) (now : Int) (hm : MallocOK m size got) (hc : Counted k m)
    (hk : k + 1 < sizeMod) : Counted (k + 1) (m.allocateMemory size isArray got now).state := by
  obtain ⟨hc1, hc2⟩ := hc
  by_cases hsize : size = 0
  · rw [hsize, allocateMemory_zero]; exact ⟨hc1, by omega⟩
  by_cases hgot : got = 0
  · rw [hgot, allocateMemory_threw m size isArray now hsize]; exact ⟨hc1, by omega⟩
  rw [allocateMemory_ok m size isArray got now hsize hgot]
  have hlen := (mapAssign_perm got
    { size := size, timestamp := now, isArray := isArray, location := "Unknown" }
    m.allocations (MallocOK.fresh h size got hm hsize hgot)).length_eq
  have hadd : addSize m.totalAllocations 1 = m.totalAllocations + 1 :=
    MemoryPool.addSize_eq _ _ (by omega)
  constructor
  · show addSize m.totalAllocations 1 = m.totalDeallocations + (mapAssign got _ _).length
    rw [hadd, hlen, List.length_cons]
    omega
  · show addSize m.totalAllocations 1 ≤ k + 1
    omega

theorem Counted_deallocateMemory {m : MemoryManager} (k : Nat) (ptr : Nat) (isArray : Bool)
    (hc : Counted k m) (hk : k + 1 < sizeMod) :
    Counted (k + 1) (m.deallocateMemory ptr isArray).state := by
  obtain ⟨hc1, hc2⟩ := hc
  by_cases hptr : ptr = 0
  · rw [hptr, deallocateMemory_null]; exact ⟨hc1, by omega⟩
  cases hfind : mapFind ptr m.allocations with
  | none => rw [deallocateMemory_untracked m ptr isArray hfind]; exact ⟨hc1, by omega⟩
  | some info =>
    rw [deallocateMemory_tracked m ptr isArray info hptr hfind]
    have hlen := (mapErase_perm ptr info m.allocations hfind).length_eq
    rw [List.length_cons] at hlen
    have hadd : addSize m.totalDeallocations 1 = m.totalDeallocations + 1 :=
      MemoryPool.addSize_eq _ _ (by omega)
    constructor
    · show m.totalAllocations = addSize m.totalDeallocations 1 + (mapErase ptr _).length
      omega
    · show m.totalAllocations ≤ k + 1
      omega

theorem Counted_step {m : MemoryManager} (h : WF m) (k : Nat) (call : Call)
    (hcall : CallOK m call) (hc : Counted k m) (hk : k + 1 < sizeMod) :
    Counted (k + 1) (m.step call) := by
  cases call with
  | allocateMemory size isArray got now =>
    exact Counted_allocateMemory h k size isArray got now hcall hc hk
  | allocateArray size got now => exact Counted_allocateMemory h k size true got now hcall hc hk
  | deallocateMemory ptr isArray => exact Counted_deallocateMemory k ptr isArray hc hk
  | deallocateArray ptr => exact Counted_deallocateMemory k ptr true hc hk

theorem Counted_run {m : MemoryManager} (calls : List Call) (k : Nat) :
    WF m → CallsOK m calls → Counted k m → k + calls.length < sizeMod →
      Counted (k + calls.length) (m.run calls) := by
  induction calls generalizing m k with
  | nil => intro _ _ hc _; exact hc
  | cons call rest ih =>
    intro h hcalls hc hk
    rw [List.length_cons] at hk ⊢
    have hnext := ih (k + 1) (WF_step h call hcalls.1) hcalls.2
      (Counted_step h k call hcalls.1 hc (by omega)) (by omega)
    have harith : k + (rest.length + 1) = k + 1 + rest.length := by omega
    rw [harith]
    exact hnext

/-! ## The claims about `MemoryManager` -/

/-- C19: after any sequence of `allocateMemory`, `allocateArray`, `deallocateMemory` and
`deallocateArray` calls on a fresh manager, `peakAllocatedBytes` is the largest value
`currentAllocatedBytes` has had in any state since construction; so it is at least the
current value, and a further `deallocateMemory` leaves it as it is. -/
theorem peak_is_running_maximum (opened : Bool) (calls : List Call)
    (h : CallsOK (new opened).state calls) :
    ((new opened).state.run calls).peakAllocatedBytes =
        (((new opened).state.history calls).map (fun s => s.currentAllocatedBytes)).foldr
          max 0 ∧
      ((new opened).state.run calls).currentAllocatedBytes
        ≤ ((new opened).state.run calls).peakAllocatedBytes ∧
      ∀ (ptr : Nat) (isArray : Bool),
        (((new opened).state.run calls).deallocateMemory ptr isArray).state.peakAllocatedBytes
          = ((new opened).state.run calls).peakAllocatedBytes := by
  have hwf := WF_run calls (WF_constructed opened) h
  refine ⟨?_, hwf.peak, fun ptr isArray => (deallocateMemory_peak hwf ptr isArray).1⟩
  rw [run_peak calls (WF_constructed opened) h]
  exact Nat.max_eq_right (Nat.zero_le _)

/-- C19 on `peakCalls`: usage goes 0, 4, 54, 154, 104, ..., 100 and the peak is 154. -/
theorem peak_is_running_maximum_witness :
    ((new true).state.run peakCalls).peakAllocatedBytes = 154 ∧
      ((new true).state.run peakCalls).currentAllocatedBytes = 100 ∧
      ((new true).state.run peakCalls).peakAllocatedBytes =
        (((new true).state.history peakCalls).map (fun s => s.currentAllocatedBytes)).foldr
          max 0 :=
  ⟨by decide, by decide, (peak_is_running_maximum true peakCalls (by decide)).1⟩

/-- C20: after any sequence of fewer than `2 ^ 64` calls of `allocateMemory`, `allocateArray`,
`deallocateMemory` and `deallocateArray` on a fresh manager (zero-size, null, untracked and
type-mismatched calls included), `validateMemory` returns `true`: `totalDeallocations` is at
most `totalAllocations`, and `currentAllocatedBytes` is the sum of the sizes of the tracked
allocations. -/
theorem validateMemory_passes (opened : Bool) (calls : List Call)
    (h : CallsOK (new opened).state calls) (hlen : calls.length < sizeMod) :
    (validateMemory ((new opened).state.run calls)).ret = Completion.returned true ∧
      ((new opened).state.run calls).totalDeallocations
        ≤ ((new opened).state.run calls).totalAllocations ∧
      ((new opened).state.run calls).currentAllocatedBytes =
        (((new opened).state.run calls).allocations.map (fun entry => entry.2.size)).sum := by
  have hwf := WF_run calls (WF_constructed opened) h
  have hcount := Counted_run calls 0 (WF_constructed opened) h ⟨rfl, le_refl _⟩ (by omega)
  have hle : ((new opened).state.run calls).totalDeallocations
      ≤ ((new opened).state.run calls).totalAllocations := by
    have := hcount.1
    omega
  have hcalc := hwf.calculatedBytes_eq
  refine ⟨?_, hle, ?_⟩
  · unfold validateMemory
    rw [if_neg (by omega), if_neg (by rw [hcalc]; exact fun hne => hne rfl)]
  · rw [hwf.current]
    simp [tracked, List.map_map, Function.comp_def]

/-- C20 on `peakCalls`, which has a zero-size, a null, an untracked and a type-mismatched
call. -/
theorem validateMemory_passes_witness :
    (validateMemory ((new true).state.run peakCalls)).ret = Completion.returned true ∧
      ((new true).state.run peakCalls).totalDeallocations = 2 ∧
      ((new true).state.run peakCalls).totalAllocations = 3 :=
  ⟨(validateMemory_passes true peakCalls (by decide) (by decide)).1, by decide, by decide⟩

end MemoryManager

namespace MemoryPool

/-! ## The constructor stores its blocks by size -/

theorem ctorBody_sorted (malloc : Nat → Chunk) (s : Nat) (c : Ctor)
    (h : (c.state.pool.map (fun b => b.size)).Pairwise (fun x y => x ≤ y) ∧
      ∀ x ∈ c.state.pool.map (fun b => b.size), x ≤ s) :
    ((ctorBody malloc s c).state.pool.map (fun b => b.size)).Pairwise (fun x y => x ≤ y) ∧
      ∀ x ∈ (ctorBody malloc s c).state.pool.map (fun b => b.size), x ≤ s := by
  unfold ctorBody
  by_cases hm : (malloc c.calls).addr = 0
  · simpa [Block.new, hm] using h
  · simp only [Block.new, ne_eq, hm, not_false_eq_true, if_true, List.map_append, List.map_cons,
      List.map_nil]
    constructor
    · rw [List.pairwise_append]
      refine ⟨h.1, List.pairwise_singleton _ _, ?_⟩
      intro x hx y hy
      rw [List.mem_singleton] at hy
      rw [hy]
      exact h.2 x hx
    · intro x hx
      rcases List.mem_append.1 hx with hx | hx
      · exact h.2 x hx
      · rw [List.mem_singleton] at hx
        rw [hx]

theorem ctorInner_sorted (malloc : Nat → Chunk) (s0 s : Nat) (hs : s0 ≤ s) (c : Ctor)
    (h : (c.state.pool.map (fun b => b.size)).Pairwise (fun x y => x ≤ y) ∧
      ∀ x ∈ c.state.pool.map (fun b => b.size), x ≤ s0) :
    (((List.range 4).foldl (fun c _ => ctorBody malloc s c) c).state.pool.map
        (fun b => b.size)).Pairwise (fun x y => x ≤ y) ∧
      ∀ x ∈ ((List.range 4).foldl (fun c _ => ctorBody malloc s c) c).state.pool.map
        (fun b => b.size), x ≤ s := by
  apply foldl_inv (fun c : Ctor =>
    (c.state.pool.map (fun b => b.size)).Pairwise (fun x y => x ≤ y) ∧
      ∀ x ∈ c.state.pool.map (fun b => b.size), x ≤ s)
  · intro a _ _ ha
    exact ctorBody_sorted malloc s a ha
  · exact ⟨h.1, fun x hx => le_trans (h.2 x hx) hs⟩

theorem new_sorted (initialSize : Nat) (malloc : Nat → Chunk) :
    ((new initialSize malloc).state.pool.map (fun b => b.size)).Pairwise
      (fun x y => x ≤ y) := by
  have h0 : (ctorStart.state.pool.map (fun b => b.size)).Pairwise (fun x y => x ≤ y) ∧
      ∀ x ∈ ctorStart.state.pool.map (fun b => b.size), x ≤ 0 := by
    simp [ctorStart]
  have h1 := ctorInner_sorted malloc 0 64 (by decide) _ h0
  have h2 := ctorInner_sorted malloc 64 256 (by decide) _ h1
  have h3 := ctorInner_sorted malloc 256 1024 (by decide) _ h2
  have h4 := ctorInner_sorted malloc 1024 4096 (by decide) _ h3
  have h5 := ctorInner_sorted malloc 4096 16384 (by decide) _ h4
  exact h5.1

theorem scribbledPool_reachable : Reachable scribbledPool :=
  Reachable.deallocate 65536 "Sensor" (Reachable.store 65536 0 7 leasedPool_reachable)

/-! ## The claims about `MemoryPool`, concluded -/

/-- C26: in a reachable state, when `allocate` succeeds, the block whose handle it returns
holds zero in all `size` bytes of its buffer, whether the block was reused (whatever a store or
the `0xFF` fill of `deallocate` had left in it) or newly created. -/
theorem allocate_zero_fills_block (p : MemoryPool) (h : Reachable p) (n : Nat)
    (owner : String) (got : Chunk) (hm : MallocOK p.pool n got)
    (hok : (p.allocate n owner got).ret ≠ 0) :
    (∃ b ∈ (p.allocate n owner got).state.pool, b.memory = (p.allocate n owner got).ret) ∧
      ∀ b ∈ (p.allocate n owner got).state.pool, b.memory = (p.allocate n owner got).ret →
        b.bytes = List.replicate b.size 0 := by
  have hwf := h.wf
  have hwf1 := WF_allocate hwf n owner got hm
  by_cases hn : n = 0
  · rw [hn, allocate_zero] at hok
    exact absurd rfl hok
  by_cases hex : ∃ c ∈ p.pool, c.inUse = false ∧ n ≤ c.size
  · obtain ⟨pre, b, post, hsplit, hpre, hb⟩ :=
      exists_first_split (fun c : Block => c.inUse = false ∧ n ≤ c.size) p.pool hex
    have hlen := hwf.length b (by rw [hsplit]; simp)
    rw [allocate_fit p n owner got pre post b hn hsplit hpre hb] at hwf1 ⊢
    refine ⟨⟨_, List.mem_append_right _ (List.mem_cons_self _ _), rfl⟩, ?_⟩
    intro c hc hmem
    rw [hwf1.eq_of_memory_eq pre post _ rfl c hc hmem]
    exact memset_full b.bytes 0 b.size hlen
  · have hnone : ∀ c ∈ p.pool, ¬ (c.inUse = false ∧ n ≤ c.size) :=
      fun c hc hfit => hex ⟨c, hc, hfit⟩
    by_cases ha : got.addr = 0
    · rw [allocate_fail p n owner got hn hnone ha] at hok
      exact absurd rfl hok
    · rw [allocate_grow p n owner got hn hnone ha] at hwf1 ⊢
      refine ⟨⟨_, List.mem_append_right _ (List.mem_cons_self _ _), rfl⟩, ?_⟩
      intro c hc hmem
      rw [hwf1.eq_of_memory_eq p.pool [] _ rfl c hc hmem]
      exact memset_fresh n 0 _

set_option maxRecDepth 8000 in
/-- C26 at `scribbledPool`: the first block holds `0xFF` bytes; `allocate(10, "Next")` hands
it out again with all 64 bytes zero. -/
theorem allocate_zero_fills_block_witness :
    (scribbledPool.pool.getD 0 (Block.new 0 (spacedMalloc 0))).bytes = List.replicate 64 255 ∧
      (scribbledPool.allocate 10 "Next" nextChunk).ret = 65536 ∧
      ((scribbledPool.allocate 10 "Next" nextChunk).state.pool.getD 0
          (Block.new 0 (spacedMalloc 0))).bytes = List.replicate 64 0 :=
  ⟨by rfl, by decide,
   (allocate_zero_fills_block scribbledPool scribbledPool_reachable 10 "Next" nextChunk
      (by decide) (by decide)).2
    ((scribbledPool.allocate 10 "Next" nextChunk).state.pool.getD 0
      (Block.new 0 (spacedMalloc 0)))
    (List.mem_of_mem_head? (by rfl)) (by decide)⟩

/-- C28: in a reachable state, the handle a successful `allocate` returns is the address of a
block that was free before the call, or the address of no block of the pool before the call
(the block was created by it); so it is never the address of a block that was in use. -/
theorem allocate_no_double_lease (p : MemoryPool) (h : Reachable p) (n : Nat)
    (owner : String) (got : Chunk) (hm : MallocOK p.pool n got)
    (hok : (p.allocate n owner got).ret ≠ 0) :
    ((∃ b ∈ p.pool, b.memory = (p.allocate n owner got).ret ∧ b.inUse = false) ∨
        ((∀ b ∈ p.pool, b.memory ≠ (p.allocate n owner got).ret) ∧
          ∃ nb, (p.allocate n owner got).state.pool = p.pool ++ [nb] ∧
            nb.memory = (p.allocate n owner got).ret)) ∧
      ∀ b ∈ p.pool, b.inUse = true → b.memory ≠ (p.allocate n owner got).ret := by
  have hwf := h.wf
  by_cases hn : n = 0
  · rw [hn, allocate_zero] at hok
    exact absurd rfl hok
  by_cases hex : ∃ c ∈ p.pool, c.inUse = false ∧ n ≤ c.size
  · obtain ⟨pre, b, post, hsplit, hpre, hb⟩ :=
      exists_first_split (fun c : Block => c.inUse = false ∧ n ≤ c.size) p.pool hex
    have hmem : b ∈ p.pool := by rw [hsplit]; simp
    rw [allocate_fit p n owner got pre post b hn hsplit hpre hb]
    refine ⟨Or.inl ⟨b, hmem, rfl, hb.1⟩, ?_⟩
    intro c hc hcu hcm
    have hcb := hwf.eq_of_memory_eq pre post b hsplit c hc hcm
    rw [hcb, hb.1] at hcu
    exact Bool.noConfusion hcu
  · have hnone : ∀ c ∈ p.pool, ¬ (c.inUse = false ∧ n ≤ c.size) :=
      fun c hc hfit => hex ⟨c, hc, hfit⟩
    by_cases ha : got.addr = 0
    · rw [allocate_fail p n owner got hn hnone ha] at hok
      exact absurd rfl hok
    · have hne := MallocOK.ne_of_mem hwf n got hm ha (Nat.pos_of_ne_zero hn)
      rw [allocate_grow p n owner got hn hnone ha]
      exact ⟨Or.inr ⟨hne, _, rfl, rfl⟩, fun c hc _ => hne c hc⟩

/-- C28 at the default pool after `allocate(64, "Sensor")`: the next `allocate(64, "Other")`
returns `131072`, not the handle `65536` that is still out. -/
theorem allocate_no_double_lease_witness :
    (leasedPool.pool.getD 0 (Block.new 0 (spacedMalloc 0))).memory = 65536 ∧
      (leasedPool.allocate 64 "Other" nextChunk).ret = 131072 ∧
      (leasedPool.pool.getD 0 (Block.new 0 (spacedMalloc 0))).memory
        ≠ (leasedPool.allocate 64 "Other" nextChunk).ret :=
  ⟨by decide, by decide,
   (allocate_no_double_lease leasedPool leasedPool_reachable 64 "Other" nextChunk
      (by decide) (by decide)).2
    (leasedPool.pool.getD 0 (Block.new 0 (spacedMalloc 0)))
    (List.mem_of_mem_head? (by rfl)) (by decide)⟩

/-- C29: on a pool whose blocks are those the constructor made (same addresses and sizes, in
the same order, with any pattern of `inUse` flags), for `n > 0`, the block `b` that a search in
pool order finds first among the free blocks with `size ≥ n` is the one whose handle
`allocate` returns, and no free block with `size ≥ n` is smaller than `b`. -/
theorem first_fit_is_best_fit_unless_grown (p : MemoryPool) (initialSize : Nat)
    (malloc : Nat → Chunk) (n : Nat) (owner : String) (got : Chunk) (b : Block)
    (hsame : regions p.pool = regions (new initialSize malloc).state.pool) (hn : 0 < n)
    (hfind : p.pool.find? (fun c => !c.inUse && decide (n ≤ c.size)) = some b) :
    (p.allocate n owner got).ret = b.memory ∧
      ∀ c ∈ p.pool, c.inUse = false → n ≤ c.size → b.size ≤ c.size := by
  rw [List.find?_eq_some] at hfind
  obtain ⟨hb, pre, post, hsplit, hpre⟩ := hfind
  simp only [Bool.and_eq_true, Bool.not_eq_true', decide_eq_true_eq] at hb
  have hpre1 : ∀ c ∈ pre, ¬ (c.inUse = false ∧ n ≤ c.size) := by
    intro c hc hfit
    have := hpre c hc
    simp [hfit.1, hfit.2] at this
  have hsizes : p.pool.map (fun c => c.size)
      = (new initialSize malloc).state.pool.map (fun c => c.size) := by
    have := congrArg (List.map Prod.snd) hsame
    simpa [regions, List.map_map, Function.comp_def] using this
  have hsorted := new_sorted initialSize malloc
  rw [← hsizes, hsplit] at hsorted
  simp only [List.map_append, List.map_cons] at hsorted
  rw [List.pairwise_append, List.pairwise_cons] at hsorted
  rw [allocate_fit p n owner got pre post b (Nat.pos_iff_ne_zero.1 hn) hsplit hpre1 hb]
  refine ⟨rfl, ?_⟩
  intro c hc hfree hfit
  rw [hsplit] at hc
  have hc1 : c ∈ pre ∨ c = b ∨ c ∈ post := by simpa using hc
  rcases hc1 with hc1 | hc1 | hc1
  · exact absurd ⟨hfree, hfit⟩ (hpre1 c hc1)
  · rw [hc1]
  · exact hsorted.2.1.1 c.size (List.mem_map.2 ⟨c, hc1, rfl⟩)

/-- C29 at the default pool with its first block in use: for `n = 10` the second 64-byte
block is chosen. -/
theorem first_fit_is_best_fit_unless_grown_witness :
    (leasedPool.allocate 10 "Other" nextChunk).ret = 131072 ∧
      (leasedPool.allocate 10 "Other" nextChunk).ret
        = (leasedPool.pool.getD 1 (Block.new 0 (spacedMalloc 0))).memory ∧
      (leasedPool.pool.getD 1 (Block.new 0 (spacedMalloc 0))).size = 64 :=
  ⟨by decide,
   (first_fit_is_best_fit_unless_grown leasedPool defaultInitialSize spacedMalloc 10 "Other"
      nextChunk (leasedPool.pool.getD 1 (Block.new 0 (spacedMalloc 0))) (by decide)
      (by decide) (by rfl)).1,
   by decide⟩

end MemoryPool

namespace MemoryManager

/-! ## Calls that `deallocateMemory` turns away -/

theorem logToFile_no_free (m : MemoryManager) (message : String) (q : Nat) :
    Event.free q ∉ logToFile m message := by
  unfold logToFile
  by_cases h : m.logOpen = false <;> simp [h]

theorem deallocateMemory_noop (m : MemoryManager) (ptr : Nat) (isArray : Bool)
    (h : ptr = 0 ∨ mapFind ptr m.allocations = none) :
    (m.deallocateMemory ptr isArray).state = m ∧
      ∀ q, Event.free q ∉ (m.deallocateMemory ptr isArray).out := by
  by_cases hptr : ptr = 0
  · subst hptr
    refine ⟨deallocateMemory_null m isArray, fun q => ?_⟩
    simp only [deallocateMemory, if_true]
    exact logToFile_no_free m _ q
  · have hnone := h.resolve_left hptr
    refine ⟨deallocateMemory_untracked m ptr isArray hnone, fun q => ?_⟩
    unfold deallocateMemory
    rw [if_neg hptr, hnone]
    intro hmem
    rcases List.mem_append.1 hmem with hmem | hmem
    · exact logToFile_no_free m _ q hmem
    · simp at hmem

theorem WF.find_erase {m : MemoryManager} (h : WF m) (ptr : Nat) (info : AllocationInfo)
    (hfind : mapFind ptr m.allocations = some info) :
    mapFind ptr (mapErase ptr m.allocations) = none := by
  rw [mapFind_eq_none]
  intro e he heq
  have hperm := tracked_of_find m ptr info hfind
  have hap := (hperm.pairwise_iff (fun hxy => apart_symm hxy)).1 h.apart
  have hmem : (e.1, e.2.size) ∈ (mapErase ptr m.allocations).map
      (fun entry => (entry.1, entry.2.size)) := List.mem_map.2 ⟨e, he, rfl⟩
  have hfar := (List.pairwise_cons.1 hap).1 _ hmem
  have hpos1 := (h.region _ ((hperm.mem_iff).2 (List.mem_cons_self _ _))).2.1
  have hpos2 := (h.region _ ((hperm.mem_iff).2 (List.mem_cons_of_mem _ hmem))).2.1
  simp only [MemoryPool.Apart] at hfar hpos1 hpos2
  omega

theorem deallocateMemory_then_untracked {m : MemoryManager} (h : WF m) (ptr : Nat)
    (isArray : Bool) :
    ptr = 0 ∨ mapFind ptr (m.deallocateMemory ptr isArray).state.allocations = none := by
  by_cases hptr : ptr = 0
  · exact Or.inl hptr
  right
  cases hfind : mapFind ptr m.allocations with
  | none => rw [deallocateMemory_untracked m ptr isArray hfind]; exact hfind
  | some info =>
    rw [deallocateMemory_tracked m ptr isArray info hptr hfind]
    exact h.find_erase ptr info hfind

theorem operatorNew_none (nodeSize messageSize : Nat) (malloc : Nat → Nat)
    (resume : Nat → MemoryManager → Nat → Result Nat → Option (Result Nat)) (fuel : Nat) :
    ∀ (depth : Nat) (m : MemoryManager) (size : Nat),
      operatorNew nodeSize messageSize malloc resume fuel depth m size = none := by
  induction fuel with
  | zero => intro depth m size; rfl
  | succ fuel ih =>
    intro depth m size
    unfold operatorNew
    split
    · rw [ih]; rfl
    · split
      · rw [ih]; rfl
      · rw [ih]; rfl

/-! ## The claims about `MemoryManager`, concluded -/

/-- C21: in any state `m` a fresh manager reaches, `deallocateMemory` on a null pointer or on a
pointer that is not tracked leaves every counter and every tracked entry as they were and
calls `free` on nothing; and after one `deallocateMemory(ptr)` a second one on the same
pointer is such a call: it changes nothing and frees nothing. -/
theorem deallocateMemory_rejects_untracked (opened : Bool) (calls : List Call)
    (m : MemoryManager) (hm : m = (new opened).state.run calls)
    (hc : CallsOK (new opened).state calls) (ptr : Nat) (isArray again : Bool) :
    ((ptr = 0 ∨ mapFind ptr m.allocations = none) →
        (m.deallocateMemory ptr isArray).state = m ∧
          ∀ q, Event.free q ∉ (m.deallocateMemory ptr isArray).out) ∧
      ((m.deallocateMemory ptr isArray).state.deallocateMemory ptr again).state
        = (m.deallocateMemory ptr isArray).state ∧
      ∀ q, Event.free q ∉
        ((m.deallocateMemory ptr isArray).state.deallocateMemory ptr again).out := by
  have hwf : WF m := hm ▸ WF_run calls (WF_constructed opened) hc
  have hsecond := deallocateMemory_noop (m.deallocateMemory ptr isArray).state ptr again
    (deallocateMemory_then_untracked hwf ptr isArray)
  exact ⟨fun h => deallocateMemory_noop m ptr isArray h, hsecond.1, hsecond.2⟩

/-- C21 after `peakCalls`, where `12288` is still tracked: its first `deallocateMemory` frees
it, the second changes nothing and frees nothing. -/
theorem deallocateMemory_rejects_untracked_witness :
    Event.free 12288 ∈ (((new true).state.run peakCalls).deallocateMemory 12288 true).out ∧
      ((((new true).state.run peakCalls).deallocateMemory 12288 true).state.deallocateMemory
          12288 true).state
        = (((new true).state.run peakCalls).deallocateMemory 12288 true).state ∧
      Event.free 12288 ∉
        ((((new true).state.run peakCalls).deallocateMemory 12288 true).state.deallocateMemory
          12288 true).out :=
  have h := deallocateMemory_rejects_untracked true peakCalls _ rfl (by decide) 12288 true true
  ⟨by decide, h.2.1, h.2.2 12288⟩

/-- C27 fails on the code: with `globalMemoryManager` set, a call of the replaced
`operator new` does not return at any nesting depth, whatever the size asked for, whatever
`malloc` returns and whatever `allocateMemory` would do afterwards: before it tracks anything,
`allocateMemory` makes the standard library call `operator new` again. -/
theorem operatorNew_never_returns (nodeSize messageSize : Nat) (malloc : Nat → Nat)
    (resume : Nat → MemoryManager → Nat → Result Nat → Option (Result Nat)) (fuel : Nat)
    (m : MemoryManager) (size : Nat) :
    operatorNew nodeSize messageSize malloc resume fuel 0 m size = none :=
  operatorNew_none nodeSize messageSize malloc resume fuel 0 m size

end MemoryManager

namespace SecureAccount

/-! ## SecureAccount -/

theorem deposit_false_unchanged {D : Type} (ops : DoubleOps D) (a : SecureAccount D)
    (amount : D) (h : (deposit ops a amount).ret = false) : (deposit ops a amount).state = a := by
  unfold deposit at h ⊢
  split
  · rfl
  · split
    · rfl
    · split
      · rfl
      · rename_i h1 h2 h3
        simp [h1, h2, h3] at h

theorem withdraw_false_unchanged {D : Type} (ops : DoubleOps D) (a : SecureAccount D)
    (amount : D) (h : (withdraw ops a amount).ret = false) :
    (withdraw ops a amount).state = a := by
  unfold withdraw at h ⊢
  split
  · rfl
  · split
    · rfl
    · split
      · rfl
      · split
        · rfl
        · rename_i h1 h2 h3 h4
          simp [h1, h2, h3, h4] at h

theorem logTransaction_isActive {D : Type} (a : SecureAccount D) (t : String) :
    (logTransaction a t).isActive = a.isActive := rfl

theorem logTransaction_balance {D : Type} (a : SecureAccount D) (t : String) :
    (logTransaction a t).balance = a.balance := rfl

/-- C22 fails on the code: on an active account `deposit` of the value NaN returns `true`,
although `0 < NaN` does not hold, and `balance` becomes `balance + NaN`, which is NaN; after
that `withdraw` returns `true` for every amount that is neither `<= 0` nor `> 10000`, whatever
was paid in. This holds for every reading of the `double` operations that treats NaN as
IEEE 754 does. -/
theorem deposit_accepts_nan {D : Type} (ops : DoubleOps D) (laws : NanLaws ops)
    (a : SecureAccount D) (hactive : a.isActive = true) :
    (deposit ops a ops.nan).ret = true ∧
      ops.lt (ops.lit 0) ops.nan = false ∧
      (deposit ops a ops.nan).state.balance = ops.add a.balance ops.nan ∧
      (deposit ops a ops.nan).state.balance = ops.nan ∧
      ∀ amount, ops.le amount (ops.lit 0) = false → ops.gt amount (ops.lit 10000) = false →
        (withdraw ops (deposit ops a ops.nan).state amount).ret = true := by
  have h1 : ¬ a.isActive = false := by rw [hactive]; exact Bool.noConfusion
  have h2 : ¬ ops.le ops.nan (ops.lit 0) = true := by rw [laws.le_nan]; exact Bool.noConfusion
  have h3 : ¬ ops.gt ops.nan (ops.lit 50000) = true := by
    rw [laws.gt_nan]; exact Bool.noConfusion
  have hdep : deposit ops a ops.nan =
      { ret := true,
        state := logTransaction { a with balance := ops.add a.balance ops.nan }
          ("Deposit: +$" ++ ops.to_string ops.nan),
        out := ["Successfully deposited $" ++ ops.fixed2 ops.nan ++ ". New balance: $"
                  ++ ops.fixed2 (ops.add a.balance ops.nan)] } := by
    unfold deposit
    rw [if_neg h1, if_neg h2, if_neg h3]
  rw [hdep]
  refine ⟨rfl, laws.lt_nan _, rfl, laws.add_nan _, ?_⟩
  intro amount hle hgt
  unfold withdraw
  simp only [logTransaction_isActive, logTransaction_balance]
  rw [if_neg h1, if_neg (by rw [hle]; exact Bool.noConfusion),
    if_neg (by rw [laws.add_nan, laws.gt_right_nan]; exact Bool.noConfusion),
    if_neg (by rw [hgt]; exact Bool.noConfusion)]

/-- C22 at the account of `main`, in the reading `sampleOps`: `deposit(NaN)` is accepted, the
balance is NaN afterwards, and a withdrawal of 10000 from the 1500 paid in is accepted. -/
theorem deposit_accepts_nan_witness :
    (deposit sampleOps sampleAccount sampleOps.nan).ret = true ∧
      (deposit sampleOps sampleAccount sampleOps.nan).state.balance = none ∧
      (withdraw sampleOps (deposit sampleOps sampleAccount sampleOps.nan).state
        (some 10000)).ret = true :=
  have h := deposit_accepts_nan sampleOps
    ⟨fun _ => rfl, fun _ => rfl, fun x => by cases x <;> rfl, fun x => by cases x <;> rfl,
     fun x => by cases x <;> rfl⟩ sampleAccount rfl
  ⟨h.1, h.2.2.2.1, h.2.2.2.2 (some 10000) (by decide) (by decide)⟩

end SecureAccount

namespace Inventory

/-! ## The inventory list -/

theorem removeLoop_eq (item : String) (rest : List String) :
    ∀ item0 : String, item0 ≠ item →
      removeLoop item item0 rest = (decide (item ∈ rest), item0 :: rest.erase item) := by
  induction rest with
  | nil => intro item0 _; simp [removeLoop]
  | cons nxt more ih =>
    intro item0 h0
    by_cases hn : nxt = item
    · subst hn
      simp [removeLoop]
    · have hne : ¬ item = nxt := fun h => hn h.symm
      rw [removeLoop, if_neg hn, ih nxt hn]
      simp [hne, hn, List.erase_cons_tail]

theorem removeItem_eq (head : List String) (item : String) :
    removeItem head item = (decide (item ∈ head), head.erase item) := by
  cases head with
  | nil => simp [removeItem]
  | cons first rest =>
    by_cases hf : first = item
    · subst hf
      simp [removeItem]
    · have hne : ¬ item = first := fun h => hf h.symm
      simp only [removeItem, if_neg hf]
      rw [removeLoop_eq item rest first hf]
      simp [hne, hf, List.erase_cons_tail]

/-- C23: `removeItem(head, item)` returns `true` exactly when some node holds `item`; then
the list is the original one without the first node that holds `item`, all other nodes in
their order; otherwise the list is as it was. -/
theorem removeItem_removes_first (head : List String) (item : String) :
    ((removeItem head item).1 = true ↔ item ∈ head) ∧
      (item ∈ head → ∃ pre post, head = pre ++ item :: post ∧ item ∉ pre ∧
        (removeItem head item).2 = pre ++ post) ∧
      (item ∉ head → (removeItem head item).2 = head) := by
  rw [removeItem_eq]
  refine ⟨by simp, ?_, ?_⟩
  · intro hmem
    obtain ⟨pre, post, hpre, hsplit, herase⟩ := List.exists_erase_eq hmem
    exact ⟨pre, post, hsplit, hpre, herase⟩
  · intro hnot
    exact List.erase_of_not_mem hnot

/-- C23 at the inventory of `main` (lines 245-269). -/
theorem removeItem_removes_first_witness :
    removeItem ["Gold Coin", "Shield", "Magic Sword", "Health Potion"] "Health Potion"
        = (true, ["Gold Coin", "Shield", "Magic Sword"]) ∧
      removeItem ["Gold Coin", "Shield", "Magic Sword"] "Dragon Scale"
        = (false, ["Gold Coin", "Shield", "Magic Sword"]) ∧
      (removeItem ["a", "b", "a", "c"] "a").2 = ["b", "a", "c"] ∧
      ((removeItem ["a", "b", "a", "c"] "a").1 = true ↔ "a" ∈ ["a", "b", "a", "c"]) :=
  ⟨by decide, by decide, by decide, (removeItem_removes_first ["a", "b", "a", "c"] "a").1⟩

end Inventory

namespace CustomerId

/-! ## Customer ID validation -/

theorem validationLoop_returns (fuel : Nat) :
    ∀ (count id : Int) (input : List Extraction) (out : List String),
      (3 - count).toNat < fuel → ∃ r, validationLoop fuel count id input out = some r := by
  induction fuel with
  | zero => intro count id input out h; omega
  | succ fuel ih =>
    intro count id input out h
    unfold validationLoop
    by_cases hc : count < 3
    · rw [if_pos hc]
      have hnext : (3 - (validationBody count out).1).toNat < fuel := by
        simp only [validationBody]
        omega
      rcases hin : next input with ⟨e, rest⟩
      cases e with
      | ok value =>
        simp only []
        by_cases hv : value < 1000 ∨ value > 10000
        · rw [if_pos hv]; exact ih _ _ _ _ hnext
        · rw [if_neg hv]; exact ⟨_, rfl⟩
      | failed stored => exact ih _ _ _ _ hnext
      | eof => exact ih _ _ _ _ hnext
    · rw [if_neg hc]; exact ⟨_, rfl⟩

/-- C24 fails on the code: `validation.cpp` reports `10000` when `10000` is entered, and
after three invalid entries (`5`, `5`, `5`) it stops asking and reports `5`, whatever follows;
it ends within three rounds on every input. `solution_1.cpp` on the same inputs turns `10000`
and `5` away and reports the first value in `1000..9999`. -/
theorem validation_reports_out_of_range :
    (∀ garbage : Int, (validationMain 4 garbage [Extraction.ok 10000]).map (fun r => r.id)
        = some 10000) ∧
      (∀ garbage : Int,
        (validationMain 4 garbage
            [Extraction.ok 5, Extraction.ok 5, Extraction.ok 5, Extraction.ok 2000]).map
          (fun r => r.id) = some 5) ∧
      (∀ (garbage : Int) (input : List Extraction),
        ∃ r, validationMain 4 garbage input = some r) ∧
      (∀ garbage : Int,
        (solutionMain 3 garbage [Extraction.ok 10000, Extraction.ok 1234]).map (fun r => r.id)
          = some 1234) ∧
      (∀ garbage : Int,
        (solutionMain 5 garbage
            [Extraction.ok 5, Extraction.ok 5, Extraction.ok 5, Extraction.ok 2000]).map
          (fun r => r.id) = some 2000) := by
  refine ⟨fun _ => rfl, fun _ => rfl, ?_, fun _ => rfl, fun _ => rfl⟩
  intro garbage input
  exact validationLoop_returns 4 0 garbage input _ (by decide)

end CustomerId

namespace PhoneRegex

/-! ## Phone number validation -/

/-- C25 fails on the code: `validatePhone` returns `false` for every string that begins with
`(`, so for every string of the form `(ddd) ddd-dddd`, among them `(123) 456-7890`; it returns
`true` for every string of the form `ddd-ddd-dddd`. -/
theorem validatePhone_rejects_parenthesised :
    (∀ rest : List Char, validatePhone ('(' :: rest) = false) ∧
      validatePhone "(123) 456-7890".toList = false ∧
      ∀ d0 d1 d2 d3 d4 d5 d6 d7 d8 d9 : Char,
        isDigit d0 = true → isDigit d1 = true → isDigit d2 = true → isDigit d3 = true →
        isDigit d4 = true → isDigit d5 = true → isDigit d6 = true → isDigit d7 = true →
        isDigit d8 = true → isDigit d9 = true →
        validatePhone [d0, d1, d2, '-', d3, d4, d5, '-', d6, d7, d8, d9] = true := by
  refine ⟨?_, by decide, ?_⟩
  · intro rest
    have hd : isDigit '(' = false := by decide
    simp [validatePhone, regex_match, phone_pattern, firstAlternative, secondAlternative,
      Rx.rests, iterate, hd]
  · intro d0 d1 d2 d3 d4 d5 d6 d7 d8 d9 h0 h1 h2 h3 h4 h5 h6 h7 h8 h9
    have hdash : isDigit '-' = false := by decide
    simp [validatePhone, regex_match, phone_pattern, firstAlternative, secondAlternative,
      Rx.rests, iterate, h0, h1, h2, h3, h4, h5, h6, h7, h8, h9, hdash]

end PhoneRegex

namespace WordCounter

/-! ## Word counter -/

theorem isspace_cleaned (c : Char) :
    isspace (if isalnum c then c else ' ') = !isalnum c := by
  by_cases h : isalnum c = true
  · rw [if_pos h, h]
    simp only [isalnum, Bool.or_eq_true, Bool.and_eq_true, decide_eq_true_eq] at h
    simp only [isspace, Bool.not_true, Bool.or_eq_false_iff, Bool.and_eq_false_iff,
      decide_eq_false_iff_not]
    omega
  · have hf : isalnum c = false := by simpa using h
    rw [if_neg h, hf]
    decide

theorem runsFrom_cleaned (inRun : Bool) (text : List Char) :
    runsFrom (fun c => !isspace c) inRun (cleaned text) = runsFrom isalnum inRun text := by
  induction text generalizing inRun with
  | nil => rfl
  | cons c rest ih =>
    have hk : (!isspace (if isalnum c = true then c else ' ')) = isalnum c := by
      rw [isspace_cleaned c, Bool.not_not]
    simp only [cleaned, List.map_cons, runsFrom] at ih ⊢
    simp only [hk]
    by_cases h : isalnum c = true
    · rw [if_pos h, if_pos h, ih true]
    · rw [if_neg h, if_neg h, ih false]

theorem runsFrom_le (q : Char → Bool) (inRun : Bool) (s : List Char) :
    runsFrom q inRun s ≤ s.length := by
  induction s generalizing inRun with
  | nil => simp [runsFrom]
  | cons c rest ih =>
    simp only [runsFrom, List.length_cons]
    have h1 := ih true
    have h2 := ih false
    by_cases hq : q c = true
    · rw [if_pos hq]
      split <;> omega
    · rw [if_neg hq]
      omega

theorem runsFrom_dropWhile_space (s : List Char) :
    runsFrom (fun c => !isspace c) false (s.dropWhile isspace)
      = runsFrom (fun c => !isspace c) false s := by
  induction s with
  | nil => rfl
  | cons c rest ih =>
    by_cases h : isspace c = true
    · simp [List.dropWhile, runsFrom, h, ih]
    · simp [List.dropWhile, h]

theorem runsFrom_true_dropWhile (t : List Char) :
    runsFrom (fun c => !isspace c) true t
      = runsFrom (fun c => !isspace c) false (t.dropWhile (fun c => !isspace c)) := by
  induction t with
  | nil => rfl
  | cons d u ih =>
    by_cases h : isspace d = true
    · simp [List.dropWhile, runsFrom, h]
    · simp [List.dropWhile, runsFrom, h, ih]

theorem extractWord_none (s : List Char) (h : extractWord s = none) :
    runsFrom (fun c => !isspace c) false s = 0 := by
  unfold extractWord at h
  by_cases hd : s.dropWhile isspace = []
  · rw [← runsFrom_dropWhile_space, hd]
    rfl
  · rw [if_neg hd] at h
    exact Option.noConfusion h

theorem extractWord_some (s word rest : List Char) (h : extractWord s = some (word, rest)) :
    runsFrom (fun c => !isspace c) false s
        = 1 + runsFrom (fun c => !isspace c) false rest ∧
      rest.length < s.length := by
  unfold extractWord at h
  by_cases hd : s.dropWhile isspace = []
  · rw [if_pos hd] at h
    exact Option.noConfusion h
  · rw [if_neg hd] at h
    have hrest : rest = (s.dropWhile isspace).dropWhile (fun c => !isspace c) :=
      (congrArg Prod.snd (Option.some.inj h)).symm
    have hlen : (s.dropWhile isspace).length ≤ s.length :=
      (List.dropWhile_sublist _).length_le
    cases hs1 : s.dropWhile isspace with
    | nil => exact absurd hs1 hd
    | cons c t =>
      have hc : isspace c = false := by
        have := List.head_dropWhile_not isspace s (by rw [hs1]; simp)
        simpa [hs1] using this
      rw [hs1] at hrest hlen
      have hrest2 : rest = t.dropWhile (fun c => !isspace c) := by
        rw [hrest]
        simp [List.dropWhile, hc]
      have hlen2 : rest.length ≤ t.length := by
        rw [hrest2]
        exact (List.dropWhile_sublist _).length_le
      constructor
      · rw [← runsFrom_dropWhile_space, hs1, hrest2, ← runsFrom_true_dropWhile]
        simp [runsFrom, hc]
      · simp only [List.length_cons] at hlen
        omega

theorem countLoop_eq (fuel : Nat) :
    ∀ (s : List Char) (count : Nat), s.length < fuel →
      count + runsFrom (fun c => !isspace c) false s ≤ INT_MAX →
      countLoop fuel s count = some (count + runsFrom (fun c => !isspace c) false s) := by
  induction fuel with
  | zero => intro s count h; omega
  | succ fuel ih =>
    intro s count hlen hmax
    unfold countLoop
    cases hx : extractWord s with
    | none =>
      simp only []
      rw [extractWord_none s hx]
      rfl
    | some wr =>
      obtain ⟨word, rest⟩ := wr
      obtain ⟨hruns, hshort⟩ := extractWord_some s word rest hx
      simp only []
      rw [hruns] at hmax ⊢
      have hne : ¬ count = INT_MAX := by omega
      rw [if_neg hne, ih rest (count + 1) (by omega) (by omega)]
      congr 1
      omega

/-- C30: for every string of at most `INT_MAX` characters, `count_words` returns the number
of maximal runs of consecutive alphanumeric characters of the string; this is `0` when the
string has no alphanumeric character. -/
theorem count_words_counts_runs (text : List Char) (hlen : text.length ≤ INT_MAX) :
    count_words text = some (alnumRuns text) ∧
      ((∀ c ∈ text, isalnum c = false) → count_words text = some 0) := by
  have hcl : (cleaned text).length = text.length := by simp [cleaned]
  have hruns : runsFrom (fun c => !isspace c) false (cleaned text) = alnumRuns text :=
    runsFrom_cleaned false text
  have hle := runsFrom_le isalnum false text
  have hmain : count_words text = some (alnumRuns text) := by
    unfold count_words
    rw [countLoop_eq _ (cleaned text) 0 (by omega) (by rw [hruns]; unfold alnumRuns; omega),
      hruns, Nat.zero_add]
  refine ⟨hmain, ?_⟩
  intro hnone
  rw [hmain]
  congr 1
  unfold alnumRuns
  clear hmain hle hruns hcl hlen
  generalize false = inRun
  induction text generalizing inRun with
  | nil => rfl
  | cons c rest ih =>
    have hc := hnone c (List.mem_cons_self _ _)
    simp only [runsFrom, hc]
    exact ih (fun d hd => hnone d (List.mem_cons_of_mem _ hd)) false

/-- C30 at the string of `main.cpp`: eight words. -/
theorem count_words_counts_runs_witness :
    count_words sampleText = some 8 ∧ alnumRuns sampleText = 8 ∧
      count_words sampleText = some (alnumRuns sampleText) :=
  ⟨by decide, by decide, (count_words_counts_runs sampleText (by decide)).1⟩

end WordCounter
